import Mathlib

/-!
# Web_proxy: the response cache and the Cache-Control parser

A shallow embedding of `src/cache.c`, `src/cache.h`, `src/extract.c` and of
the parts of `handle_client_request` in `src/htproxy.c` that work on the cache,
log the request tail and accumulate the origin response.

Conventions of the embedding

* A C buffer of bytes is a `List Char`; a NUL-terminated C string is read
  through `cstr`, the bytes in front of the first NUL.
* A `char *` that points into a string is the suffix of the string that starts
  at the pointed position, so a pointer difference is a difference of lengths.
* `uint64_t` and `uint32_t` values are natural numbers, reduced modulo `2^64`
  where the C arithmetic can wrap.
* `get_monotonic_time_ms()` is an input: every function that reads the clock
  takes the reading as an argument `now`.
* `malloc`, `realloc` and `strdup` succeed.  Byte counts handed to them are
  natural numbers.
* A call whose C behaviour is undefined (a store through `entries[-1]` or
  through an uninitialised index) has the result `none`.
* `printf` output is not part of the state: the lines that a function prints
  are given by a companion function whose name ends in `_output`.
* An `int` is an integer.  Where a loop copies into a buffer of fixed size or
  reads through a pointer that walks backwards, the copy or the read is checked
  against the bounds of the buffer, and the result is `none` when it falls
  outside (or when a product leaves the range of `int`).
-/

namespace WebProxy

/-! ## Constants of `cache.h` -/

/-- Number of slots: `#define MAX_CACHE_ENTRIES 10`. -/
abbrev MAX_CACHE_ENTRIES : Nat := 10

/-- Largest response kept: `#define MAX_CACHE_ENTRY_SIZE (100 * 1024)`. -/
abbrev MAX_CACHE_ENTRY_SIZE : Nat := 100 * 1024

/-- Largest request kept: `#define MAX_REQUEST_SIZE_TO_CACHE 2000`. -/
abbrev MAX_REQUEST_SIZE_TO_CACHE : Nat := 2000

/-- The constant `UINT64_MAX`. -/
abbrev UINT64_MAX : Nat := 2 ^ 64 - 1

/-- The constant `UINT32_MAX`. -/
abbrev UINT32_MAX : Nat := 2 ^ 32 - 1

/-- The constant `LONG_MAX` of a 64-bit `long`. -/
abbrev LONG_MAX : Int := 2 ^ 63 - 1

/-- The constant `LONG_MIN` of a 64-bit `long`. -/
abbrev LONG_MIN : Int := -(2 ^ 63)

/-! ## Data model of `cache.h` -/

/-- The struct `cache_entry_t`. -/
structure cache_entry_t where
  request : List Char
  request_len : Nat
  response : List Char
  response_len : Nat
  last_accessed : Nat
  host : List Char
  uri : List Char
  valid : Bool
  cached_at : Nat
  max_age : Nat
deriving DecidableEq, Repr

/-- The struct `cache_t`; `entries` is the array of `MAX_CACHE_ENTRIES` slots. -/
structure cache_t where
  entries : Fin MAX_CACHE_ENTRIES → cache_entry_t
  size : Int
  access_sequence : Nat
  start_time : Nat

/-- A slot after `memset(cache, 0, sizeof(cache_t))`. -/
def zero_entry : cache_entry_t :=
  { request := [], request_len := 0, response := [], response_len := 0,
    last_accessed := 0, host := [], uri := [], valid := false,
    cached_at := 0, max_age := 0 }

/-- The index range of `for (int i = 0; i < MAX_CACHE_ENTRIES; i++)`. -/
def slots : List (Fin MAX_CACHE_ENTRIES) := [0, 1, 2, 3, 4, 5, 6, 7, 8, 9]

/-- Store to `cache->entries[i]`. -/
def set_entry (c : cache_t) (i : Fin MAX_CACHE_ENTRIES) (e : cache_entry_t) : cache_t :=
  { c with entries := fun j => if j = i then e else c.entries j }

/-- The comparison `memcmp(a, b, n) == 0`. -/
def memcmp_eq (a b : List Char) (n : Nat) : Bool :=
  decide (a.take n = b.take n)

/-- The number of slots whose `valid` flag is set. -/
def valid_count (c : cache_t) : Nat :=
  slots.countP (fun i => (c.entries i).valid)

/-! ## Operations of `cache.c` -/

/-- The function `cache_init`; `now` is the clock reading stored in `start_time`. -/
def cache_init (now : Nat) : cache_t :=
  { entries := fun _ => zero_entry, size := 0, access_sequence := 0, start_time := now }

/-- The function `cache_cleanup`. -/
def cache_cleanup (c : cache_t) : cache_t :=
  { c with
    entries := fun i => if (c.entries i).valid then { c.entries i with valid := false }
                        else c.entries i
    size := 0 }

/-- The function `is_cache_entry_stale`; the subtraction and the product are
those of `uint64_t`. -/
def is_cache_entry_stale (c : cache_t) (index : Fin MAX_CACHE_ENTRIES) (now : Nat) : Bool :=
  if !(c.entries index).valid || (c.entries index).max_age == 0 then false
  else
    let age_ms := (now + 2 ^ 64 - (c.entries index).cached_at % 2 ^ 64) % 2 ^ 64
    let max_age_ms := ((c.entries index).max_age * 1000) % 2 ^ 64
    decide (age_ms > max_age_ms)

/-- The function `cache_update_lru`, for an index inside the table. -/
def cache_update_lru (c : cache_t) (index : Fin MAX_CACHE_ENTRIES) : cache_t :=
  if (c.entries index).valid then
    let seq := (c.access_sequence + 1) % 2 ^ 64
    set_entry { c with access_sequence := seq } index
      { c.entries index with last_accessed := seq }
  else c

/-- The test of `cache_find` and of the stale scan on one slot. -/
def key_matches (c : cache_t) (i : Fin MAX_CACHE_ENTRIES) (request : List Char)
    (request_len : Nat) : Bool :=
  (c.entries i).valid && decide ((c.entries i).request_len = request_len) &&
    memcmp_eq (c.entries i).request request request_len

/-- The loop of `cache_find` over the remaining indices. -/
def cache_find_loop (c : cache_t) (request : List Char) (request_len : Nat) (now : Nat) :
    List (Fin MAX_CACHE_ENTRIES) → cache_t × Int
  | [] => (c, -1)
  | i :: rest =>
    if key_matches c i request request_len then
      if is_cache_entry_stale c i now then (c, -1)
      else (cache_update_lru c i, (i.val : Int))
    else cache_find_loop c request request_len now rest

/-- The function `cache_find`: the cache afterwards and the returned index. -/
def cache_find (c : cache_t) (request : List Char) (request_len : Nat) (now : Nat) :
    cache_t × Int :=
  cache_find_loop c request request_len now slots

/-- The first loop of `cache_find_lru`, carrying `lru_index` and `oldest_time`. -/
def lru_scan (c : cache_t) : List (Fin MAX_CACHE_ENTRIES) → Int × Nat → Int × Nat
  | [], acc => acc
  | i :: rest, (lru_index, oldest_time) =>
    if (c.entries i).valid && decide ((c.entries i).last_accessed < oldest_time) then
      lru_scan c rest ((i.val : Int), (c.entries i).last_accessed)
    else lru_scan c rest (lru_index, oldest_time)

/-- The loop `for i: if (!entries[i].valid) ...`, giving the first invalid index. -/
def first_invalid (c : cache_t) : List (Fin MAX_CACHE_ENTRIES) → Option (Fin MAX_CACHE_ENTRIES)
  | [] => none
  | i :: rest => if !(c.entries i).valid then some i else first_invalid c rest

/-- The function `cache_find_lru`. -/
def cache_find_lru (c : cache_t) : Int :=
  let lru_index := (lru_scan c slots (-1, UINT64_MAX)).1
  if lru_index = -1 then
    match first_invalid c slots with
    | some i => (i.val : Int)
    | none => lru_index
  else lru_index

/-- An `int` index as a slot of the table, when it is inside the array. -/
def slot_of_int (index : Int) : Option (Fin MAX_CACHE_ENTRIES) :=
  if h : 0 ≤ index ∧ index.toNat < MAX_CACHE_ENTRIES then some ⟨index.toNat, h.2⟩ else none

/-- The tail of `cache_add` (lines 138-168): fill slot `index` and mark it valid. -/
def fill_slot (c : cache_t) (index : Fin MAX_CACHE_ENTRIES) (request : List Char)
    (request_len : Nat) (response : List Char) (response_len : Nat)
    (host uri : List Char) (max_age : Nat) (now : Nat) : cache_t :=
  let seq := (c.access_sequence + 1) % 2 ^ 64
  set_entry { c with access_sequence := seq } index
    { request := request.take request_len, request_len := request_len,
      response := response.take response_len, response_len := response_len,
      last_accessed := seq, host := host, uri := uri, valid := true,
      cached_at := now, max_age := max_age }

/-- The function `cache_add`: the cache afterwards and the returned flag.  The
result is `none` where the C code stores through an index that is
uninitialised (no invalid slot although `size < MAX_CACHE_ENTRIES`) or `-1`. -/
def cache_add (c : cache_t) (request : List Char) (request_len : Nat)
    (response : List Char) (response_len : Nat) (host uri : List Char)
    (max_age : Nat) (now : Nat) : Option (cache_t × Int) :=
  if request_len > MAX_REQUEST_SIZE_TO_CACHE then some (c, 0)
  else if response_len > MAX_CACHE_ENTRY_SIZE then some (c, 0)
  else if c.size < MAX_CACHE_ENTRIES then
    match first_invalid c slots with
    | some index =>
      some (fill_slot { c with size := c.size + 1 } index request request_len
        response response_len host uri max_age now, 1)
    | none => none
  else
    match slot_of_int (cache_find_lru c) with
    | some index =>
      some (fill_slot c index request request_len response response_len host uri
        max_age now, 1)
    | none => none

/-- The function `cache_prepare_eviction_if_needed`. -/
def cache_prepare_eviction_if_needed (c : cache_t) (request_len : Nat) : cache_t × Int :=
  if request_len > MAX_REQUEST_SIZE_TO_CACHE then (c, 0)
  else if c.size ≥ MAX_CACHE_ENTRIES then
    match slot_of_int (cache_find_lru c) with
    | some index =>
      if (c.entries index).valid then
        (set_entry { c with size := c.size - 1 } index
          { c.entries index with valid := false }, 1)
      else (c, 1)
    | none => (c, 1)
  else (c, 0)

/-! ## C strings -/

/-- The bytes of a NUL-terminated C string: those in front of the first NUL. -/
def cstr (s : List Char) : List Char :=
  s.takeWhile (fun ch => ch != '\x00')

/-- Case-insensitive test that `s` begins with `needle`, as `strcasestr` compares. -/
def starts_with_ci : List Char → List Char → Bool
  | [], _ => true
  | _ :: _, [] => false
  | n :: ns, ch :: cs => n.toLower == ch.toLower && starts_with_ci ns cs

/-- The library function `strcasestr`: the suffix at the first case-insensitive match. -/
def strcasestr : List Char → List Char → Option (List Char)
  | [], needle => if needle.isEmpty then some [] else none
  | ch :: cs, needle =>
    if starts_with_ci needle (ch :: cs) then some (ch :: cs) else strcasestr cs needle

/-- The library function `strstr`: the suffix at the first match. -/
def strstr : List Char → List Char → Option (List Char)
  | [], needle => if needle.isEmpty then some [] else none
  | ch :: cs, needle =>
    if needle.isPrefixOf (ch :: cs) then some (ch :: cs) else strstr cs needle

/-- The library function `strchr` for a character other than NUL. -/
def strchr : List Char → Char → Option (List Char)
  | [], _ => none
  | ch :: cs, x => if ch == x then some (ch :: cs) else strchr cs x

/-- The loop `while (*p == ' ' || *p == '\t') p++`. -/
def skip_blanks (p : List Char) : List Char :=
  p.dropWhile (fun ch => ch == ' ' || ch == '\t')

/-- The library predicate `isspace` in the C locale. -/
def isspace (ch : Char) : Bool :=
  ch == ' ' || ch == '\t' || ch == '\n' || ch == '\x0b' || ch == '\x0c' || ch == '\r'

/-- The library predicate `isdigit`. -/
def isdigit (ch : Char) : Bool :=
  decide ('0' ≤ ch) && decide (ch ≤ '9')

/-- The value of a run of decimal digits, most significant first. -/
def digits_value (ds : List Char) : Nat :=
  ds.foldl (fun acc d => 10 * acc + (d.toNat - '0'.toNat)) 0

/-- The library function `strtol(s, &end_ptr, 10)` with a 64-bit `long`: the
returned value, clamped to `[LONG_MIN, LONG_MAX]`, and whether `end_ptr` moved
past `s` (a number was converted). -/
def strtol (s : List Char) : Int × Bool :=
  let s1 := s.dropWhile isspace
  let negative := s1.head? == some '-'
  let s2 := if s1.head? == some '-' || s1.head? == some '+' then s1.drop 1 else s1
  let ds := s2.takeWhile isdigit
  if ds.isEmpty then (0, false)
  else if negative then (max LONG_MIN (-(digits_value ds : Int)), true)
  else (min LONG_MAX (digits_value ds : Int), true)

/-! ## The Cache-Control parser of `cache.c` -/

/-- The text `"Cache-Control:"`. -/
def cache_control_name : List Char := "Cache-Control:".toList

/-- The text `"\r\n"`. -/
def crlf : List Char := ['\r', '\n']

/-- Lines 204-223 of `extract_max_age`, repeated as lines 262-282 of
`is_cacheable_response`: the copy `cache_control_value`, or `none` where the
function returns early (no `Cache-Control:` text, or no CRLF after it). -/
def cache_control_value (response_header : List Char) : Option (List Char) :=
  match strcasestr (cstr response_header) cache_control_name with
  | none => none
  | some cache_control_start =>
    let start := skip_blanks (cache_control_start.drop 14)
    match strstr start crlf with
    | none => none
    | some line_end => some (start.take (start.length - line_end.length))

/-- The test made for one directive name at `check_directive`: `strncmp` of the
name followed by the test of `next_char`. -/
def directive_at (check_directive : List Char) (name : List Char) (with_equals : Bool) : Bool :=
  name.isPrefixOf check_directive &&
    match check_directive.drop name.length with
    | [] => true
    | next_char :: _ =>
      next_char == ' ' || next_char == '\t' || next_char == ',' ||
        (with_equals && next_char == '=')

/-- The six tests of lines 300-345 at one position. -/
def blocking_at (check_directive : List Char) : Bool :=
  directive_at check_directive "private".toList true ||
  directive_at check_directive "no-store".toList true ||
  directive_at check_directive "no-cache".toList true ||
  directive_at check_directive "max-age=0".toList false ||
  directive_at check_directive "must-revalidate".toList true ||
  directive_at check_directive "proxy-revalidate".toList true

/-- The characters that separate directives. -/
def is_separator (ch : Char) : Bool :=
  ch == ' ' || ch == '\t' || ch == ','

/-- The loop of lines 291-352.  One unit of fuel is one iteration; every
iteration that continues removes at least one character. -/
def directive_loop : Nat → List Char → Int
  | 0, _ => 1
  | fuel + 1, check_directive =>
    match check_directive.dropWhile is_separator with
    | [] => 1
    | ch :: cs =>
      if blocking_at (ch :: cs) then 0
      else directive_loop fuel ((ch :: cs).dropWhile (fun x => !is_separator x))

/-- The function `is_cacheable_response`. -/
def is_cacheable_response (response_header : List Char) : Int :=
  match cache_control_value response_header with
  | none => 1
  | some value =>
    let lowered := value.map Char.toLower
    directive_loop (lowered.length + 1) lowered

/-- The function `extract_max_age`. -/
def extract_max_age (response_header : List Char) : Nat :=
  match cache_control_value response_header with
  | none => 0
  | some value =>
    match strcasestr value "max-age".toList with
    | none => 0
    | some max_age_pos =>
      match strchr max_age_pos '=' with
      | none => 0
      | some equals_pos =>
        let number := skip_blanks (equals_pos.drop 1)
        let max_age_value := (strtol number).1
        if !(strtol number).2 || max_age_value < 0 then 0
        else if max_age_value > UINT32_MAX then UINT32_MAX
        else max_age_value.toNat % 2 ^ 32


/-! ## The functions of `extract.c` -/

/-- The function `extract_request_uri`; `none` is the return value `NULL`.  A
pointer comparison `p >= line_end` inside one string is a comparison of the
lengths of the suffixes. -/
def extract_request_uri (request : List Char) : Option (List Char) :=
  match strstr (cstr request) crlf with
  | none => none
  | some line_end =>
    match strchr (cstr request) ' ' with
    | none => none
    | some first_space =>
      if first_space.length ≤ line_end.length then none
      else
        let uri_start := first_space.drop 1
        match strchr uri_start ' ' with
        | none => none
        | some second_space =>
          if second_space.length ≤ line_end.length then none
          else some (uri_start.take (uri_start.length - second_space.length))

/-- The function `extract_host_header`; `none` is the return value `NULL`.  The
parameter `request_len` is not read by the function. -/
def extract_host_header (request : List Char) : Option (List Char) :=
  let found :=
    match strcasestr (cstr request) "\nHost:".toList with
    | some host_header => some (host_header.drop 1)
    | none => strcasestr (cstr request) "Host:".toList
  match found with
  | none => none
  | some host_header =>
    let start := (host_header.drop 5).dropWhile (fun ch => ch == ' ')
    match strstr start crlf with
    | none => none
    | some line_end => some (start.take (start.length - line_end.length))

/-! ## The line logged after `Request tail` -/

/-- A read of the byte at `index` of a buffer, counted from its start; `none`
when the index is in front of the buffer or behind its last byte. -/
def read_at (buffer : List Char) (index : Int) : Option Char :=
  if index < 0 then none else buffer[index.toNat]?

/-- The loop of lines 122-126 of `handle_client_request`.  The argument is the
offset `last_line_start - request`; every iteration lowers it by one.  The
reads `last_line_start[-2]` and `last_line_start[-1]` are made in the order of
the `&&` chain, behind the test `last_line_start >= request + 2`; the result is
`none` when a read falls outside the buffer. -/
def last_line_start (request : List Char) : Nat → Option Nat
  | 0 => some 0
  | offset + 1 =>
    if 2 ≤ offset + 1 then
      match read_at request (((offset + 1 : Nat) : Int) - 2) with
      | none => none
      | some a =>
        if a == '\r' then
          match read_at request (((offset + 1 : Nat) : Int) - 1) with
          | none => none
          | some b => if b == '\n' then some (offset + 1) else last_line_start request offset
        else last_line_start request offset
    else last_line_start request offset

/-- Lines 114-133 of `handle_client_request`: the string `last_line` that is
printed after `Request tail`; `none` when the function returns before (no
CRLFCRLF in the buffer) or a read of the walk falls outside the buffer. -/
def last_line (request : List Char) : Option (List Char) :=
  match strstr (cstr request) (crlf ++ crlf) with
  | none => none
  | some header_end =>
    let offset := (cstr request).length - header_end.length
    match last_line_start (cstr request) offset with
    | none => none
    | some start => some (((cstr request).drop start).take (offset - start))

/-! ## The response loop of `handle_client_request` -/

/-- Size of `response_buffer`: `#define BUFFER_SIZE 65536`. -/
abbrev BUFFER_SIZE : Nat := 65536

/-- Size of `header_accumulator`: `#define MAX_REQUEST_SIZE 65536`. -/
abbrev MAX_REQUEST_SIZE : Nat := 65536

/-- The constant `INT_MAX` of a 32-bit `int`. -/
abbrev INT_MAX : Int := 2 ^ 31 - 1

/-- The variables of the loop of lines 257-345 that its copies depend on.
`complete_response` tells whether the pointer is not `NULL`;
`header_accumulator` holds the bytes copied into the array so far. -/
structure stream_t where
  complete_response : Bool
  complete_response_size : Int
  complete_response_capacity : Int
  header_accumulator : List Char
  header_bytes_accumulated : Int
  response_header_complete : Bool

/-- The variables in front of the loop (lines 236-255); `caching` is the test
`caching_enabled && total_request_len <= MAX_REQUEST_SIZE_TO_CACHE`. -/
def stream_init (caching : Bool) : stream_t :=
  { complete_response := caching
    complete_response_size := 0
    complete_response_capacity := if caching then BUFFER_SIZE else 0
    header_accumulator := []
    header_bytes_accumulated := 0
    response_header_complete := false }

/-- Lines 266-288: the copy of one chunk of `bytes_read` bytes into
`complete_response`, with the doubling in front of it.  The result is the new
size and capacity; `none` when the product `capacity * 2` leaves the range of
`int` or the `memcpy` writes outside the `capacity` bytes of the buffer. -/
def accumulate_response (s : stream_t) (bytes_read : Int) : Option (Int × Int) :=
  if s.complete_response then
    if s.complete_response_size + bytes_read > s.complete_response_capacity then
      if s.complete_response_capacity * 2 > INT_MAX then none
      else if 0 ≤ s.complete_response_size ∧
          s.complete_response_size + bytes_read ≤ s.complete_response_capacity * 2 then
        some (s.complete_response_size + bytes_read, s.complete_response_capacity * 2)
      else none
    else if 0 ≤ s.complete_response_size then
      some (s.complete_response_size + bytes_read, s.complete_response_capacity)
    else none
  else some (s.complete_response_size, s.complete_response_capacity)

/-- Lines 291-303: the copy of the chunk into `header_accumulator` and the
store of the NUL behind it.  The result is the bytes held and their number;
`none` when the `memcpy` or the store of the NUL writes outside the
`MAX_REQUEST_SIZE` bytes of the array. -/
def accumulate_header (s : stream_t) (chunk : List Char) : Option (List Char × Int) :=
  let bytes_read : Int := chunk.length
  let bytes_to_copy : Int :=
    if s.header_bytes_accumulated + bytes_read ≥ MAX_REQUEST_SIZE then
      MAX_REQUEST_SIZE - s.header_bytes_accumulated - 1
    else bytes_read
  if bytes_to_copy > 0 then
    if 0 ≤ s.header_bytes_accumulated ∧
        s.header_bytes_accumulated + bytes_to_copy ≤ MAX_REQUEST_SIZE ∧
        s.header_bytes_accumulated + bytes_to_copy < MAX_REQUEST_SIZE then
      some (s.header_accumulator ++ chunk.take bytes_to_copy.toNat,
        s.header_bytes_accumulated + bytes_to_copy)
    else none
  else some (s.header_accumulator, s.header_bytes_accumulated)

/-- One iteration of the loop of lines 257-345 for a chunk that `recv`
returned, every `send` succeeding. -/
def stream_step (s : stream_t) (chunk : List Char) : Option stream_t :=
  match accumulate_response s chunk.length with
  | none => none
  | some (size, capacity) =>
    if s.response_header_complete then
      some { s with complete_response_size := size, complete_response_capacity := capacity }
    else
      match accumulate_header s chunk with
      | none => none
      | some (header, accumulated) =>
        some { s with
          complete_response_size := size, complete_response_capacity := capacity,
          header_accumulator := header, header_bytes_accumulated := accumulated,
          response_header_complete := (strstr (cstr header) (crlf ++ crlf)).isSome }

/-- The loop of lines 257-345 over the chunks received until it is left. -/
def stream_loop (s : stream_t) : List (List Char) → Option stream_t
  | [] => some s
  | chunk :: rest =>
    match stream_step s chunk with
    | none => none
    | some s1 => stream_loop s1 rest

/-- The number of bytes in a sequence of chunks. -/
def total_bytes (chunks : List (List Char)) : Nat :=
  (chunks.map List.length).sum

/-! ## The cache steps of `handle_client_request` in `htproxy.c` -/

/-- The scan of lines 188-198 for a stale slot that holds the key; `now i` is
the clock reading taken if slot `i` reaches the staleness test. -/
def stale_scan (c : cache_t) (request : List Char) (total_request_len : Nat)
    (now : Fin MAX_CACHE_ENTRIES → Nat) : List (Fin MAX_CACHE_ENTRIES) → Int
  | [] => -1
  | i :: rest =>
    if key_matches c i request total_request_len && is_cache_entry_stale c i (now i) then
      (i.val : Int)
    else stale_scan c request total_request_len now rest

/-- How lines 153-204 end: the cached response of slot `cache_index` is served
and the function returns, or the request goes on to the origin with the local
`stale_entry_index`. -/
inductive lookup_t where
  | served (c : cache_t) (cache_index : Int)
  | fetch (c : cache_t) (stale_entry_index : Int)

/-- Lines 153-204 of `handle_client_request`: `request_len` is the number of
bytes received, `total_request_len` the length of the header block. -/
def request_lookup (caching_enabled : Bool) (c : cache_t) (request : List Char)
    (request_len total_request_len : Nat) (now_find : Nat)
    (now_scan : Fin MAX_CACHE_ENTRIES → Nat) : lookup_t :=
  if caching_enabled && decide (request_len ≤ MAX_REQUEST_SIZE_TO_CACHE) then
    let found := cache_find c request total_request_len now_find
    if found.2 ≠ -1 then lookup_t.served found.1 found.2
    else
      let stale_entry_index := stale_scan found.1 request total_request_len now_scan slots
      if stale_entry_index = -1 then
        lookup_t.fetch (cache_prepare_eviction_if_needed found.1 total_request_len).1 (-1)
      else lookup_t.fetch found.1 stale_entry_index
  else lookup_t.fetch c (-1)

/-- The release of the stale slot in lines 392-404 and 411-423. -/
def release_stale (c : cache_t) (stale_entry_index : Int) : Option cache_t :=
  if stale_entry_index ≠ -1 then
    match slot_of_int stale_entry_index with
    | some s =>
      some (set_entry { c with size := c.size - 1 } s { c.entries s with valid := false })
    | none => none
  else some c

/-- The replacement of the stale slot in lines 358-383. -/
def replace_stale (c : cache_t) (s : Fin MAX_CACHE_ENTRIES) (request : List Char)
    (total_request_len : Nat) (complete_response : List Char) (complete_response_size : Nat)
    (host request_uri : List Char) (max_age : Nat) (now : Nat) : cache_t :=
  cache_update_lru
    (set_entry c s
      { c.entries s with
        request := request.take total_request_len, request_len := total_request_len,
        response := complete_response.take complete_response_size,
        response_len := complete_response_size,
        host := host, uri := request_uri, cached_at := now, max_age := max_age }) s

/-- Lines 349-427 of `handle_client_request`, the commit after the response has
been streamed; `complete_response` is the accumulated copy, which exists when
caching is enabled and `total_request_len <= MAX_REQUEST_SIZE_TO_CACHE`. -/
def request_commit (caching_enabled : Bool) (c : cache_t) (stale_entry_index : Int)
    (request : List Char) (total_request_len : Nat) (complete_response : List Char)
    (complete_response_size : Nat) (header_accumulator : List Char)
    (host request_uri : List Char) (now : Nat) : Option cache_t :=
  if caching_enabled && decide (total_request_len ≤ MAX_REQUEST_SIZE_TO_CACHE) then
    if complete_response_size ≤ MAX_CACHE_ENTRY_SIZE then
      if is_cacheable_response header_accumulator ≠ 0 then
        let max_age := extract_max_age header_accumulator
        if stale_entry_index ≠ -1 then
          match slot_of_int stale_entry_index with
          | some s =>
            some (replace_stale c s request total_request_len complete_response
              complete_response_size host request_uri max_age now)
          | none => none
        else
          (cache_add c request total_request_len complete_response complete_response_size
            host request_uri max_age now).map Prod.fst
      else release_stale c stale_entry_index
    else release_stale c stale_entry_index
  else some c

/-- What the origin exchange of one request leaves for the commit: the
accumulated response, its size, the accumulated header text and the clock
reading of the commit. -/
structure origin_t where
  complete_response : List Char
  complete_response_size : Nat
  header_accumulator : List Char
  now_commit : Nat

/-- The data of one run of `handle_client_request` that the cache sees.
`origin` is `none` when the run returns before the commit (the origin cannot
be reached, or a `send` fails). -/
structure run_t where
  request : List Char
  request_len : Nat
  total_request_len : Nat
  host : List Char
  request_uri : List Char
  now_find : Nat
  now_scan : Fin MAX_CACHE_ENTRIES → Nat
  origin : Option origin_t

/-- The effect of one run of `handle_client_request` on the global cache. -/
def handle_client_request_cache (caching_enabled : Bool) (c : cache_t) (r : run_t) :
    Option cache_t :=
  match request_lookup caching_enabled c r.request r.request_len r.total_request_len
      r.now_find r.now_scan with
  | lookup_t.served c1 _ => some c1
  | lookup_t.fetch c1 stale_entry_index =>
    match r.origin with
    | none => some c1
    | some o =>
      request_commit caching_enabled c1 stale_entry_index r.request r.total_request_len
        o.complete_response o.complete_response_size o.header_accumulator
        r.host r.request_uri o.now_commit

/-! ## What the functions print and send -/

/-- A line printed on standard output by the functions of `cache.c` and by the
cache steps of `handle_client_request`. -/
inductive log_t where
  | stale_entry (host uri : List Char)
  | serving (host uri : List Char)
  | evicting (host uri : List Char)
  | getting (host uri : List Char)
  | not_caching (host uri : List Char)
deriving DecidableEq

/-- The text of a line, from the format strings of the `printf` calls. -/
def log_text : log_t → List Char
  | log_t.stale_entry host uri => "Stale entry for ".toList ++ host ++ [' '] ++ uri ++ ['\n']
  | log_t.serving host uri =>
    "Serving ".toList ++ host ++ [' '] ++ uri ++ " from cache\n".toList
  | log_t.evicting host uri =>
    "Evicting ".toList ++ host ++ [' '] ++ uri ++ " from cache\n".toList
  | log_t.getting host uri => "GETting ".toList ++ host ++ [' '] ++ uri ++ ['\n']
  | log_t.not_caching host uri => "Not caching ".toList ++ host ++ [' '] ++ uri ++ ['\n']

/-- What the loop of `cache_find` prints (lines 47-51). -/
def cache_find_loop_output (c : cache_t) (request : List Char) (request_len : Nat) (now : Nat) :
    List (Fin MAX_CACHE_ENTRIES) → List log_t
  | [] => []
  | i :: rest =>
    if key_matches c i request request_len then
      if is_cache_entry_stale c i now then
        [log_t.stale_entry (c.entries i).host (c.entries i).uri]
      else []
    else cache_find_loop_output c request request_len now rest

/-- What `cache_find` prints. -/
def cache_find_output (c : cache_t) (request : List Char) (request_len : Nat) (now : Nat) :
    List log_t :=
  cache_find_loop_output c request request_len now slots

/-- What `cache_add` prints (lines 123-128). -/
def cache_add_output (c : cache_t) (request_len response_len : Nat) : List log_t :=
  if request_len > MAX_REQUEST_SIZE_TO_CACHE then []
  else if response_len > MAX_CACHE_ENTRY_SIZE then []
  else if c.size < MAX_CACHE_ENTRIES then []
  else
    match slot_of_int (cache_find_lru c) with
    | some index =>
      if (c.entries index).valid then
        [log_t.evicting (c.entries index).host (c.entries index).uri]
      else []
    | none => []

/-- What `cache_prepare_eviction_if_needed` prints (lines 182-186). -/
def cache_prepare_eviction_output (c : cache_t) (request_len : Nat) : List log_t :=
  if request_len > MAX_REQUEST_SIZE_TO_CACHE then []
  else if c.size ≥ MAX_CACHE_ENTRIES then
    match slot_of_int (cache_find_lru c) with
    | some index =>
      if (c.entries index).valid then
        [log_t.evicting (c.entries index).host (c.entries index).uri]
      else []
    | none => []
  else []

/-- What lines 153-204 of `handle_client_request` print. -/
def request_lookup_output (caching_enabled : Bool) (c : cache_t) (request : List Char)
    (request_len total_request_len : Nat) (host request_uri : List Char) (now_find : Nat)
    (now_scan : Fin MAX_CACHE_ENTRIES → Nat) : List log_t :=
  if caching_enabled && decide (request_len ≤ MAX_REQUEST_SIZE_TO_CACHE) then
    let found := cache_find c request total_request_len now_find
    cache_find_output c request total_request_len now_find ++
      (if found.2 ≠ -1 then [log_t.serving host request_uri]
       else if stale_scan found.1 request total_request_len now_scan slots = -1 then
         cache_prepare_eviction_output found.1 total_request_len
       else [])
  else []

/-- What the release of the stale slot prints (lines 393-396 and 412-415). -/
def release_stale_output (c : cache_t) (stale_entry_index : Int) : List log_t :=
  if stale_entry_index ≠ -1 then
    match slot_of_int stale_entry_index with
    | some s => [log_t.evicting (c.entries s).host (c.entries s).uri]
    | none => []
  else []

/-- What lines 349-427 of `handle_client_request` print. -/
def request_commit_output (caching_enabled : Bool) (c : cache_t) (stale_entry_index : Int)
    (total_request_len : Nat) (complete_response_size : Nat) (header_accumulator : List Char)
    (host request_uri : List Char) : List log_t :=
  if caching_enabled && decide (total_request_len ≤ MAX_REQUEST_SIZE_TO_CACHE) then
    if complete_response_size ≤ MAX_CACHE_ENTRY_SIZE then
      if is_cacheable_response header_accumulator ≠ 0 then
        if stale_entry_index ≠ -1 then []
        else cache_add_output c total_request_len complete_response_size
      else release_stale_output c stale_entry_index ++ [log_t.not_caching host request_uri]
    else release_stale_output c stale_entry_index
  else []

/-- What one run of `handle_client_request` prints from line 153 on, in order.
The line `Response body length`, printed by the streaming loop between
`GETting` and the commit, is left out. -/
def handle_client_request_output (caching_enabled : Bool) (c : cache_t) (r : run_t) :
    List log_t :=
  request_lookup_output caching_enabled c r.request r.request_len r.total_request_len
      r.host r.request_uri r.now_find r.now_scan ++
    match request_lookup caching_enabled c r.request r.request_len r.total_request_len
        r.now_find r.now_scan with
    | lookup_t.served _ _ => []
    | lookup_t.fetch c1 stale_entry_index =>
      log_t.getting r.host r.request_uri ::
        match r.origin with
        | none => []
        | some o =>
          request_commit_output caching_enabled c1 stale_entry_index r.total_request_len
            o.complete_response_size o.header_accumulator r.host r.request_uri

/-- The bytes that one run of `handle_client_request` sends to the client out
of the cache (lines 165-180, every `send` succeeding); `none` when the run goes
to the origin instead. -/
def handle_client_request_sent (caching_enabled : Bool) (c : cache_t) (r : run_t) :
    Option (List Char) :=
  match request_lookup caching_enabled c r.request r.request_len r.total_request_len
      r.now_find r.now_scan with
  | lookup_t.served c1 cache_index =>
    match slot_of_int cache_index with
    | some i => some ((c1.entries i).response.take (c1.entries i).response_len)
    | none => none
  | lookup_t.fetch _ _ => none

/-! ## The accept loop of `main` -/

/-- The loop of `main` on the global cache: one run of `handle_client_request`
for every accepted connection, in order. -/
def main_loop (caching_enabled : Bool) (c : cache_t) : List run_t → Option cache_t
  | [] => some c
  | r :: rest =>
    match handle_client_request_cache caching_enabled c r with
    | some c1 => main_loop caching_enabled c1 rest
    | none => none

/-- What the runs of the loop of `main` print from line 153 on, in order. -/
def main_loop_output (caching_enabled : Bool) (c : cache_t) : List run_t → List log_t
  | [] => []
  | r :: rest =>
    handle_client_request_output caching_enabled c r ++
      match handle_client_request_cache caching_enabled c r with
      | some c1 => main_loop_output caching_enabled c1 rest
      | none => []

/-- Whether a line is an `Evicting` line. -/
def is_evicting : log_t → Bool
  | log_t.evicting _ _ => true
  | _ => false

/-- Whether two runs have the same key: header blocks of the same length with
the same bytes. -/
def same_key (a b : run_t) : Bool :=
  decide (a.total_request_len = b.total_request_len) &&
    decide (a.request.take a.total_request_len = b.request.take b.total_request_len)

/-- A run whose commit admits its response: the header block has at most 2000
bytes, the origin answered, and the answer is judged cacheable and has at most
102400 bytes. -/
def cacheable_run (r : run_t) : Prop :=
  r.total_request_len ≤ MAX_REQUEST_SIZE_TO_CACHE ∧
  ∃ o, r.origin = some o ∧ o.complete_response_size ≤ MAX_CACHE_ENTRY_SIZE ∧
    is_cacheable_response o.header_accumulator ≠ 0

/-- The slot that `cache_add` writes for the run `r` when the counter reaches
`seq`. -/
def committed_entry (r : run_t) (seq : Nat) : cache_entry_t :=
  match r.origin with
  | some o =>
    { request := r.request.take r.total_request_len, request_len := r.total_request_len,
      response := o.complete_response.take o.complete_response_size,
      response_len := o.complete_response_size,
      last_accessed := seq, host := r.host, uri := r.request_uri, valid := true,
      cached_at := o.now_commit, max_age := extract_max_age o.header_accumulator }
  | none => zero_entry

/-- The table in which slot `j` holds the `j`-th run of `rs`, committed with the
counter at `j + 1`, and the slots behind them are as `cache_init` left them. -/
def filled_by (c : cache_t) (rs : List run_t) : Prop :=
  c.size = (rs.length : Int) ∧ c.access_sequence = rs.length ∧
  ∀ j : Fin MAX_CACHE_ENTRIES,
    c.entries j =
      match rs[j.val]? with
      | some r => committed_entry r (j.val + 1)
      | none => zero_entry

/-! ## Reachable states -/

/-- The cache states that the functions of `cache.c` produce from `cache_init`,
called in any order with any arguments. -/
inductive api_reachable : cache_t → Prop where
  | init (now : Nat) : api_reachable (cache_init now)
  | add (c c1 : cache_t) (request : List Char) (request_len : Nat) (response : List Char)
      (response_len : Nat) (host uri : List Char) (max_age now : Nat) (ret : Int) :
      api_reachable c →
      cache_add c request request_len response response_len host uri max_age now
        = some (c1, ret) →
      api_reachable c1
  | find (c : cache_t) (request : List Char) (request_len now : Nat) :
      api_reachable c → api_reachable (cache_find c request request_len now).1
  | prepare (c : cache_t) (request_len : Nat) :
      api_reachable c → api_reachable (cache_prepare_eviction_if_needed c request_len).1
  | cleanup (c : cache_t) : api_reachable c → api_reachable (cache_cleanup c)

/-- The clock readings of a run are in order: none is earlier than `t`, the
latest reading before the run, the readings of the stale scan are not earlier
than the reading of `cache_find`, the reading of the commit is not earlier than
those of the scan, and all are 64-bit values not later than `t1`. -/
def clock_ordered (t : Nat) (r : run_t) (t1 : Nat) : Prop :=
  t ≤ r.now_find ∧
  (∀ i, r.now_find ≤ r.now_scan i ∧ r.now_scan i ≤ t1) ∧
  (∀ o, r.origin = some o → (∀ i, r.now_scan i ≤ o.now_commit) ∧ o.now_commit ≤ t1) ∧
  t1 < 2 ^ 64

/-- The cache states that runs of `handle_client_request` produce from
`cache_init`, paired with the latest clock reading.  The clock does not go
backwards, and in no run does the received request exceed
`MAX_REQUEST_SIZE_TO_CACHE` bytes while its header block does not (the case in
which line 157 skips the lookup and line 350 still commits). -/
inductive pipeline_reachable (caching_enabled : Bool) : cache_t → Nat → Prop where
  | init (now : Nat) : now < 2 ^ 64 → pipeline_reachable caching_enabled (cache_init now) now
  | run (c c1 : cache_t) (t t1 : Nat) (r : run_t) :
      pipeline_reachable caching_enabled c t →
      clock_ordered t r t1 →
      (r.request_len ≤ MAX_REQUEST_SIZE_TO_CACHE ∨
        MAX_REQUEST_SIZE_TO_CACHE < r.total_request_len) →
      handle_client_request_cache caching_enabled c r = some c1 →
      pipeline_reachable caching_enabled c1 t1

/-- The invariant behind the distinct keys: valid slots hold pairwise different
keys, a stored key is not longer than its `request_len`, and no valid slot was
cached after the latest clock reading `t`. -/
def keys_inv (c : cache_t) (t : Nat) : Prop :=
  (∀ i j, (c.entries i).valid = true → (c.entries j).valid = true →
    (c.entries i).request_len = (c.entries j).request_len →
    (c.entries i).request = (c.entries j).request → i = j) ∧
  (∀ i, (c.entries i).valid = true → (c.entries i).request.length ≤ (c.entries i).request_len) ∧
  (∀ i, (c.entries i).valid = true → (c.entries i).cached_at ≤ t) ∧
  t < 2 ^ 64

/-- One step on the cache: a call of a function of `cache.c` with any
arguments, or one run of `handle_client_request`. -/
inductive cache_step : cache_t → cache_t → Prop where
  | add (c c1 : cache_t) (request : List Char) (request_len : Nat) (response : List Char)
      (response_len : Nat) (host uri : List Char) (max_age now : Nat) (ret : Int) :
      cache_add c request request_len response response_len host uri max_age now
        = some (c1, ret) →
      cache_step c c1
  | find (c : cache_t) (request : List Char) (request_len now : Nat) :
      cache_step c (cache_find c request request_len now).1
  | update_lru (c : cache_t) (index : Fin MAX_CACHE_ENTRIES) :
      cache_step c (cache_update_lru c index)
  | prepare (c : cache_t) (request_len : Nat) :
      cache_step c (cache_prepare_eviction_if_needed c request_len).1
  | cleanup (c : cache_t) : cache_step c (cache_cleanup c)
  | run (caching_enabled : Bool) (c c1 : cache_t) (r : run_t) :
      handle_client_request_cache caching_enabled c r = some c1 →
      cache_step c c1

/-- The cache states reached from `cache_init` by steps none of which starts
with `access_sequence` at `UINT64_MAX`: the 64-bit counter does not wrap. -/
inductive counter_reachable : cache_t → Prop where
  | init (now : Nat) : counter_reachable (cache_init now)
  | step (c c1 : cache_t) :
      counter_reachable c → c.access_sequence < UINT64_MAX → cache_step c c1 →
      counter_reachable c1

/-- A step that leaves the counter and every `last_accessed` as they are and
sets no `valid` flag. -/
def quiet (c c1 : cache_t) : Prop :=
  c1.access_sequence = c.access_sequence ∧
  ∀ i, (c1.entries i).last_accessed = (c.entries i).last_accessed ∧
    ((c1.entries i).valid = true → (c.entries i).valid = true)

/-- A step that increments the counter once, stores the new value in the
`last_accessed` of slot `k`, and leaves the other slots as a quiet step does. -/
def touched (c c1 : cache_t) (k : Fin MAX_CACHE_ENTRIES) : Prop :=
  c1.access_sequence = c.access_sequence + 1 ∧
  (c1.entries k).last_accessed = c.access_sequence + 1 ∧
  ∀ i, i ≠ k → (c1.entries i).last_accessed = (c.entries i).last_accessed ∧
    ((c1.entries i).valid = true → (c.entries i).valid = true)

/-- The invariant of the counter: no `last_accessed` is above
`access_sequence`, and two different valid slots differ in `last_accessed`. -/
def lru_inv (c : cache_t) : Prop :=
  (∀ i, (c.entries i).last_accessed ≤ c.access_sequence) ∧
  ∀ i j, (c.entries i).valid = true → (c.entries j).valid = true → i ≠ j →
    (c.entries i).last_accessed ≠ (c.entries j).last_accessed

/-! ## The directive rules in the words of the specification -/

/-- The directive names that refuse caching with or without an argument. -/
def blocking_names : List (List Char) :=
  ["private".toList, "no-store".toList, "no-cache".toList, "must-revalidate".toList,
   "proxy-revalidate".toList]

/-- A full directive token of a value: a non-empty run of characters other
than comma, space and tab that starts at the start of the value or right after
a comma, space or tab and ends at a comma, space, tab or the end of the value. -/
def is_directive_token (tok value : List Char) : Prop :=
  tok ≠ [] ∧ (∀ ch ∈ tok, is_separator ch = false) ∧
  ∃ a b, value = a ++ tok ++ b ∧
    (∀ x, a.getLast? = some x → is_separator x = true) ∧
    (∀ x, b.head? = some x → is_separator x = true)

/-- A token that refuses caching: `max-age=0`, or one of `blocking_names`,
alone or followed by `=` and an argument. -/
def blocking_token (tok : List Char) : Prop :=
  tok = "max-age=0".toList ∨ ∃ d ∈ blocking_names, tok = d ∨ (d ++ ['=']) <+: tok

/-- The block `h` reads `pre`, then `name`, which is the text `Cache-Control:`
in any case and the first such text of the block, then `blanks` (spaces and
tabs), then `value`, which has no CRLF inside, then CRLF, then `post`. -/
def first_cache_control (h pre name blanks value post : List Char) : Prop :=
  cstr h = pre ++ name ++ blanks ++ value ++ crlf ++ post ∧
  name.map Char.toLower = "cache-control:".toList ∧
  strcasestr (pre ++ name.dropLast) cache_control_name = none ∧
  (∀ ch ∈ blanks, ch = ' ' ∨ ch = '\t') ∧
  (∀ ch, value.head? = some ch → ch ≠ ' ' ∧ ch ≠ '\t') ∧
  strstr value crlf = none

/-- A Cache-Control header is present: a line of the block, one that starts at
the start of the block or right after a line feed, begins with `Cache-Control:`
in any case. -/
def has_cache_control_header (h : List Char) : Bool :=
  ((cstr h).splitOnP (fun ch => ch == '\n')).any (fun line => starts_with_ci cache_control_name line)

/-! ## Example states -/

/-- The cache after `cache_add` of the key `k` with the response `old` into the
empty cache, at time 0. -/
def added_once : cache_t :=
  fill_slot { cache_init 0 with size := 1 } 0 ['k'] 1 "old".toList 3 ['h'] ['u'] 0 0

/-- The cache after a second `cache_add` of the same key `k`, now with the
response `new`. -/
def added_twice : cache_t :=
  fill_slot { added_once with size := 2 } 1 ['k'] 1 "new".toList 3 ['h'] ['u'] 0 0

/-- A cache whose slot 0 was filled at time 100 with `max_age = 1`. -/
def aged_once : cache_t :=
  fill_slot { cache_init 0 with size := 1 } 0 ['k'] 1 ['v'] 1 ['h'] ['u'] 1 100

/-- The request `GET /a` to the host `h`. -/
def request_a : List Char := "GET /a HTTP/1.1\r\nHost: h\r\n\r\n".toList

/-- The request `GET /b` to the host `h`. -/
def request_b : List Char := "GET /b HTTP/1.1\r\nHost: h\r\n\r\n".toList

/-- An origin response without a `Cache-Control` header. -/
def response_abc : List Char := "HTTP/1.1 200 OK\r\nContent-Length: 3\r\n\r\nABC".toList

/-- A run for `request_a` at time 0 whose origin answers `response_abc`. -/
def run_a : run_t :=
  { request := request_a, request_len := 28, total_request_len := 28,
    host := ['h'], request_uri := ['/', 'a'], now_find := 0, now_scan := fun _ => 0,
    origin := some { complete_response := response_abc, complete_response_size := 41,
                     header_accumulator := response_abc, now_commit := 0 } }

/-- A run for `request_b` at time 0 whose origin answers `response_abc`. -/
def run_b : run_t :=
  { request := request_b, request_len := 28, total_request_len := 28,
    host := ['h'], request_uri := ['/', 'b'], now_find := 0, now_scan := fun _ => 0,
    origin := some { complete_response := response_abc, complete_response_size := 41,
                     header_accumulator := response_abc, now_commit := 0 } }

/-- The cache after `run_a` on the empty cache. -/
def after_run_a : cache_t :=
  fill_slot { cache_init 0 with size := 1 } 0 request_a 28 response_abc 41 ['h'] ['/', 'a'] 0 0

/-- The cache after `run_a` and `run_b`. -/
def after_run_b : cache_t :=
  fill_slot { after_run_a with size := 2 } 1 request_b 28 response_abc 41 ['h'] ['/', 'b'] 0 0

/-- A run that receives `request_a` followed by 1973 more bytes, 2001 bytes in
all, at time 0; its header block is that of `run_a`. -/
def run_a_long : run_t :=
  { request := request_a ++ List.replicate 1973 'x', request_len := 2001,
    total_request_len := 28,
    host := ['h'], request_uri := ['/', 'a'], now_find := 0, now_scan := fun _ => 0,
    origin := some { complete_response := response_abc, complete_response_size := 41,
                     header_accumulator := response_abc, now_commit := 0 } }

/-- The cache after `run_a` and `run_a_long`. -/
def after_run_a_long : cache_t :=
  fill_slot { after_run_a with size := 2 } 1 (request_a ++ List.replicate 1973 'x') 28
    response_abc 41 ['h'] ['/', 'a'] 0 0

/-- A header block whose only header is `X-Cache-Control: no-store`. -/
def block_x_cache_control : List Char :=
  "HTTP/1.1 200 OK\r\nX-Cache-Control: no-store\r\n\r\n".toList

/-- A header block with the header `Cache-Control: max-age=4294967296`. -/
def block_max_age_2_32 : List Char :=
  "HTTP/1.1 200 OK\r\nCache-Control: max-age=4294967296\r\n\r\n".toList

/-- A header block with the header `Cache-Control: private-cache`. -/
def block_private_cache : List Char :=
  "HTTP/1.1 200 OK\r\nCache-Control: private-cache\r\n\r\n".toList

/-- A header block with the header `Cache-Control: public, no-cache`. -/
def block_public_no_cache : List Char :=
  "HTTP/1.1 200 OK\r\nCache-Control: public, no-cache\r\n\r\n".toList

/-- A header block with the header `Cache-Control: max-age=0`. -/
def block_max_age_0 : List Char :=
  "HTTP/1.1 200 OK\r\nCache-Control: max-age=0\r\n\r\n".toList

/-- A header block with the header `Cache-Control: max-age=1`. -/
def block_max_age_1 : List Char :=
  "HTTP/1.1 200 OK\r\nCache-Control: max-age=1\r\n\r\n".toList

/-- A header block with the header `Cache-Control: max-age=99999999999999999999`,
a number above `2^64`. -/
def block_max_age_huge : List Char :=
  "HTTP/1.1 200 OK\r\nCache-Control: max-age=99999999999999999999\r\n\r\n".toList

/-- The status line in front of the example headers. -/
def status_line : List Char := "HTTP/1.1 200 OK\r\n".toList

/-- A header block with the header `Cache-Control: max-age, foo=7`. -/
def block_max_age_foo : List Char :=
  "HTTP/1.1 200 OK\r\nCache-Control: max-age, foo=7\r\n\r\n".toList

/-- A response header without `Cache-Control`, through its CRLFCRLF. -/
def header_length_37 : List Char := "HTTP/1.1 200 OK\r\nContent-Length: 37\r\n\r\n".toList

/-- A body of 37 bytes that reads like a header line. -/
def body_cache_control : List Char := "Cache-Control: no-store, max-age=60\r\n".toList

/-- A body of 37 bytes `x`. -/
def body_plain : List Char := List.replicate 37 'x'

/-- A full table: slot `i` is valid with `last_accessed = i + 1`. -/
def full_table : cache_t :=
  { entries := fun i =>
      { zero_entry with valid := true, last_accessed := i.val + 1, host := ['h'], uri := ['u'] }
    size := 10, access_sequence := 10, start_time := 0 }

/-- A header block whose Cache-Control value carries `no-store`. -/
def block_no_store : List Char :=
  "HTTP/1.1 200 OK\r\nCache-Control: no-store, max-age=60\r\n\r\n".toList

/-- The run of `request_a` whose origin answers with `block_no_store`. -/
def run_a_no_store : run_t :=
  { request := request_a, request_len := 28, total_request_len := 28,
    host := ['h'], request_uri := ['/', 'a'], now_find := 0, now_scan := fun _ => 0,
    origin := some { complete_response := block_no_store, complete_response_size := 56,
                     header_accumulator := block_no_store, now_commit := 0 } }

/-- An origin response with the header `Cache-Control: max-age=1`. -/
def response_max_age_1 : List Char :=
  "HTTP/1.1 200 OK\r\nCache-Control: max-age=1\r\nContent-Length: 3\r\n\r\nABC".toList

/-- The run of `request_a` at time 0 whose origin answers `response_max_age_1`. -/
def run_a_max_age_1 : run_t :=
  { request := request_a, request_len := 28, total_request_len := 28,
    host := ['h'], request_uri := ['/', 'a'], now_find := 0, now_scan := fun _ => 0,
    origin := some { complete_response := response_max_age_1, complete_response_size := 67,
                     header_accumulator := response_max_age_1, now_commit := 0 } }

/-- The cache after `run_a_max_age_1` on the empty cache. -/
def stale_once : cache_t :=
  fill_slot { cache_init 0 with size := 1 } 0 request_a 28 response_max_age_1 67
    ['h'] ['/', 'a'] 1 0

/-- The run of `request_a` followed by 1973 more bytes, 2001 bytes in all, at
time 0, whose origin answers `response_max_age_1`. -/
def run_a_long_max_age_1 : run_t :=
  { request := request_a ++ List.replicate 1973 'x', request_len := 2001,
    total_request_len := 28,
    host := ['h'], request_uri := ['/', 'a'], now_find := 0, now_scan := fun _ => 0,
    origin := some { complete_response := response_max_age_1, complete_response_size := 67,
                     header_accumulator := response_max_age_1, now_commit := 0 } }

/-- The cache after `run_a_max_age_1` and `run_a_long_max_age_1`. -/
def stale_twice : cache_t :=
  fill_slot { stale_once with size := 2 } 1 (request_a ++ List.replicate 1973 'x') 28
    response_max_age_1 67 ['h'] ['/', 'a'] 1 0

/-- The run of `request_a` five seconds later whose origin answers `response_abc`. -/
def run_a_late : run_t :=
  { request := request_a, request_len := 28, total_request_len := 28,
    host := ['h'], request_uri := ['/', 'a'], now_find := 5000, now_scan := fun _ => 5000,
    origin := some { complete_response := response_abc, complete_response_size := 41,
                     header_accumulator := response_abc, now_commit := 5000 } }

/-- The run of `request_a` five seconds later whose origin answers `block_no_store`. -/
def run_a_late_no_store : run_t :=
  { request := request_a, request_len := 28, total_request_len := 28,
    host := ['h'], request_uri := ['/', 'a'], now_find := 5000, now_scan := fun _ => 5000,
    origin := some { complete_response := block_no_store, complete_response_size := 56,
                     header_accumulator := block_no_store, now_commit := 5000 } }

/-- The run of the request `GET /ch` to the host `h` at time 0 whose origin
answers `response_abc`. -/
def letter_run (ch : Char) : run_t :=
  { request := "GET /".toList ++ [ch] ++ " HTTP/1.1\r\nHost: h\r\n\r\n".toList,
    request_len := 28, total_request_len := 28,
    host := ['h'], request_uri := ['/', ch], now_find := 0, now_scan := fun _ => 0,
    origin := some { complete_response := response_abc, complete_response_size := 41,
                     header_accumulator := response_abc, now_commit := 0 } }

/-- The effect of a step on the counter, as a test of the state before and
the state after: the counter does not decrease, and a slot whose
`last_accessed` differs afterwards holds the new value of the counter, which
is the old one plus one. -/
def counter_advances (c c1 : cache_t) : Prop :=
  c.access_sequence ≤ c1.access_sequence ∧
  ∀ i, (c1.entries i).last_accessed ≠ (c.entries i).last_accessed →
    (c1.entries i).last_accessed = c1.access_sequence ∧
    c1.access_sequence = c.access_sequence + 1

/-- A request whose Host header has a tab after the colon. -/
def request_host_tab : List Char :=
  "GET / HTTP/1.1\r\nHost:\texample.com\r\n\r\n".toList

/-- A request whose only text `Host:` is the end of the header name
`X-Forwarded-Host:`. -/
def request_forwarded_host : List Char :=
  "GET / HTTP/1.1\r\nX-Forwarded-Host: evil\r\n\r\n".toList

/-- A request with the header `hOsT:   example.com`. -/
def request_host_spaces : List Char :=
  "GET / HTTP/1.1\r\nhOsT:   example.com\r\nAccept: a\r\n\r\n".toList

/-- A request whose header block is the request line alone. -/
def request_single_line : List Char := "GET / HTTP/1.1\r\n\r\n".toList

/-- A header block with the header `Cache-Control: max-age=00`. -/
def block_max_age_00 : List Char :=
  "HTTP/1.1 200 OK\r\nCache-Control: max-age=00\r\n\r\n".toList

/-- A header block with the header `Cache-Control: max-age= 0`. -/
def block_max_age_blank_0 : List Char :=
  "HTTP/1.1 200 OK\r\nCache-Control: max-age= 0\r\n\r\n".toList

/-- A header block with the header `Cache-Control: max-age=+0`. -/
def block_max_age_plus_0 : List Char :=
  "HTTP/1.1 200 OK\r\nCache-Control: max-age=+0\r\n\r\n".toList

/-- The run of `request_a` at time 0 whose origin answers `block_max_age_00`. -/
def run_a_max_age_00 : run_t :=
  { request := request_a, request_len := 28, total_request_len := 28,
    host := ['h'], request_uri := ['/', 'a'], now_find := 0, now_scan := fun _ => 0,
    origin := some { complete_response := block_max_age_00, complete_response_size := 46,
                     header_accumulator := block_max_age_00, now_commit := 0 } }

/-- The cache after `run_a_max_age_00` on the empty cache. -/
def after_run_a_max_age_00 : cache_t :=
  fill_slot { cache_init 0 with size := 1 } 0 request_a 28 block_max_age_00 46
    ['h'] ['/', 'a'] 0 0

/-- A header block with the header `Cache-Control: no-max-age=5`. -/
def block_no_max_age_5 : List Char :=
  "HTTP/1.1 200 OK\r\nCache-Control: no-max-age=5\r\n\r\n".toList

/-- The invariant of the response loop after `total` bytes were received: with
a buffer, `complete_response_size` is `total` and fits a capacity of at least
`BUFFER_SIZE`; `header_bytes_accumulated` counts the bytes held and leaves room
for the NUL. -/
def stream_inv (s : stream_t) (total : Nat) : Prop :=
  (s.complete_response = true →
    s.complete_response_size = total ∧
    s.complete_response_size ≤ s.complete_response_capacity ∧
    (BUFFER_SIZE : Int) ≤ s.complete_response_capacity) ∧
  (s.complete_response = false →
    s.complete_response_size = 0 ∧ s.complete_response_capacity = 0) ∧
  0 ≤ s.header_bytes_accumulated ∧
  s.header_bytes_accumulated ≤ (MAX_REQUEST_SIZE : Int) - 1 ∧
  (s.header_accumulator.length : Int) = s.header_bytes_accumulated

/-- Two chunks of a response, 20 bytes in all. -/
def chunks_abc : List (List Char) :=
  ["HTTP/1.1 200 OK\r\n".toList, "\r\nA".toList]

/-! ## Lemmas on the table -/

theorem mem_slots (i : Fin MAX_CACHE_ENTRIES) : i ∈ slots := by
  revert i; decide

theorem slots_nodup : slots.Nodup := by decide

@[simp] theorem set_entry_same (c : cache_t) (i : Fin MAX_CACHE_ENTRIES) (e : cache_entry_t) :
    (set_entry c i e).entries i = e := by
  simp [set_entry]

theorem set_entry_other (c : cache_t) (i j : Fin MAX_CACHE_ENTRIES) (e : cache_entry_t)
    (h : j ≠ i) : (set_entry c i e).entries j = c.entries j := by
  simp [set_entry, h]

@[simp] theorem set_entry_size (c : cache_t) (i : Fin MAX_CACHE_ENTRIES) (e : cache_entry_t) :
    (set_entry c i e).size = c.size := rfl

@[simp] theorem set_entry_access_sequence (c : cache_t) (i : Fin MAX_CACHE_ENTRIES)
    (e : cache_entry_t) : (set_entry c i e).access_sequence = c.access_sequence := rfl

/-- Counting a predicate over distinct indices after one value is replaced. -/
theorem countP_replace {n : Nat} (f : Fin n → Bool) (i : Fin n) (b : Bool) :
    ∀ l : List (Fin n), l.Nodup → i ∈ l →
      l.countP (fun j => if j = i then b else f j) + (if f i then 1 else 0)
        = l.countP f + (if b then 1 else 0) := by
  have hout : ∀ l : List (Fin n), i ∉ l →
      l.countP (fun j => if j = i then b else f j) = l.countP f := by
    intro l hl
    apply List.countP_congr
    intro j hj
    have hne : j ≠ i := fun h => hl (h ▸ hj)
    simp [hne]
  intro l
  induction l with
  | nil => intro _ h; simp at h
  | cons a l ih =>
    intro hnd hmem
    rw [List.nodup_cons] at hnd
    by_cases ha : a = i
    · subst ha
      rw [List.countP_cons, List.countP_cons, hout l hnd.1]
      simp only [if_true]
      cases f a <;> cases b <;> simp
    · have hi : i ∈ l := by
        rcases List.mem_cons.mp hmem with h | h
        · exact absurd h.symm ha
        · exact h
      have := ih hnd.2 hi
      rw [List.countP_cons, List.countP_cons]
      simp only [ha, if_false]
      omega

/-- The number of valid slots after a store to slot `i`. -/
theorem valid_count_set_entry (c : cache_t) (i : Fin MAX_CACHE_ENTRIES) (e : cache_entry_t) :
    valid_count (set_entry c i e) + (if (c.entries i).valid then 1 else 0)
      = valid_count c + (if e.valid then 1 else 0) := by
  have h := countP_replace (fun j => (c.entries j).valid) i e.valid slots slots_nodup
    (mem_slots i)
  have h2 : valid_count (set_entry c i e)
      = slots.countP (fun j => if j = i then e.valid else (c.entries j).valid) := by
    unfold valid_count
    apply List.countP_congr
    intro j _
    by_cases hj : j = i
    · subst hj; simp
    · simp [set_entry_other c i j e hj, hj]
  rw [h2]
  exact h

theorem valid_count_le (c : cache_t) : valid_count c ≤ MAX_CACHE_ENTRIES := by
  have := List.countP_le_length (fun i => (c.entries i).valid) (l := slots)
  simpa [valid_count, slots] using this

/-- A table whose ten slots are all counted valid has no invalid slot. -/
theorem all_valid_of_count (c : cache_t) (h : valid_count c = MAX_CACHE_ENTRIES)
    (i : Fin MAX_CACHE_ENTRIES) : (c.entries i).valid = true := by
  have hlen : slots.length = MAX_CACHE_ENTRIES := rfl
  have h1 : slots.countP (fun i => (c.entries i).valid) = slots.length := by
    rw [hlen]; exact h
  have h2 := List.countP_eq_length.mp h1
  exact h2 i (mem_slots i)

theorem first_invalid_spec (c : cache_t) :
    ∀ (l : List (Fin MAX_CACHE_ENTRIES)) (i : Fin MAX_CACHE_ENTRIES),
      first_invalid c l = some i → (c.entries i).valid = false ∧ i ∈ l := by
  intro l
  induction l with
  | nil => intro i h; simp [first_invalid] at h
  | cons a l ih =>
    intro i h
    unfold first_invalid at h
    by_cases ha : (c.entries a).valid = true
    · simp [ha] at h
      exact ⟨(ih i h).1, List.mem_cons_of_mem _ (ih i h).2⟩
    · simp [ha] at h
      subst h
      exact ⟨by simpa using ha, List.mem_cons_self _ _⟩

theorem first_invalid_none (c : cache_t) :
    ∀ (l : List (Fin MAX_CACHE_ENTRIES)), first_invalid c l = none →
      ∀ i ∈ l, (c.entries i).valid = true := by
  intro l
  induction l with
  | nil => intro _ i hi; simp at hi
  | cons a l ih =>
    intro h i hi
    unfold first_invalid at h
    by_cases ha : (c.entries a).valid = true
    · simp [ha] at h
      rcases List.mem_cons.mp hi with h1 | h1
      · subst h1; exact ha
      · exact ih h i h1
    · simp [ha] at h

/-- The loop of `cache_find` stops at the first slot that holds the key. -/
theorem cache_find_loop_eq (c : cache_t) (request : List Char) (request_len now : Nat) :
    ∀ l : List (Fin MAX_CACHE_ENTRIES),
      cache_find_loop c request request_len now l =
        match l.find? (fun i => key_matches c i request request_len) with
        | none => (c, -1)
        | some i =>
          if is_cache_entry_stale c i now then (c, -1)
          else (cache_update_lru c i, (i.val : Int)) := by
  intro l
  induction l with
  | nil => simp [cache_find_loop]
  | cons a l ih =>
    unfold cache_find_loop
    by_cases ha : key_matches c a request request_len = true
    · simp [ha, List.find?_cons]
    · simp only [ha, List.find?_cons]
      simpa using ih

theorem cache_update_lru_valid (c : cache_t) (i j : Fin MAX_CACHE_ENTRIES) :
    ((cache_update_lru c i).entries j).valid = (c.entries j).valid := by
  unfold cache_update_lru
  by_cases hv : (c.entries i).valid = true
  · simp only [hv, if_true]
    by_cases hj : j = i
    · subst hj; simp [hv]
    · rw [set_entry_other _ _ _ _ hj]
  · simp [hv]

theorem cache_update_lru_size (c : cache_t) (i : Fin MAX_CACHE_ENTRIES) :
    (cache_update_lru c i).size = c.size := by
  unfold cache_update_lru
  by_cases hv : (c.entries i).valid = true <;> simp [hv]

theorem valid_count_congr (c d : cache_t)
    (h : ∀ j, (d.entries j).valid = (c.entries j).valid) : valid_count d = valid_count c := by
  unfold valid_count
  apply List.countP_congr
  intro j _
  simp [h j]

/-- The function `cache_find` returns the cache it was given, or that cache
with one slot touched. -/
theorem cache_find_cases (c : cache_t) (request : List Char) (request_len now : Nat) :
    cache_find c request request_len now = (c, -1) ∨
    ∃ i : Fin MAX_CACHE_ENTRIES,
      cache_find c request request_len now = (cache_update_lru c i, (i.val : Int)) ∧
      key_matches c i request request_len = true ∧ is_cache_entry_stale c i now = false := by
  unfold cache_find
  rw [cache_find_loop_eq]
  cases hf : slots.find? (fun i => key_matches c i request request_len) with
  | none => left; rfl
  | some i =>
    have hk := List.find?_some hf
    by_cases hs : is_cache_entry_stale c i now = true
    · left; simp [hs]
    · right
      refine ⟨i, by simp [hs], hk, by simpa using hs⟩

theorem slot_of_int_some (index : Int) (i : Fin MAX_CACHE_ENTRIES)
    (h : slot_of_int index = some i) : index = (i.val : Int) := by
  unfold slot_of_int at h
  split at h
  · rename_i hc
    simp only [Option.some.injEq] at h
    subst h
    simp [Int.toNat_of_nonneg hc.1]
  · simp at h

theorem slot_of_int_val (i : Fin MAX_CACHE_ENTRIES) : slot_of_int (i.val : Int) = some i := by
  unfold slot_of_int
  have h : (0 : Int) ≤ (i.val : Int) ∧ ((i.val : Int)).toNat < MAX_CACHE_ENTRIES := by
    constructor
    · exact Int.ofNat_nonneg _
    · simp
  rw [dif_pos h]
  simp

theorem fill_slot_valid_count (c : cache_t) (index : Fin MAX_CACHE_ENTRIES) (request : List Char)
    (request_len : Nat) (response : List Char) (response_len : Nat)
    (host uri : List Char) (max_age now : Nat) :
    valid_count (fill_slot c index request request_len response response_len host uri
      max_age now) + (if (c.entries index).valid then 1 else 0) = valid_count c + 1 := by
  unfold fill_slot
  have h := valid_count_set_entry { c with access_sequence := (c.access_sequence + 1) % 2 ^ 64 }
    index
    { request := request.take request_len, request_len := request_len,
      response := response.take response_len, response_len := response_len,
      last_accessed := (c.access_sequence + 1) % 2 ^ 64, host := host, uri := uri,
      valid := true, cached_at := now, max_age := max_age }
  simpa [valid_count] using h

theorem fill_slot_size (c : cache_t) (index : Fin MAX_CACHE_ENTRIES) (request : List Char)
    (request_len : Nat) (response : List Char) (response_len : Nat)
    (host uri : List Char) (max_age now : Nat) :
    (fill_slot c index request request_len response response_len host uri max_age now).size
      = c.size := rfl

/-- The function `cache_add` keeps `size` equal to the number of valid slots. -/
theorem cache_add_size_inv (c c1 : cache_t) (request : List Char) (request_len : Nat)
    (response : List Char) (response_len : Nat) (host uri : List Char) (max_age now : Nat)
    (ret : Int) (hinv : c.size = (valid_count c : Int))
    (h : cache_add c request request_len response response_len host uri max_age now
      = some (c1, ret)) : c1.size = (valid_count c1 : Int) := by
  unfold cache_add at h
  split at h
  · simp only [Option.some.injEq, Prod.mk.injEq] at h; rw [← h.1]; exact hinv
  split at h
  · simp only [Option.some.injEq, Prod.mk.injEq] at h; rw [← h.1]; exact hinv
  split at h
  · split at h
    · rename_i index hfi
      have hiv := (first_invalid_spec c slots index hfi).1
      simp only [Option.some.injEq, Prod.mk.injEq] at h
      rw [← h.1, fill_slot_size]
      have hc := fill_slot_valid_count { c with size := c.size + 1 } index request request_len
        response response_len host uri max_age now
      simp only [hiv] at hc
      have hvc : valid_count { c with size := c.size + 1 } = valid_count c := rfl
      rw [hvc] at hc
      simp only [Bool.false_eq_true, if_false, Nat.add_zero] at hc
      rw [hc, hinv]
      push_cast
      ring
    · simp at h
  · rename_i hfull
    split at h
    · rename_i index hso
      simp only [Option.some.injEq, Prod.mk.injEq] at h
      rw [← h.1, fill_slot_size]
      have hle := valid_count_le c
      have hcount : valid_count c = MAX_CACHE_ENTRIES := by
        have : (MAX_CACHE_ENTRIES : Int) ≤ (valid_count c : Int) := by
          rw [← hinv]; exact Int.not_lt.mp hfull
        omega
      have hv := all_valid_of_count c hcount index
      have hc := fill_slot_valid_count c index request request_len
        response response_len host uri max_age now
      simp only [hv, if_true] at hc
      have : valid_count (fill_slot c index request request_len response response_len host uri
        max_age now) = valid_count c := by omega
      rw [this, hinv]
    · simp at h

theorem cache_prepare_size_inv (c : cache_t) (request_len : Nat)
    (hinv : c.size = (valid_count c : Int)) :
    (cache_prepare_eviction_if_needed c request_len).1.size
      = (valid_count (cache_prepare_eviction_if_needed c request_len).1 : Int) := by
  unfold cache_prepare_eviction_if_needed
  split
  · exact hinv
  split
  · split
    · rename_i index _
      by_cases hv : (c.entries index).valid = true
      · simp only [hv, if_true, set_entry_size]
        have h := valid_count_set_entry { c with size := c.size - 1 } index
          { c.entries index with valid := false }
        have hvc : valid_count { c with size := c.size - 1 } = valid_count c := rfl
        simp only [hv, if_true, Bool.false_eq_true, if_false, Nat.add_zero, hvc] at h
        show c.size - 1 = _
        omega
      · simp only [hv]
        exact hinv
    · exact hinv
  · exact hinv

theorem cache_cleanup_valid_count (c : cache_t) : valid_count (cache_cleanup c) = 0 := by
  unfold valid_count
  rw [List.countP_eq_zero]
  intro i _
  unfold cache_cleanup
  by_cases hv : (c.entries i).valid = true <;> simp [hv]

/-- The invariant of `cache.c`: `size` counts the valid slots. -/
theorem api_reachable_size (c : cache_t) (h : api_reachable c) :
    c.size = (valid_count c : Int) := by
  induction h with
  | init now => simp [cache_init, valid_count, zero_entry]
  | add c c1 request request_len response response_len host uri max_age now ret _ hadd ih =>
    exact cache_add_size_inv c c1 request request_len response response_len host uri max_age
      now ret ih hadd
  | find c request request_len now _ ih =>
    rcases cache_find_cases c request request_len now with h | ⟨i, h, _, _⟩
    · rw [h]; exact ih
    · rw [h]
      show (cache_update_lru c i).size = (valid_count (cache_update_lru c i) : Int)
      rw [cache_update_lru_size, valid_count_congr c _ (cache_update_lru_valid c i), ih]
  | prepare c request_len _ ih => exact cache_prepare_size_inv c request_len ih
  | cleanup c _ ih =>
    rw [cache_cleanup_valid_count]
    rfl

/-- C1. In every cache state reachable from `cache_init` by any sequence of
`cache_add`, `cache_find`, `cache_prepare_eviction_if_needed` and
`cache_cleanup` calls, the field `size` equals the number of slots whose
`valid` flag is set, and it is at most `MAX_CACHE_ENTRIES = 10`. -/
theorem size_counts_valid_slots (c : cache_t) (h : api_reachable c) :
    c.size = (valid_count c : Int) ∧ c.size ≤ 10 := by
  have hs := api_reachable_size c h
  have hle := valid_count_le c
  refine ⟨hs, ?_⟩
  rw [hs]
  exact_mod_cast hle

/-- Witness of C1: the state after one admission into the empty cache. -/
theorem size_counts_valid_slots_witness :
    api_reachable (fill_slot { cache_init 0 with size := 1 } 0 ['k'] 1 ['v'] 1 ['h'] ['u'] 0 0) ∧
    ((fill_slot { cache_init 0 with size := 1 } 0 ['k'] 1 ['v'] 1 ['h'] ['u'] 0 0).size
        = (valid_count
            (fill_slot { cache_init 0 with size := 1 } 0 ['k'] 1 ['v'] 1 ['h'] ['u'] 0 0) : Int) ∧
      (fill_slot { cache_init 0 with size := 1 } 0 ['k'] 1 ['v'] 1 ['h'] ['u'] 0 0).size ≤ 10) :=
  ⟨api_reachable.add (cache_init 0) _ ['k'] 1 ['v'] 1 ['h'] ['u'] 0 0 1 (api_reachable.init 0) rfl,
   size_counts_valid_slots _
    (api_reachable.add (cache_init 0) _ ['k'] 1 ['v'] 1 ['h'] ['u'] 0 0 1
      (api_reachable.init 0) rfl)⟩

theorem key_matches_iff (c : cache_t) (i : Fin MAX_CACHE_ENTRIES) (request : List Char)
    (request_len : Nat) :
    key_matches c i request request_len = true ↔
      (c.entries i).valid = true ∧ (c.entries i).request_len = request_len ∧
        (c.entries i).request.take request_len = request.take request_len := by
  simp [key_matches, memcmp_eq, and_assoc]

/-- The scan of the slots in index order finds the lowest slot that holds the key. -/
theorem find_first_match (c : cache_t) (request : List Char) (request_len : Nat)
    (i : Fin MAX_CACHE_ENTRIES) (hk : key_matches c i request request_len = true)
    (hfirst : ∀ j, j < i → key_matches c j request request_len = false) :
    slots.find? (fun i => key_matches c i request request_len) = some i := by
  cases hf : slots.find? (fun i => key_matches c i request request_len) with
  | none =>
    rw [List.find?_eq_none] at hf
    exact absurd hk (hf i (mem_slots i))
  | some k =>
    have hkk := List.find?_some hf
    simp only at hkk
    by_cases hlt : k < i
    · rw [hfirst k hlt] at hkk; simp at hkk
    · by_cases hgt : i < k
      · exfalso
        rw [List.find?_eq_some] at hf
        obtain ⟨_, as, bs, hsl, hbefore⟩ := hf
        have hmem : i ∈ as ++ k :: bs := hsl ▸ mem_slots i
        have hsorted : slots.Pairwise (· < ·) := by decide
        rw [hsl] at hsorted
        rcases List.mem_append.mp hmem with hia | hib
        · have := hbefore i hia
          simp [hk] at this
        · rcases List.mem_cons.mp hib with hik | hib2
          · exact absurd (hik ▸ hgt) (lt_irrefl _)
          · have hp := (List.pairwise_append.mp hsorted).2.1
            have := (List.pairwise_cons.mp hp).1 i hib2
            exact absurd (lt_trans this hgt) (lt_irrefl _)
      · have : k = i := le_antisymm (not_lt.mp hgt) (not_lt.mp hlt)
        rw [this]

/-- A fresh first match is touched and returned by `cache_find`. -/
theorem cache_find_fresh (c : cache_t) (request : List Char) (request_len now : Nat)
    (i : Fin MAX_CACHE_ENTRIES) (hk : key_matches c i request request_len = true)
    (hfirst : ∀ j, j < i → key_matches c j request request_len = false)
    (hs : is_cache_entry_stale c i now = false) :
    cache_find c request request_len now = (cache_update_lru c i, (i.val : Int)) := by
  unfold cache_find
  rw [cache_find_loop_eq, find_first_match c request request_len i hk hfirst]
  simp [hs]

/-- On a valid slot read at or after `cached_at`, the 64-bit age test of
`is_cache_entry_stale` is the test on the exact difference. -/
theorem stale_iff_core (c : cache_t) (i : Fin MAX_CACHE_ENTRIES) (now : Nat)
    (hvalid : (c.entries i).valid = true) (hnow : (c.entries i).cached_at ≤ now)
    (h64 : now < 2 ^ 64) (h32 : (c.entries i).max_age < 2 ^ 32) :
    is_cache_entry_stale c i now = true ↔
      0 < (c.entries i).max_age ∧
        now - (c.entries i).cached_at > (c.entries i).max_age * 1000 := by
  have hprod : (c.entries i).max_age * 1000 < 2 ^ 64 := by omega
  have hmod : ((c.entries i).max_age * 1000) % 2 ^ 64 = (c.entries i).max_age * 1000 :=
    Nat.mod_eq_of_lt hprod
  have hc : (c.entries i).cached_at % 2 ^ 64 = (c.entries i).cached_at :=
    Nat.mod_eq_of_lt (by omega)
  have hage : (now + 2 ^ 64 - (c.entries i).cached_at % 2 ^ 64) % 2 ^ 64
      = now - (c.entries i).cached_at := by
    rw [hc]
    have : now + 2 ^ 64 - (c.entries i).cached_at = (now - (c.entries i).cached_at) + 2 ^ 64 := by
      omega
    rw [this, Nat.add_mod_right]
    exact Nat.mod_eq_of_lt (by omega)
  unfold is_cache_entry_stale
  by_cases hz : (c.entries i).max_age = 0
  · simp [hvalid, hz]
  · simp only [hvalid, Bool.not_true, Bool.false_or, beq_iff_eq, hz, if_false]
    rw [hage, hmod]
    simp only [decide_eq_true_eq]
    constructor
    · intro h; exact ⟨Nat.pos_of_ne_zero hz, h⟩
    · intro h; exact h.2

/-- C5. The function `cache_find` returns an index `i` other than `-1` only if
slot `i` is valid, its `request_len` equals the given length, its request bytes
equal the key and it is not stale; in that case `access_sequence` is
incremented by one (as a 64-bit counter), `last_accessed` of slot `i` is set to
the new `access_sequence` and nothing else changes.  The result is `-1` or the
index of a slot.  When no valid slot matches, or the first matching slot is
stale, it returns `-1` and leaves the whole cache unchanged; when the first
matching slot is fresh, its index is returned. -/
theorem cache_find_spec (c : cache_t) (request : List Char) (request_len now : Nat) :
    (∀ i : Fin MAX_CACHE_ENTRIES, (cache_find c request request_len now).2 = (i.val : Int) →
      (c.entries i).valid = true ∧
      (c.entries i).request_len = request_len ∧
      (c.entries i).request.take request_len = request.take request_len ∧
      is_cache_entry_stale c i now = false ∧
      (cache_find c request request_len now).1.access_sequence
        = (c.access_sequence + 1) % 2 ^ 64 ∧
      (c.access_sequence + 1 < 2 ^ 64 →
        (cache_find c request request_len now).1.access_sequence = c.access_sequence + 1) ∧
      (cache_find c request request_len now).1.entries i
        = { c.entries i with last_accessed := (c.access_sequence + 1) % 2 ^ 64 } ∧
      (∀ j, j ≠ i → (cache_find c request request_len now).1.entries j = c.entries j) ∧
      (cache_find c request request_len now).1.size = c.size ∧
      (cache_find c request request_len now).1.start_time = c.start_time) ∧
    ((cache_find c request request_len now).2 = -1 ∨
      ∃ i : Fin MAX_CACHE_ENTRIES, (cache_find c request request_len now).2 = (i.val : Int)) ∧
    ((∀ i, key_matches c i request request_len = false) →
      cache_find c request request_len now = (c, -1)) ∧
    (∀ i : Fin MAX_CACHE_ENTRIES, key_matches c i request request_len = true →
      (∀ j, j < i → key_matches c j request request_len = false) →
      (is_cache_entry_stale c i now = true → cache_find c request request_len now = (c, -1)) ∧
      (is_cache_entry_stale c i now = false →
        (cache_find c request request_len now).2 = (i.val : Int))) := by
  refine ⟨?_, ?_, ?_, ?_⟩
  · intro i hret
    rcases cache_find_cases c request request_len now with h | ⟨k, h, hk, hs⟩
    · rw [h] at hret
      have : (-1 : Int) = (i.val : Int) := hret
      omega
    · rw [h] at hret ⊢
      have hki : k = i := by
        apply Fin.ext
        have : ((k.val : Int)) = (i.val : Int) := hret
        exact_mod_cast this
      subst hki
      have hm := (key_matches_iff c k request request_len).mp hk
      have hv := hm.1
      refine ⟨hm.1, hm.2.1, hm.2.2, hs, ?_, ?_, ?_, ?_, ?_, ?_⟩
      · simp [cache_update_lru, hv]
      · intro hlt
        have hseq : (cache_update_lru c k).access_sequence = (c.access_sequence + 1) % 2 ^ 64 := by
          simp [cache_update_lru, hv]
        rw [hseq]
        exact Nat.mod_eq_of_lt hlt
      · simp [cache_update_lru, hv]
      · intro j hj
        simp [cache_update_lru, hv, set_entry_other _ _ _ _ hj]
      · simp [cache_update_lru, hv]
      · simp [cache_update_lru, hv, set_entry]
  · rcases cache_find_cases c request request_len now with h | ⟨k, h, _, _⟩
    · left; rw [h]
    · right; exact ⟨k, by rw [h]⟩
  · intro hnone
    unfold cache_find
    rw [cache_find_loop_eq]
    have : slots.find? (fun i => key_matches c i request request_len) = none := by
      rw [List.find?_eq_none]
      intro i _
      simp [hnone i]
    rw [this]
  · intro i hk hfirst
    have hfind := find_first_match c request request_len i hk hfirst
    unfold cache_find
    rw [cache_find_loop_eq, hfind]
    constructor
    · intro hs; simp [hs]
    · intro hs; simp [hs]

/-- C6. For every valid slot and every clock reading `now >= cached_at`,
`is_cache_entry_stale` returns true iff `max_age > 0` and
`now - cached_at > max_age * 1000` (strictly greater); a slot with
`max_age = 0` is never stale at any time; the product `max_age * 1000`
computed in 64 bits does not overflow for any 32-bit `max_age`. -/
theorem stale_iff_age_exceeds (c : cache_t) (i : Fin MAX_CACHE_ENTRIES) (now : Nat)
    (hvalid : (c.entries i).valid = true) (hnow : (c.entries i).cached_at ≤ now)
    (h64 : now < 2 ^ 64) (h32 : (c.entries i).max_age < 2 ^ 32) :
    (is_cache_entry_stale c i now = true ↔
      0 < (c.entries i).max_age ∧
        now - (c.entries i).cached_at > (c.entries i).max_age * 1000) ∧
    (now - (c.entries i).cached_at = (c.entries i).max_age * 1000 →
      is_cache_entry_stale c i now = false) ∧
    (∀ t : Nat, (c.entries i).max_age = 0 → is_cache_entry_stale c i t = false) ∧
    ((c.entries i).max_age * 1000) % 2 ^ 64 = (c.entries i).max_age * 1000 ∧
    (c.entries i).max_age * 1000 < 2 ^ 64 := by
  have hprod : (c.entries i).max_age * 1000 < 2 ^ 64 := by omega
  have hiff := stale_iff_core c i now hvalid hnow h64 h32
  refine ⟨hiff, ?_, ?_, Nat.mod_eq_of_lt hprod, hprod⟩
  · intro hexact
    cases hst : is_cache_entry_stale c i now with
    | false => rfl
    | true =>
      have := (hiff.mp hst).2
      omega
  · intro t hz
    simp [is_cache_entry_stale, hz]

/-- The first loop of `cache_find_lru` keeps its accumulator when no valid slot
lies below `oldest_time`, and otherwise ends on a valid slot whose
`last_accessed` is the least among the valid slots scanned. -/
theorem lru_scan_spec (c : cache_t) :
    ∀ (l : List (Fin MAX_CACHE_ENTRIES)) (lru_index : Int) (oldest_time : Nat),
      (lru_scan c l (lru_index, oldest_time) = (lru_index, oldest_time) ∧
        ∀ i ∈ l, (c.entries i).valid = true → oldest_time ≤ (c.entries i).last_accessed) ∨
      (∃ i ∈ l, (c.entries i).valid = true ∧
        lru_scan c l (lru_index, oldest_time) = ((i.val : Int), (c.entries i).last_accessed) ∧
        (c.entries i).last_accessed < oldest_time ∧
        ∀ j ∈ l, (c.entries j).valid = true →
          (c.entries i).last_accessed ≤ (c.entries j).last_accessed) := by
  intro l
  induction l with
  | nil => intro lru_index oldest_time; left; simp [lru_scan]
  | cons a l ih =>
    intro lru_index oldest_time
    unfold lru_scan
    by_cases ha : (c.entries a).valid = true ∧ (c.entries a).last_accessed < oldest_time
    · have hcond : ((c.entries a).valid &&
          decide ((c.entries a).last_accessed < oldest_time)) = true := by simp [ha]
      simp only [hcond, if_true]
      right
      rcases ih (a.val : Int) (c.entries a).last_accessed with ⟨heq, hall⟩ | ⟨i, hi, hv, heq, hlt, hmin⟩
      · refine ⟨a, List.mem_cons_self _ _, ha.1, heq, ha.2, ?_⟩
        intro j hj hvj
        rcases List.mem_cons.mp hj with h | h
        · subst h; exact le_refl _
        · exact hall j h hvj
      · refine ⟨i, List.mem_cons_of_mem _ hi, hv, heq, lt_trans hlt ha.2, ?_⟩
        intro j hj hvj
        rcases List.mem_cons.mp hj with h | h
        · subst h; exact le_of_lt hlt
        · exact hmin j h hvj
    · have hcond : ((c.entries a).valid &&
          decide ((c.entries a).last_accessed < oldest_time)) = false := by
        cases hv : (c.entries a).valid with
        | false => simp
        | true =>
          have : ¬ (c.entries a).last_accessed < oldest_time := fun h => ha ⟨hv, h⟩
          simp [this]
      simp only [hcond, Bool.false_eq_true, if_false]
      rcases ih lru_index oldest_time with ⟨heq, hall⟩ | ⟨i, hi, hv, heq, hlt, hmin⟩
      · left
        refine ⟨heq, ?_⟩
        intro j hj hvj
        rcases List.mem_cons.mp hj with h | h
        · subst h
          exact not_lt.mp (fun hlt => ha ⟨hvj, hlt⟩)
        · exact hall j h hvj
      · right
        refine ⟨i, List.mem_cons_of_mem _ hi, hv, heq, hlt, ?_⟩
        intro j hj hvj
        rcases List.mem_cons.mp hj with h | h
        · subst h
          have : oldest_time ≤ (c.entries j).last_accessed :=
            not_lt.mp (fun hlt2 => ha ⟨hvj, hlt2⟩)
          omega
        · exact hmin j h hvj

/-- With a valid slot below `UINT64_MAX`, `cache_find_lru` returns the index of
a valid slot whose `last_accessed` is least among the valid slots. -/
theorem cache_find_lru_valid (c : cache_t)
    (h : ∃ i, (c.entries i).valid = true ∧ (c.entries i).last_accessed < UINT64_MAX) :
    ∃ i : Fin MAX_CACHE_ENTRIES, cache_find_lru c = (i.val : Int) ∧
      (c.entries i).valid = true ∧
      ∀ j, (c.entries j).valid = true →
        (c.entries i).last_accessed ≤ (c.entries j).last_accessed := by
  obtain ⟨k, hkv, hkl⟩ := h
  rcases lru_scan_spec c slots (-1) UINT64_MAX with ⟨_, hall⟩ | ⟨i, _, hv, heq, _, hmin⟩
  · have := hall k (mem_slots k) hkv
    omega
  · refine ⟨i, ?_, hv, fun j hj => hmin j (mem_slots j) hj⟩
    unfold cache_find_lru
    simp only [heq]
    have hne : ((i.val : Int)) ≠ -1 := by omega
    simp [hne]

/-- A successful `cache_add` fills one slot of a cache that differs from the
given one in `size` at most. -/
theorem cache_add_success (c c1 : cache_t) (request : List Char) (request_len : Nat)
    (response : List Char) (response_len : Nat) (host uri : List Char) (max_age now : Nat)
    (h : cache_add c request request_len response response_len host uri max_age now
      = some (c1, 1)) :
    request_len ≤ MAX_REQUEST_SIZE_TO_CACHE ∧ response_len ≤ MAX_CACHE_ENTRY_SIZE ∧
    ∃ (index : Fin MAX_CACHE_ENTRIES) (size : Int),
      c1 = fill_slot { c with size := size } index request request_len response response_len
        host uri max_age now := by
  unfold cache_add at h
  split at h
  · simp at h
  split at h
  · simp at h
  rename_i h1 h2
  refine ⟨not_lt.mp h1, not_lt.mp h2, ?_⟩
  split at h
  · split at h
    · rename_i index _
      simp only [Option.some.injEq, Prod.mk.injEq, and_true] at h
      exact ⟨index, c.size + 1, h.symm⟩
    · simp at h
  · split at h
    · rename_i index _
      simp only [Option.some.injEq, Prod.mk.injEq, and_true] at h
      exact ⟨index, c.size, h.symm⟩
    · simp at h

/-- A refused `cache_add` returns 0 and the cache it was given. -/
theorem cache_add_refused (c : cache_t) (request : List Char) (request_len : Nat)
    (response : List Char) (response_len : Nat) (host uri : List Char) (max_age now : Nat)
    (h : request_len > MAX_REQUEST_SIZE_TO_CACHE ∨ response_len > MAX_CACHE_ENTRY_SIZE) :
    cache_add c request request_len response response_len host uri max_age now = some (c, 0) := by
  unfold cache_add
  by_cases h1 : request_len > MAX_REQUEST_SIZE_TO_CACHE
  · simp [h1]
  · have h2 : response_len > MAX_CACHE_ENTRY_SIZE := h.resolve_left h1
    simp [h1, h2]

/-- On a cache whose `size` counts the valid slots and that has a slot below
`UINT64_MAX`, a `cache_add` within the limits returns 1. -/
theorem cache_add_admitted (c : cache_t) (request : List Char) (request_len : Nat)
    (response : List Char) (response_len : Nat) (host uri : List Char) (max_age now : Nat)
    (hsize : c.size = (valid_count c : Int))
    (hseq : ∃ i, (c.entries i).last_accessed < UINT64_MAX)
    (h1 : request_len ≤ MAX_REQUEST_SIZE_TO_CACHE) (h2 : response_len ≤ MAX_CACHE_ENTRY_SIZE) :
    ∃ c1, cache_add c request request_len response response_len host uri max_age now
      = some (c1, 1) := by
  unfold cache_add
  rw [if_neg (not_lt.mpr h1), if_neg (not_lt.mpr h2)]
  by_cases hfull : c.size < (MAX_CACHE_ENTRIES : Int)
  · rw [if_pos hfull]
    cases hfi : first_invalid c slots with
    | some index => exact ⟨_, rfl⟩
    | none =>
      exfalso
      have hall := first_invalid_none c slots hfi
      have hcount : valid_count c = slots.length := by
        unfold valid_count
        rw [List.countP_eq_length]
        intro i hi
        exact hall i hi
      rw [hsize, hcount] at hfull
      simp [slots] at hfull
  · rw [if_neg hfull]
    have hle := valid_count_le c
    have hcount : valid_count c = MAX_CACHE_ENTRIES := by
      have : (MAX_CACHE_ENTRIES : Int) ≤ (valid_count c : Int) := by
        rw [← hsize]; exact Int.not_lt.mp hfull
      omega
    obtain ⟨k, hk⟩ := hseq
    obtain ⟨i, hi, _, _⟩ := cache_find_lru_valid c ⟨k, all_valid_of_count c hcount k, hk⟩
    rw [hi, slot_of_int_val]
    exact ⟨_, rfl⟩

/-- C4. On a cache whose `size` counts its valid slots and that has a slot
whose `last_accessed` is below `UINT64_MAX`, `cache_add` returns, and it returns
1 iff `request_len <= 2000` and `response_len <= 102400`; otherwise it returns
0 and the cache it was given.  A key of 2000 bytes with a response of 102400
bytes is admitted; a key of 2001 bytes or a response of 102401 bytes is
refused with the cache unchanged. -/
theorem cache_add_admits_iff_within_limits (c : cache_t) (request : List Char)
    (request_len : Nat) (response : List Char) (response_len : Nat) (host uri : List Char)
    (max_age now : Nat) (hsize : c.size = (valid_count c : Int))
    (hseq : ∃ i, (c.entries i).last_accessed < UINT64_MAX) :
    (∃ c1 ret, cache_add c request request_len response response_len host uri max_age now
        = some (c1, ret) ∧
      (ret = 1 ↔ request_len ≤ 2000 ∧ response_len ≤ 102400) ∧
      (ret ≠ 1 → ret = 0 ∧ c1 = c)) ∧
    (∃ c1, cache_add c request 2000 response 102400 host uri max_age now = some (c1, 1)) ∧
    cache_add c request 2001 response response_len host uri max_age now = some (c, 0) ∧
    cache_add c request request_len response 102401 host uri max_age now = some (c, 0) := by
  refine ⟨?_, ?_, ?_, ?_⟩
  · by_cases hok : request_len ≤ MAX_REQUEST_SIZE_TO_CACHE ∧ response_len ≤ MAX_CACHE_ENTRY_SIZE
    · obtain ⟨c1, hc1⟩ := cache_add_admitted c request request_len response response_len host uri
        max_age now hsize hseq hok.1 hok.2
      refine ⟨c1, 1, hc1, ?_, ?_⟩
      · simpa using hok
      · intro h; exact absurd rfl h
    · have hbad : request_len > MAX_REQUEST_SIZE_TO_CACHE ∨ response_len > MAX_CACHE_ENTRY_SIZE := by
        by_cases h1 : request_len ≤ MAX_REQUEST_SIZE_TO_CACHE
        · right; exact not_le.mp (fun h2 => hok ⟨h1, h2⟩)
        · left; exact not_le.mp h1
      refine ⟨c, 0, cache_add_refused c request request_len response response_len host uri
        max_age now hbad, ?_, ?_⟩
      · constructor
        · intro h; exact absurd h (by decide)
        · intro h; exact absurd h (by simpa using hok)
      · intro _; exact ⟨rfl, rfl⟩
  · exact cache_add_admitted c request 2000 response 102400 host uri max_age now hsize hseq
      (by decide) (by decide)
  · exact cache_add_refused c request 2001 response response_len host uri max_age now
      (Or.inl (by decide))
  · exact cache_add_refused c request request_len response 102401 host uri max_age now
      (Or.inr (by decide))

theorem fill_slot_entry (c : cache_t) (index : Fin MAX_CACHE_ENTRIES) (request : List Char)
    (request_len : Nat) (response : List Char) (response_len : Nat)
    (host uri : List Char) (max_age now : Nat) :
    (fill_slot c index request request_len response response_len host uri max_age now).entries
      index =
      { request := request.take request_len, request_len := request_len,
        response := response.take response_len, response_len := response_len,
        last_accessed := (c.access_sequence + 1) % 2 ^ 64, host := host, uri := uri,
        valid := true, cached_at := now, max_age := max_age } := by
  simp [fill_slot]

theorem fill_slot_other (c : cache_t) (index j : Fin MAX_CACHE_ENTRIES) (request : List Char)
    (request_len : Nat) (response : List Char) (response_len : Nat)
    (host uri : List Char) (max_age now : Nat) (h : j ≠ index) :
    (fill_slot c index request request_len response response_len host uri max_age now).entries j
      = c.entries j := by
  unfold fill_slot
  rw [set_entry_other _ _ _ _ h]

/-- Whether a slot holds a key depends on that slot only. -/
theorem key_matches_congr (c d : cache_t) (i : Fin MAX_CACHE_ENTRIES) (request : List Char)
    (request_len : Nat) (h : d.entries i = c.entries i) :
    key_matches d i request request_len = key_matches c i request request_len := by
  simp [key_matches, h]

/-- C3, counterexample.  A second `cache_add` of a key that slot 0 already
holds succeeds and fills slot 1, and the lookup of that key that follows at
the same instant returns slot 0, whose response is the old value. -/
theorem lookup_after_admission_counterexample :
    cache_add added_once ['k'] 1 "new".toList 3 ['h'] ['u'] 0 0 = some (added_twice, 1) ∧
    (cache_find added_twice ['k'] 1 0).2 = 0 ∧
    ((cache_find added_twice ['k'] 1 0).1.entries 0).valid = true ∧
    ((cache_find added_twice ['k'] 1 0).1.entries 0).response = "old".toList ∧
    ((cache_find added_twice ['k'] 1 0).1.entries 0).response ≠ "new".toList.take 3 :=
  ⟨rfl, by decide, by decide, by decide, by decide⟩

/-- C3, amended.  For every cache state in which no valid slot holds the key:
if `cache_add` succeeds at time `t0` with a 32-bit `max_age`, then `cache_find`
with the same key bytes and length at any time `t >= t0` with
`t - t0 <= max_age * 1000` (any later `t` when `max_age = 0`) returns the
index of a valid slot whose response bytes and `response_len` are exactly the
value just admitted. -/
theorem lookup_after_admission (c c1 : cache_t) (request : List Char) (request_len : Nat)
    (response : List Char) (response_len : Nat) (host uri : List Char) (max_age t0 t : Nat)
    (hnew : ∀ i, key_matches c i request request_len = false)
    (hadd : cache_add c request request_len response response_len host uri max_age t0
      = some (c1, 1))
    (h32 : max_age < 2 ^ 32) (h64 : t < 2 ^ 64) (hle : t0 ≤ t)
    (hage : max_age = 0 ∨ t - t0 ≤ max_age * 1000) :
    ∃ i : Fin MAX_CACHE_ENTRIES,
      (cache_find c1 request request_len t).2 = (i.val : Int) ∧
      ((cache_find c1 request request_len t).1.entries i).valid = true ∧
      ((cache_find c1 request request_len t).1.entries i).response = response.take response_len ∧
      ((cache_find c1 request request_len t).1.entries i).response_len = response_len := by
  obtain ⟨_, _, index, size, hc1⟩ := cache_add_success c c1 request request_len response
    response_len host uri max_age t0 hadd
  have hentry := fill_slot_entry { c with size := size } index request request_len response
    response_len host uri max_age t0
  rw [← hc1] at hentry
  have hother : ∀ j, j ≠ index → c1.entries j = c.entries j := by
    intro j hj
    rw [hc1]
    exact fill_slot_other { c with size := size } index j request request_len response
      response_len host uri max_age t0 hj
  have hmatch : key_matches c1 index request request_len = true := by
    rw [key_matches_iff, hentry]
    simp
  have hfirst : ∀ j, j < index → key_matches c1 j request request_len = false := by
    intro j hj
    rw [key_matches_congr c c1 j request request_len (hother j (ne_of_lt hj))]
    exact hnew j
  have hfresh : is_cache_entry_stale c1 index t = false := by
    unfold is_cache_entry_stale
    rw [hentry]
    by_cases hz : max_age = 0
    · simp [hz]
    · have hbound : t - t0 ≤ max_age * 1000 := hage.resolve_left hz
      have ht0 : t0 % 2 ^ 64 = t0 := Nat.mod_eq_of_lt (by omega)
      have hsum : t + 2 ^ 64 - t0 = (t - t0) + 2 ^ 64 := by omega
      have hprod : (max_age * 1000) % 2 ^ 64 = max_age * 1000 := Nat.mod_eq_of_lt (by omega)
      have hagems : (t + 2 ^ 64 - t0 % 2 ^ 64) % 2 ^ 64 = t - t0 := by
        rw [ht0, hsum, Nat.add_mod_right]
        exact Nat.mod_eq_of_lt (by omega)
      simp only [Bool.not_true, Bool.false_or, beq_iff_eq, hz, if_false]
      rw [hagems, hprod]
      simp only [decide_eq_false_iff_not, not_lt, ge_iff_le, gt_iff_lt]
      exact hbound
  have hfound := cache_find_fresh c1 request request_len t index hmatch hfirst hfresh
  have hvalid : (c1.entries index).valid = true := by rw [hentry]
  have hnewentry : (cache_update_lru c1 index).entries index
      = { c1.entries index with last_accessed := (c1.access_sequence + 1) % 2 ^ 64 } := by
    simp [cache_update_lru, hvalid]
  rw [hfound]
  refine ⟨index, rfl, ?_, ?_, ?_⟩
  · show ((cache_update_lru c1 index).entries index).valid = true
    rw [hnewentry, hentry]
  · show ((cache_update_lru c1 index).entries index).response = _
    rw [hnewentry, hentry]
  · show ((cache_update_lru c1 index).entries index).response_len = _
    rw [hnewentry, hentry]

/-- Witness of C3: the key `k` admitted into the empty cache is found again. -/
theorem lookup_after_admission_witness :
    (∀ i, key_matches (cache_init 0) i ['k'] 1 = false) ∧
    cache_add (cache_init 0) ['k'] 1 "old".toList 3 ['h'] ['u'] 0 0 = some (added_once, 1) ∧
    ∃ i : Fin MAX_CACHE_ENTRIES,
      (cache_find added_once ['k'] 1 5).2 = (i.val : Int) ∧
      ((cache_find added_once ['k'] 1 5).1.entries i).valid = true ∧
      ((cache_find added_once ['k'] 1 5).1.entries i).response = "old".toList.take 3 ∧
      ((cache_find added_once ['k'] 1 5).1.entries i).response_len = 3 :=
  ⟨by decide, rfl,
   lookup_after_admission (cache_init 0) added_once ['k'] 1 "old".toList 3 ['h'] ['u'] 0 0 5
    (by decide) rfl (by decide) (by decide) (by decide) (Or.inl rfl)⟩

/-- Witness of C4: the empty cache admits at the two limits and refuses above. -/
theorem cache_add_admits_iff_within_limits_witness :
    (cache_init 0).size = (valid_count (cache_init 0) : Int) ∧
    (∃ i, ((cache_init 0).entries i).last_accessed < UINT64_MAX) ∧
    (∃ c1, cache_add (cache_init 0) (List.replicate 2000 'a') 2000 (List.replicate 102400 'b')
      102400 ['h'] ['u'] 0 0 = some (c1, 1)) ∧
    cache_add (cache_init 0) (List.replicate 2001 'a') 2001 (List.replicate 102400 'b') 102400
      ['h'] ['u'] 0 0 = some (cache_init 0, 0) :=
  ⟨by decide, ⟨0, by decide⟩,
   (cache_add_admits_iff_within_limits (cache_init 0) (List.replicate 2000 'a') 2000
      (List.replicate 102400 'b') 102400 ['h'] ['u'] 0 0 (by decide) ⟨0, by decide⟩).2.1,
   (cache_add_admits_iff_within_limits (cache_init 0) (List.replicate 2001 'a') 2000
      (List.replicate 102400 'b') 102400 ['h'] ['u'] 0 0 (by decide) ⟨0, by decide⟩).2.2.1⟩

/-- Witness of C6: an entry cached at 100 with `max_age = 1` is fresh at 1100
and stale at 1101. -/
theorem stale_iff_age_exceeds_witness :
    (aged_once.entries 0).valid = true ∧ (aged_once.entries 0).cached_at ≤ 1101 ∧
    (is_cache_entry_stale aged_once 0 1101 = true ↔
      0 < (aged_once.entries 0).max_age ∧
        1101 - (aged_once.entries 0).cached_at > (aged_once.entries 0).max_age * 1000) ∧
    is_cache_entry_stale aged_once 0 1100 = false :=
  ⟨by decide, by decide,
   (stale_iff_age_exceeds aged_once 0 1101 (by decide) (by decide) (by decide) (by decide)).1,
   (stale_iff_age_exceeds aged_once 0 1100 (by decide) (by decide) (by decide)
      (by decide)).2.1 (by decide)⟩

/-! ## Distinct keys along the request pipeline -/

/-- A slot that holds the key stores exactly the first `request_len` bytes of
the request, when the stored key is not longer than its `request_len`. -/
theorem key_of_match (c : cache_t) (i : Fin MAX_CACHE_ENTRIES) (request : List Char)
    (request_len : Nat) (hlen : (c.entries i).request.length ≤ (c.entries i).request_len)
    (h : key_matches c i request request_len = true) :
    (c.entries i).request_len = request_len ∧
      (c.entries i).request = request.take request_len := by
  obtain ⟨_, h1, h2⟩ := (key_matches_iff c i request request_len).mp h
  refine ⟨h1, ?_⟩
  rw [← h2, List.take_of_length_le (by omega)]

/-- The invariant passes to a cache whose valid slots are valid slots of the
old cache with the same key and the same `cached_at`. -/
theorem keys_inv_of_sub (c d : cache_t) (t t1 : Nat) (h : keys_inv c t) (ht : t ≤ t1)
    (ht1 : t1 < 2 ^ 64)
    (hsub : ∀ j, (d.entries j).valid = true →
      (c.entries j).valid = true ∧ (d.entries j).request = (c.entries j).request ∧
      (d.entries j).request_len = (c.entries j).request_len ∧
      (d.entries j).cached_at = (c.entries j).cached_at) : keys_inv d t1 := by
  obtain ⟨huniq, hlen, hat, _⟩ := h
  refine ⟨?_, ?_, ?_, ht1⟩
  · intro i j hi hj hl hr
    obtain ⟨hci, hri, hli, _⟩ := hsub i hi
    obtain ⟨hcj, hrj, hlj, _⟩ := hsub j hj
    exact huniq i j hci hcj (by rw [← hli, ← hlj, hl]) (by rw [← hri, ← hrj, hr])
  · intro i hi
    obtain ⟨hci, hri, hli, _⟩ := hsub i hi
    rw [hri, hli]
    exact hlen i hci
  · intro i hi
    obtain ⟨hci, _, _, hai⟩ := hsub i hi
    rw [hai]
    exact le_trans (hat i hci) ht

/-- The invariant passes to a cache in which slot `s` received the key, when no
other valid slot held it. -/
theorem keys_inv_of_fill (c d : cache_t) (t t1 : Nat) (s : Fin MAX_CACHE_ENTRIES)
    (request : List Char) (request_len : Nat) (h : keys_inv c t) (ht : t ≤ t1)
    (ht1 : t1 < 2 ^ 64)
    (hnone : ∀ j, j ≠ s → key_matches c j request request_len = false)
    (hreq : (d.entries s).request = request.take request_len)
    (hlen : (d.entries s).request_len = request_len)
    (hat : (d.entries s).cached_at ≤ t1)
    (hother : ∀ j, j ≠ s → (d.entries j).valid = true →
      (c.entries j).valid = true ∧ (d.entries j).request = (c.entries j).request ∧
      (d.entries j).request_len = (c.entries j).request_len ∧
      (d.entries j).cached_at = (c.entries j).cached_at) : keys_inv d t1 := by
  obtain ⟨huniq, hclen, hcat, _⟩ := h
  have hclash : ∀ j, j ≠ s → (d.entries j).valid = true →
      (d.entries j).request_len = request_len →
      (d.entries j).request = request.take request_len → False := by
    intro j hj hv hl hr
    obtain ⟨hcv, hcr, hcl, _⟩ := hother j hj hv
    have hm : key_matches c j request request_len = true := by
      rw [key_matches_iff]
      refine ⟨hcv, by rw [← hcl, hl], ?_⟩
      rw [← hcr, hr, List.take_take, Nat.min_self]
    rw [hnone j hj] at hm
    exact Bool.false_ne_true hm
  refine ⟨?_, ?_, ?_, ht1⟩
  · intro i j hi hj hl hr
    by_cases his : i = s
    · by_cases hjs : j = s
      · rw [his, hjs]
      · exfalso
        subst his
        exact hclash j hjs hj (by rw [← hl, hlen]) (by rw [← hr, hreq])
    · by_cases hjs : j = s
      · exfalso
        subst hjs
        exact hclash i his hi (by rw [hl, hlen]) (by rw [hr, hreq])
      · obtain ⟨hci, hri, hli, _⟩ := hother i his hi
        obtain ⟨hcj, hrj, hlj, _⟩ := hother j hjs hj
        exact huniq i j hci hcj (by rw [← hli, ← hlj, hl]) (by rw [← hri, ← hrj, hr])
  · intro i hi
    by_cases his : i = s
    · subst his
      rw [hreq, hlen]
      exact List.length_take_le _ _
    · obtain ⟨hci, hri, hli, _⟩ := hother i his hi
      rw [hri, hli]
      exact hclen i hci
  · intro i hi
    by_cases his : i = s
    · subst his; exact hat
    · obtain ⟨hci, _, _, hai⟩ := hother i his hi
      rw [hai]
      exact le_trans (hcat i hci) ht

/-- A stale slot stays stale while the clock does not go backwards. -/
theorem stale_mono (c : cache_t) (i : Fin MAX_CACHE_ENTRIES) (ta tb : Nat)
    (hat : (c.entries i).cached_at ≤ ta) (hab : ta ≤ tb) (hb : tb < 2 ^ 64)
    (h : is_cache_entry_stale c i ta = true) : is_cache_entry_stale c i tb = true := by
  unfold is_cache_entry_stale at h ⊢
  by_cases hcond : (!(c.entries i).valid || (c.entries i).max_age == 0) = true
  · rw [if_pos hcond] at h
    exact absurd h (by simp)
  · rw [if_neg hcond] at h ⊢
    have hc : (c.entries i).cached_at % 2 ^ 64 = (c.entries i).cached_at :=
      Nat.mod_eq_of_lt (by omega)
    have hage : ∀ x, (c.entries i).cached_at ≤ x → x < 2 ^ 64 →
        (x + 2 ^ 64 - (c.entries i).cached_at % 2 ^ 64) % 2 ^ 64
          = x - (c.entries i).cached_at := by
      intro x hx hx64
      rw [hc]
      have : x + 2 ^ 64 - (c.entries i).cached_at = (x - (c.entries i).cached_at) + 2 ^ 64 := by
        omega
      rw [this, Nat.add_mod_right]
      exact Nat.mod_eq_of_lt (by omega)
    simp only [decide_eq_true_eq] at h ⊢
    rw [hage ta hat (by omega)] at h
    rw [hage tb (by omega) hb]
    omega

/-- The scan for a stale slot returns `-1` when no slot both holds the key and
is stale, and otherwise the index of such a slot. -/
theorem stale_scan_spec (c : cache_t) (request : List Char) (total_request_len : Nat)
    (now : Fin MAX_CACHE_ENTRIES → Nat) :
    ∀ l : List (Fin MAX_CACHE_ENTRIES),
      (stale_scan c request total_request_len now l = -1 ∧
        ∀ i ∈ l, ¬ (key_matches c i request total_request_len = true ∧
          is_cache_entry_stale c i (now i) = true)) ∨
      ∃ i ∈ l, stale_scan c request total_request_len now l = (i.val : Int) ∧
        key_matches c i request total_request_len = true ∧
        is_cache_entry_stale c i (now i) = true := by
  intro l
  induction l with
  | nil => left; simp [stale_scan]
  | cons a l ih =>
    unfold stale_scan
    by_cases ha : key_matches c a request total_request_len = true ∧
        is_cache_entry_stale c a (now a) = true
    · right
      refine ⟨a, List.mem_cons_self _ _, ?_, ha.1, ha.2⟩
      simp [ha.1, ha.2]
    · have hcond : (key_matches c a request total_request_len &&
          is_cache_entry_stale c a (now a)) = false := by
        cases h1 : key_matches c a request total_request_len with
        | false => simp
        | true =>
          cases h2 : is_cache_entry_stale c a (now a) with
          | false => simp
          | true => exact absurd ⟨h1, h2⟩ ha
      simp only [hcond, Bool.false_eq_true, if_false]
      rcases ih with ⟨h1, h2⟩ | ⟨i, hi, h1, h2, h3⟩
      · left
        refine ⟨h1, ?_⟩
        intro i hi
        rcases List.mem_cons.mp hi with h | h
        · subst h; exact ha
        · exact h2 i h
      · right
        exact ⟨i, List.mem_cons_of_mem _ hi, h1, h2, h3⟩

/-- A `cache_find` that returns `-1`: no slot holds the key, or a slot that
holds it is stale. -/
theorem cache_find_miss (c : cache_t) (request : List Char) (request_len now : Nat)
    (h : (cache_find c request request_len now).2 = -1) :
    cache_find c request request_len now = (c, -1) ∧
    ((∀ i, key_matches c i request request_len = false) ∨
      ∃ i, key_matches c i request request_len = true ∧
        is_cache_entry_stale c i now = true) := by
  unfold cache_find at h ⊢
  rw [cache_find_loop_eq] at h ⊢
  cases hf : slots.find? (fun i => key_matches c i request request_len) with
  | none =>
    refine ⟨rfl, Or.inl ?_⟩
    intro i
    rw [List.find?_eq_none] at hf
    simpa using hf i (mem_slots i)
  | some i =>
    rw [hf] at h
    have hk := List.find?_some hf
    cases hs : is_cache_entry_stale c i now with
    | true => exact ⟨by simp [hs], Or.inr ⟨i, hk, hs⟩⟩
    | false =>
      exfalso
      simp only [hs, Bool.false_eq_true, if_false] at h
      have : ((i.val : Int)) = -1 := h
      omega

/-- The cache left by `cache_prepare_eviction_if_needed` is the given one, or
the given one with one slot invalidated. -/
theorem cache_prepare_sub (c : cache_t) (request_len : Nat) (j : Fin MAX_CACHE_ENTRIES) :
    (((cache_prepare_eviction_if_needed c request_len).1.entries j).valid = true →
      (c.entries j).valid = true) ∧
    ((cache_prepare_eviction_if_needed c request_len).1.entries j).request
      = (c.entries j).request ∧
    ((cache_prepare_eviction_if_needed c request_len).1.entries j).request_len
      = (c.entries j).request_len ∧
    ((cache_prepare_eviction_if_needed c request_len).1.entries j).cached_at
      = (c.entries j).cached_at := by
  unfold cache_prepare_eviction_if_needed
  split
  · simp
  split
  · split
    · rename_i index _
      by_cases hv : (c.entries index).valid = true
      · simp only [hv, if_true]
        by_cases hj : j = index
        · subst hj; simp
        · rw [set_entry_other _ _ _ _ hj]; simp
      · simp [hv]
    · simp
  · simp

theorem release_stale_sub (c d : cache_t) (stale_entry_index : Int)
    (h : release_stale c stale_entry_index = some d) (j : Fin MAX_CACHE_ENTRIES) :
    ((d.entries j).valid = true → (c.entries j).valid = true) ∧
    (d.entries j).request = (c.entries j).request ∧
    (d.entries j).request_len = (c.entries j).request_len ∧
    (d.entries j).cached_at = (c.entries j).cached_at := by
  unfold release_stale at h
  split at h
  · split at h
    · rename_i s _
      simp only [Option.some.injEq] at h
      subst h
      by_cases hj : j = s
      · subst hj; simp
      · rw [set_entry_other _ _ _ _ hj]; simp
    · simp at h
  · simp only [Option.some.injEq] at h
    subst h
    simp

theorem cache_update_lru_fields (c : cache_t) (i j : Fin MAX_CACHE_ENTRIES) :
    ((cache_update_lru c i).entries j).valid = (c.entries j).valid ∧
    ((cache_update_lru c i).entries j).request = (c.entries j).request ∧
    ((cache_update_lru c i).entries j).request_len = (c.entries j).request_len ∧
    ((cache_update_lru c i).entries j).cached_at = (c.entries j).cached_at := by
  unfold cache_update_lru
  by_cases hv : (c.entries i).valid = true
  · simp only [hv, if_true]
    by_cases hj : j = i
    · subst hj; simp [hv]
    · rw [set_entry_other _ _ _ _ hj]; simp
  · simp [hv]

/-- What `cache_add` returns: the given cache, or that cache with one slot
filled and `size` possibly changed. -/
theorem cache_add_cases (c c1 : cache_t) (request : List Char) (request_len : Nat)
    (response : List Char) (response_len : Nat) (host uri : List Char) (max_age now : Nat)
    (ret : Int)
    (h : cache_add c request request_len response response_len host uri max_age now
      = some (c1, ret)) :
    c1 = c ∨ ∃ (index : Fin MAX_CACHE_ENTRIES) (size : Int),
      c1 = fill_slot { c with size := size } index request request_len response response_len
        host uri max_age now := by
  unfold cache_add at h
  split at h
  · left; simp only [Option.some.injEq, Prod.mk.injEq] at h; exact h.1.symm
  split at h
  · left; simp only [Option.some.injEq, Prod.mk.injEq] at h; exact h.1.symm
  split at h
  · split at h
    · rename_i index _
      simp only [Option.some.injEq, Prod.mk.injEq] at h
      exact Or.inr ⟨index, c.size + 1, h.1.symm⟩
    · simp at h
  · split at h
    · rename_i index _
      simp only [Option.some.injEq, Prod.mk.injEq] at h
      exact Or.inr ⟨index, c.size, h.1.symm⟩
    · simp at h

/-- The three ways in which lines 153-204 end, on a cache that satisfies the
invariant and under an ordered clock. -/
theorem request_lookup_cases (caching_enabled : Bool) (c : cache_t) (t : Nat)
    (request : List Char) (request_len total_request_len now_find : Nat)
    (now_scan : Fin MAX_CACHE_ENTRIES → Nat) (h : keys_inv c t) (hfind : t ≤ now_find)
    (hscan : ∀ i, now_find ≤ now_scan i ∧ now_scan i < 2 ^ 64) :
    (∃ i : Fin MAX_CACHE_ENTRIES,
      request_lookup caching_enabled c request request_len total_request_len now_find now_scan
        = lookup_t.served (cache_update_lru c i) (i.val : Int)) ∨
    (∃ d : cache_t,
      request_lookup caching_enabled c request request_len total_request_len now_find now_scan
        = lookup_t.fetch d (-1) ∧
      (∀ j, ((d.entries j).valid = true → (c.entries j).valid = true) ∧
        (d.entries j).request = (c.entries j).request ∧
        (d.entries j).request_len = (c.entries j).request_len ∧
        (d.entries j).cached_at = (c.entries j).cached_at) ∧
      ((caching_enabled && decide (request_len ≤ MAX_REQUEST_SIZE_TO_CACHE)) = true →
        ∀ j, key_matches d j request total_request_len = false)) ∨
    (∃ i : Fin MAX_CACHE_ENTRIES,
      request_lookup caching_enabled c request request_len total_request_len now_find now_scan
        = lookup_t.fetch c (i.val : Int) ∧
      key_matches c i request total_request_len = true) := by
  unfold request_lookup
  by_cases hen : (caching_enabled && decide (request_len ≤ MAX_REQUEST_SIZE_TO_CACHE)) = true
  · rw [if_pos hen]
    by_cases hret : (cache_find c request total_request_len now_find).2 = -1
    · obtain ⟨hfound, hwhy⟩ := cache_find_miss c request total_request_len now_find hret
      simp only [hfound, ne_eq, not_true_eq_false, if_false]
      rcases stale_scan_spec c request total_request_len now_scan slots with
        ⟨hs, hnone⟩ | ⟨i, _, hs, hk, _⟩
      · right; left
        simp only [hs, if_true]
        refine ⟨_, rfl, ?_, ?_⟩
        · intro j
          exact cache_prepare_sub c total_request_len j
        · intro _ j
          have hcj : key_matches c j request total_request_len = false := by
            rcases hwhy with hno | ⟨i, hk, hst⟩
            · exact hno j
            · exfalso
              have hv := ((key_matches_iff c i request total_request_len).mp hk).1
              have hst2 := stale_mono c i now_find (now_scan i)
                (le_trans (h.2.2.1 i hv) hfind) (hscan i).1 (hscan i).2 hst
              exact hnone i (mem_slots i) ⟨hk, hst2⟩
          cases hd : key_matches (cache_prepare_eviction_if_needed c total_request_len).1 j
              request total_request_len with
          | false => rfl
          | true =>
            exfalso
            obtain ⟨hv, hr, hl, _⟩ := cache_prepare_sub c total_request_len j
            obtain ⟨h1, h2, h3⟩ := (key_matches_iff _ j request total_request_len).mp hd
            have : key_matches c j request total_request_len = true := by
              rw [key_matches_iff]
              exact ⟨hv h1, by rw [← hl, h2], by rw [← hr, h3]⟩
            rw [hcj] at this
            exact Bool.false_ne_true this
      · right; right
        have hne : ((i.val : Int)) ≠ -1 := by omega
        refine ⟨i, ?_, hk⟩
        simp only [hs, hne, if_false]
    · rcases cache_find_cases c request total_request_len now_find with hc | ⟨i, hc, _, _⟩
      · rw [hc] at hret
        exact absurd rfl hret
      · left
        refine ⟨i, ?_⟩
        rw [if_pos hret, hc]
  · right; left
    rw [if_neg hen]
    refine ⟨c, rfl, ?_, ?_⟩
    · intro j; simp
    · intro habs; exact absurd habs hen

/-- The commit keeps the invariant, given what the lookup established about
`stale_entry_index`. -/
theorem request_commit_keys (caching_enabled : Bool) (c c2 : cache_t) (t t1 : Nat)
    (stale_entry_index : Int) (request : List Char) (total_request_len : Nat)
    (complete_response : List Char) (complete_response_size : Nat)
    (header_accumulator host request_uri : List Char) (now : Nat)
    (h : keys_inv c t) (ht : t ≤ t1) (ht1 : t1 < 2 ^ 64) (hnow : now ≤ t1)
    (hs : (stale_entry_index = -1 ∧
        ((caching_enabled && decide (total_request_len ≤ MAX_REQUEST_SIZE_TO_CACHE)) = true →
          ∀ j, key_matches c j request total_request_len = false)) ∨
      ∃ i : Fin MAX_CACHE_ENTRIES, stale_entry_index = (i.val : Int) ∧
        key_matches c i request total_request_len = true)
    (hc : request_commit caching_enabled c stale_entry_index request total_request_len
      complete_response complete_response_size header_accumulator host request_uri now
        = some c2) : keys_inv c2 t1 := by
  have hrel : ∀ d, release_stale c stale_entry_index = some d → keys_inv d t1 := by
    intro d hd
    exact keys_inv_of_sub c d t t1 h ht ht1 (fun j hv =>
      ⟨(release_stale_sub c d _ hd j).1 hv, (release_stale_sub c d _ hd j).2⟩)
  have hsame : keys_inv c t1 := keys_inv_of_sub c c t t1 h ht ht1 (fun j hv => ⟨hv, rfl, rfl, rfl⟩)
  unfold request_commit at hc
  by_cases hen : (caching_enabled && decide (total_request_len ≤ MAX_REQUEST_SIZE_TO_CACHE)) = true
  · rw [if_pos hen] at hc
    by_cases hfit : complete_response_size ≤ MAX_CACHE_ENTRY_SIZE
    · rw [if_pos hfit] at hc
      by_cases hcb : is_cacheable_response header_accumulator ≠ 0
      · rw [if_pos hcb] at hc
        rcases hs with ⟨hs1, hnone⟩ | ⟨i, hsi, hk⟩
        · subst hs1
          simp only [ne_eq, not_true_eq_false, if_false] at hc
          cases hadd : cache_add c request total_request_len complete_response
              complete_response_size host request_uri (extract_max_age header_accumulator) now with
          | none => rw [hadd] at hc; simp at hc
          | some res =>
            rw [hadd] at hc
            simp only [Option.map_some', Option.some.injEq] at hc
            obtain ⟨x, ret⟩ := res
            simp only at hc
            subst hc
            rcases cache_add_cases c x request total_request_len complete_response
              complete_response_size host request_uri _ now ret hadd with hx | ⟨index, size, hx⟩
            · rw [hx]; exact hsame
            · have hentry := fill_slot_entry { c with size := size } index request
                total_request_len complete_response complete_response_size host request_uri
                (extract_max_age header_accumulator) now
              rw [← hx] at hentry
              apply keys_inv_of_fill c x t t1 index request total_request_len h ht ht1
              · intro j _; exact hnone hen j
              · rw [hentry]
              · rw [hentry]
              · rw [hentry]; exact hnow
              · intro j hj hv
                have ho := fill_slot_other { c with size := size } index j request
                  total_request_len complete_response complete_response_size host request_uri
                  (extract_max_age header_accumulator) now hj
                rw [← hx] at ho
                rw [ho] at hv ⊢
                exact ⟨hv, rfl, rfl, rfl⟩
        · subst hsi
          have hne : ((i.val : Int)) ≠ -1 := by omega
          rw [if_pos hne, slot_of_int_val] at hc
          simp only [Option.some.injEq] at hc
          subst hc
          have hvi := ((key_matches_iff c i request total_request_len).mp hk).1
          have hki := key_of_match c i request total_request_len (h.2.1 i hvi) hk
          unfold replace_stale
          apply keys_inv_of_fill c _ t t1 i request total_request_len h ht ht1
          · intro j hj
            cases hkj : key_matches c j request total_request_len with
            | false => rfl
            | true =>
              exfalso
              have hvj := ((key_matches_iff c j request total_request_len).mp hkj).1
              have hkj2 := key_of_match c j request total_request_len (h.2.1 j hvj) hkj
              exact hj (h.1 j i hvj hvi (by rw [hkj2.1, hki.1]) (by rw [hkj2.2, hki.2]))
          · rw [(cache_update_lru_fields _ i i).2.1]; simp
          · rw [(cache_update_lru_fields _ i i).2.2.1]; simp
          · rw [(cache_update_lru_fields _ i i).2.2.2]; simpa using hnow
          · intro j hj hv
            rw [(cache_update_lru_fields _ i j).1] at hv
            rw [(cache_update_lru_fields _ i j).2.1, (cache_update_lru_fields _ i j).2.2.1,
              (cache_update_lru_fields _ i j).2.2.2]
            rw [set_entry_other _ _ _ _ hj] at hv ⊢
            exact ⟨hv, rfl, rfl, rfl⟩
      · rw [if_neg hcb] at hc
        exact hrel c2 hc
    · rw [if_neg hfit] at hc
      exact hrel c2 hc
  · rw [if_neg hen] at hc
    simp only [Option.some.injEq] at hc
    rw [← hc]
    exact hsame

/-- One run of `handle_client_request` keeps the invariant. -/
theorem run_keeps_keys (caching_enabled : Bool) (c c1 : cache_t) (t t1 : Nat) (r : run_t)
    (h : keys_inv c t) (hclk : clock_ordered t r t1)
    (hlen : r.request_len ≤ MAX_REQUEST_SIZE_TO_CACHE ∨
      MAX_REQUEST_SIZE_TO_CACHE < r.total_request_len)
    (hrun : handle_client_request_cache caching_enabled c r = some c1) : keys_inv c1 t1 := by
  obtain ⟨hfind, hscan, horigin, ht1⟩ := hclk
  have htt1 : t ≤ t1 := le_trans hfind (le_trans (hscan 0).1 (hscan 0).2)
  have hscan2 : ∀ i, r.now_find ≤ r.now_scan i ∧ r.now_scan i < 2 ^ 64 :=
    fun i => ⟨(hscan i).1, lt_of_le_of_lt (hscan i).2 ht1⟩
  unfold handle_client_request_cache at hrun
  rcases request_lookup_cases caching_enabled c t r.request r.request_len r.total_request_len
    r.now_find r.now_scan h hfind hscan2 with ⟨i, hl⟩ | ⟨d, hl, hsub, hnone⟩ | ⟨i, hl, hk⟩
  · rw [hl] at hrun
    simp only [Option.some.injEq] at hrun
    subst hrun
    exact keys_inv_of_sub c _ t t1 h htt1 ht1 (fun j hv => by
      have hf := cache_update_lru_fields c i j
      exact ⟨by rw [← hf.1]; exact hv, hf.2⟩)
  · rw [hl] at hrun
    have hd : keys_inv d t := keys_inv_of_sub c d t t h (le_refl _) h.2.2.2
      (fun j hv => ⟨(hsub j).1 hv, (hsub j).2⟩)
    cases ho : r.origin with
    | none =>
      rw [ho] at hrun
      simp only [Option.some.injEq] at hrun
      subst hrun
      exact keys_inv_of_sub c _ t t1 h htt1 ht1 (fun j hv => ⟨(hsub j).1 hv, (hsub j).2⟩)
    | some o =>
      rw [ho] at hrun
      simp only at hrun
      apply request_commit_keys caching_enabled d c1 t t1 (-1) r.request r.total_request_len
        o.complete_response o.complete_response_size o.header_accumulator r.host r.request_uri
        o.now_commit hd htt1 ht1 (horigin o ho).2 _ hrun
      left
      refine ⟨rfl, ?_⟩
      intro hen
      apply hnone
      simp only [Bool.and_eq_true, decide_eq_true_eq] at hen ⊢
      refine ⟨hen.1, ?_⟩
      rcases hlen with h1 | h2
      · exact h1
      · omega
  · rw [hl] at hrun
    cases ho : r.origin with
    | none =>
      rw [ho] at hrun
      simp only [Option.some.injEq] at hrun
      subst hrun
      exact keys_inv_of_sub c _ t t1 h htt1 ht1 (fun j hv => ⟨hv, rfl, rfl, rfl⟩)
    | some o =>
      rw [ho] at hrun
      simp only at hrun
      exact request_commit_keys caching_enabled c c1 t t1 (i.val : Int) r.request
        r.total_request_len o.complete_response o.complete_response_size o.header_accumulator
        r.host r.request_uri o.now_commit h htt1 ht1 (horigin o ho).2
        (Or.inr ⟨i, rfl, hk⟩) hrun

theorem pipeline_reachable_keys (caching_enabled : Bool) (c : cache_t) (t : Nat)
    (h : pipeline_reachable caching_enabled c t) : keys_inv c t := by
  induction h with
  | init now hnow =>
    refine ⟨?_, ?_, ?_, hnow⟩ <;> intro i <;> simp [cache_init, zero_entry]
  | run c c1 t t1 r _ hclk hlen hrun ih => exact run_keeps_keys caching_enabled c c1 t t1 r ih hclk hlen hrun

/-- C2, counterexample.  Two calls of `cache_add` with the same key from the
empty cache leave the valid slots 0 and 1 with the same `request_len` and the
same request bytes. -/
theorem distinct_keys_counterexample :
    api_reachable added_twice ∧
    (added_twice.entries 0).valid = true ∧ (added_twice.entries 1).valid = true ∧
    (added_twice.entries 0).request_len = (added_twice.entries 1).request_len ∧
    (added_twice.entries 0).request = (added_twice.entries 1).request :=
  ⟨api_reachable.add added_once added_twice ['k'] 1 "new".toList 3 ['h'] ['u'] 0 0 1
      (api_reachable.add (cache_init 0) added_once ['k'] 1 "old".toList 3 ['h'] ['u'] 0 0 1
        (api_reachable.init 0) rfl) rfl,
   by decide, by decide, by decide, by decide⟩

/-- C2, amended.  In every cache state reachable from `cache_init` through runs
of `handle_client_request` (lookup by `cache_find`, stale scan,
`cache_prepare_eviction_if_needed`, and the commit by `cache_add`, by in-place
replacement or by release of the stale slot), under a clock that does not go
backwards and with no run whose received request exceeds 2000 bytes while its
header block does not, any two distinct valid slots hold keys that differ in
`request_len` or in their request bytes. -/
theorem distinct_keys (caching_enabled : Bool) (c : cache_t) (t : Nat)
    (h : pipeline_reachable caching_enabled c t) (i j : Fin MAX_CACHE_ENTRIES) (hij : i ≠ j)
    (hi : (c.entries i).valid = true) (hj : (c.entries j).valid = true) :
    (c.entries i).request_len ≠ (c.entries j).request_len ∨
      (c.entries i).request ≠ (c.entries j).request := by
  have hinv := (pipeline_reachable_keys caching_enabled c t h).1
  by_cases hl : (c.entries i).request_len = (c.entries j).request_len
  · right
    intro hr
    exact hij (hinv i j hi hj hl hr)
  · left; exact hl

theorem run_a_clock : clock_ordered 0 run_a 0 := by
  refine ⟨by decide, fun i => ⟨Nat.le_refl 0, Nat.le_refl 0⟩, ?_, by decide⟩
  intro o ho
  simp only [run_a, Option.some.injEq] at ho
  subst ho
  exact ⟨fun _ => Nat.le_refl 0, Nat.le_refl 0⟩

theorem run_b_clock : clock_ordered 0 run_b 0 := by
  refine ⟨by decide, fun i => ⟨Nat.le_refl 0, Nat.le_refl 0⟩, ?_, by decide⟩
  intro o ho
  simp only [run_b, Option.some.injEq] at ho
  subst ho
  exact ⟨fun _ => Nat.le_refl 0, Nat.le_refl 0⟩

theorem after_run_b_reachable : pipeline_reachable true after_run_b 0 :=
  pipeline_reachable.run after_run_a after_run_b 0 0 run_b
    (pipeline_reachable.run (cache_init 0) after_run_a 0 0 run_a
      (pipeline_reachable.init 0 (by decide)) run_a_clock (Or.inl (by decide)) rfl)
    run_b_clock (Or.inl (by decide)) rfl

/-- Witness of C2: after the runs for `GET /a` and `GET /b` the valid slots 0
and 1 hold different keys. -/
theorem distinct_keys_witness :
    pipeline_reachable true after_run_b 0 ∧
    (after_run_b.entries 0).valid = true ∧ (after_run_b.entries 1).valid = true ∧
    ((after_run_b.entries 0).request_len ≠ (after_run_b.entries 1).request_len ∨
      (after_run_b.entries 0).request ≠ (after_run_b.entries 1).request) :=
  ⟨after_run_b_reachable, by decide, by decide,
   distinct_keys true after_run_b 0 after_run_b_reachable 0 1 (by decide) (by decide)
    (by decide)⟩

/-- The run excluded from `pipeline_reachable`: a request of 2001 received
bytes whose header block of 28 bytes is already cached skips the lookup of
line 157 and is committed by line 350 through `cache_add`, which leaves two
valid slots with the same key. -/
theorem long_request_duplicates_key :
    handle_client_request_cache true (cache_init 0) run_a = some after_run_a ∧
    handle_client_request_cache true after_run_a run_a_long = some after_run_a_long ∧
    (after_run_a_long.entries 0).valid = true ∧ (after_run_a_long.entries 1).valid = true ∧
    (after_run_a_long.entries 0).request_len = (after_run_a_long.entries 1).request_len ∧
    (after_run_a_long.entries 0).request = (after_run_a_long.entries 1).request :=
  ⟨rfl, rfl, by decide, by decide, by decide, by decide⟩

/-! ## Characters -/

theorem char_eq_iff (a b : Char) : a = b ↔ a.toNat = b.toNat := by
  constructor
  · intro h; rw [h]
  · intro h
    apply Char.ext
    apply UInt32.ext
    exact h

theorem ofNat_toNat_small (n : Nat) (h : n < 0xd800) : (Char.ofNat n).toNat = n := by
  have hv : n.isValidChar := Or.inl h
  unfold Char.ofNat
  rw [dif_pos hv]
  simp [Char.ofNatAux, Char.toNat, UInt32.toNat]

theorem toLower_toNat (ch : Char) :
    (Char.toLower ch).toNat
      = if 65 ≤ ch.toNat ∧ ch.toNat ≤ 90 then ch.toNat + 32 else ch.toNat := by
  unfold Char.toLower
  simp only [ge_iff_le]
  split
  · rename_i h
    exact ofNat_toNat_small _ (by omega)
  · rfl

/-- Lower-casing yields a character outside `A`-`Z` only from that character. -/
theorem toLower_eq_iff (ch x : Char) (hx : x.toNat < 65 ∨ 122 < x.toNat) :
    Char.toLower ch = x ↔ ch = x := by
  rw [char_eq_iff, char_eq_iff ch x, toLower_toNat]
  split <;> omega

theorem is_separator_toLower (ch : Char) : is_separator (Char.toLower ch) = is_separator ch := by
  have h1 := toLower_eq_iff ch ' ' (Or.inl (by decide))
  have h2 := toLower_eq_iff ch '\t' (Or.inl (by decide))
  have h3 := toLower_eq_iff ch ',' (Or.inl (by decide))
  unfold is_separator
  rw [Bool.eq_iff_iff]
  simp only [Bool.or_eq_true, beq_iff_eq, h1, h2, h3]

theorem is_separator_iff (ch : Char) :
    is_separator ch = true ↔ ch = ' ' ∨ ch = '\t' ∨ ch = ',' := by
  simp [is_separator, or_assoc]

/-! ## Directive tokens -/

theorem not_token_nil (tok : List Char) : ¬ is_directive_token tok [] := by
  rintro ⟨hne, _, a, b, hv, _, _⟩
  have h1 : a ++ tok ++ b = [] := hv.symm
  simp only [List.append_eq_nil] at h1
  exact hne h1.1.2

/-- A separator in front of a value does not change its tokens. -/
theorem token_cons_separator (tok v : List Char) (s : Char) (hs : is_separator s = true) :
    is_directive_token tok (s :: v) ↔ is_directive_token tok v := by
  constructor
  · rintro ⟨hne, hfree, a, b, hv, ha, hb⟩
    refine ⟨hne, hfree, ?_⟩
    cases a with
    | nil =>
      exfalso
      cases tok with
      | nil => exact hne rfl
      | cons t ts =>
        simp only [List.nil_append, List.cons_append, List.cons.injEq] at hv
        have := hfree t (List.mem_cons_self _ _)
        rw [← hv.1, hs] at this
        exact Bool.noConfusion this
    | cons a0 a1 =>
      simp only [List.cons_append, List.cons.injEq] at hv
      refine ⟨a1, b, hv.2, ?_, hb⟩
      intro x hx
      apply ha x
      cases a1 with
      | nil => simp at hx
      | cons y ys => simpa using hx
  · rintro ⟨hne, hfree, a, b, hv, ha, hb⟩
    refine ⟨hne, hfree, s :: a, b, by simp [hv], ?_, hb⟩
    intro x hx
    cases a with
    | nil =>
      simp only [List.getLast?_singleton, Option.some.injEq] at hx
      rw [← hx]; exact hs
    | cons y ys =>
      apply ha x
      simpa using hx

/-- Leading separators do not change the tokens of a value. -/
theorem token_dropWhile (tok : List Char) :
    ∀ v : List Char, is_directive_token tok v ↔ is_directive_token tok (v.dropWhile is_separator) := by
  intro v
  induction v with
  | nil => simp
  | cons s v ih =>
    by_cases hs : is_separator s = true
    · rw [List.dropWhile_cons_of_pos hs, token_cons_separator tok v s hs, ih]
    · rw [List.dropWhile_cons_of_neg hs]

theorem takeWhile_append_all {α : Type} (p : α → Bool) (a b : List α) (h : ∀ x ∈ a, p x = true) :
    (a ++ b).takeWhile p = a ++ b.takeWhile p := by
  induction a with
  | nil => rfl
  | cons x xs ih =>
    have hx := h x (List.mem_cons_self _ _)
    simp only [List.cons_append, List.takeWhile_cons, hx, if_true]
    rw [ih (fun y hy => h y (List.mem_cons_of_mem _ hy))]

theorem takeWhile_stop {α : Type} (p : α → Bool) (b : List α)
    (h : ∀ x, b.head? = some x → p x = false) : b.takeWhile p = [] := by
  cases b with
  | nil => rfl
  | cons x xs =>
    have := h x rfl
    simp [List.takeWhile_cons, this]

/-- The tokens of a value that starts with a run `w` of non-separators, which
ends at a separator or at the end: `w`, and the tokens of what follows. -/
theorem token_run (tok w rest : List Char) (hw : w ≠ [])
    (hfree : ∀ x ∈ w, is_separator x = false)
    (hrest : ∀ x, rest.head? = some x → is_separator x = true) :
    is_directive_token tok (w ++ rest) ↔ tok = w ∨ is_directive_token tok rest := by
  have hrun : ∀ (u b : List Char), (∀ x ∈ u, is_separator x = false) →
      (∀ x, b.head? = some x → is_separator x = true) →
      (u ++ b).takeWhile (fun x => !is_separator x) = u := by
    intro u b hu hb
    rw [takeWhile_append_all _ u b (fun x hx => by simp [hu x hx]),
      takeWhile_stop _ b (fun x hx => by simp [hb x hx])]
    simp
  constructor
  · rintro ⟨hne, htok, a, b, hv, ha, hb⟩
    cases hlast : a.getLast? with
    | none =>
      left
      have hanil : a = [] := by simpa using hlast
      subst hanil
      have h1 := hrun tok b htok hb
      have h2 := hrun w rest hfree hrest
      simp only [List.nil_append] at hv
      rw [← hv, h2] at h1
      exact h1.symm
    | some x =>
      right
      have hx := ha x hlast
      have hxa : x ∈ a := List.mem_of_getLast?_eq_some hlast
      have hsplit : w ++ rest = a ++ (tok ++ b) := by rw [hv, List.append_assoc]
      rcases List.append_eq_append_iff.mp hsplit with ⟨m, ham, hrm⟩ | ⟨m, hwm, _⟩
      · refine ⟨hne, htok, m, b, by rw [hrm, List.append_assoc], ?_, hb⟩
        intro y hy
        apply ha y
        rw [ham]
        cases m with
        | nil => simp at hy
        | cons m0 ms => rw [List.getLast?_append_of_ne_nil _ (by simp)]; exact hy
      · exfalso
        have : x ∈ w := by rw [hwm]; exact List.mem_append_left _ hxa
        rw [hfree x this] at hx
        exact Bool.noConfusion hx
  · rintro (htw | ⟨hne, htok, a, b, hv, ha, hb⟩)
    · subst htw
      exact ⟨hw, hfree, [], rest, by simp, by simp, hrest⟩
    · refine ⟨hne, htok, w ++ a, b, by rw [hv]; simp [List.append_assoc], ?_, hb⟩
      intro y hy
      cases a with
      | nil =>
        exfalso
        cases tok with
        | nil => exact hne rfl
        | cons t ts =>
          simp only [List.nil_append, List.cons_append] at hv
          have h1 := hrest t (by rw [hv]; rfl)
          rw [htok t (List.mem_cons_self _ _)] at h1
          exact Bool.noConfusion h1
      | cons a0 as =>
        apply ha y
        rw [List.getLast?_append_of_ne_nil _ (by simp)] at hy
        exact hy

theorem head_dropWhile {α : Type} (p : α → Bool) :
    ∀ (l : List α) (x : α), (l.dropWhile p).head? = some x → p x = false := by
  intro l
  induction l with
  | nil => intro x h; simp at h
  | cons a l ih =>
    intro x h
    by_cases ha : p a = true
    · rw [List.dropWhile_cons_of_pos ha] at h
      exact ih x h
    · rw [List.dropWhile_cons_of_neg ha] at h
      simp only [List.head?_cons, Option.some.injEq] at h
      rw [← h]
      simpa using ha

/-- The test made for one directive name, read on the run of non-separators at
the position: the run is the name, or it begins with the name and `=` where an
argument is accepted. -/
theorem directive_at_iff (p name : List Char) (with_equals : Bool)
    (hname : ∀ x ∈ name, is_separator x = false) :
    directive_at p name with_equals = true ↔
      p.takeWhile (fun x => !is_separator x) = name ∨
      (with_equals = true ∧ (name ++ ['=']) <+: p.takeWhile (fun x => !is_separator x)) := by
  have hall : ∀ x ∈ name, (fun x => !is_separator x) x = true := by
    intro x hx; simp [hname x hx]
  have heq : is_separator '=' = false := by decide
  constructor
  · intro h
    unfold directive_at at h
    rw [Bool.and_eq_true] at h
    obtain ⟨hpre, hnext⟩ := h
    obtain ⟨q, hq⟩ := List.isPrefixOf_iff_prefix.mp hpre
    subst hq
    rw [List.drop_left] at hnext
    rw [takeWhile_append_all _ name q hall]
    cases q with
    | nil => left; simp
    | cons x q1 =>
      simp only [Bool.or_eq_true, beq_iff_eq, Bool.and_eq_true] at hnext
      by_cases hx : is_separator x = true
      · left
        simp [List.takeWhile_cons, hx]
      · right
        have hxe : with_equals = true ∧ x = '=' := by
          rcases hnext with ((h1 | h1) | h1) | h1
          · exact absurd ((is_separator_iff x).mpr (Or.inl h1)) hx
          · exact absurd ((is_separator_iff x).mpr (Or.inr (Or.inl h1))) hx
          · exact absurd ((is_separator_iff x).mpr (Or.inr (Or.inr h1))) hx
          · exact h1
        obtain ⟨hw, hxeq⟩ := hxe
        subst hxeq
        refine ⟨hw, ?_⟩
        simp only [List.takeWhile_cons, heq, Bool.not_false, if_true]
        exact ⟨q1.takeWhile (fun x => !is_separator x), by simp⟩
  · intro h
    have hp := List.takeWhile_append_dropWhile (fun x => !is_separator x) p
    have hrest := head_dropWhile (fun x => !is_separator x) p
    generalize p.dropWhile (fun x => !is_separator x) = r at hp hrest
    generalize p.takeWhile (fun x => !is_separator x) = w at hp h
    subst hp
    unfold directive_at
    rw [Bool.and_eq_true]
    rcases h with h | ⟨hw, t, ht⟩
    · subst h
      constructor
      · rw [List.isPrefixOf_iff_prefix]
        exact ⟨r, rfl⟩
      · rw [List.drop_left]
        cases r with
        | nil => rfl
        | cons x xs =>
          have hx := hrest x rfl
          have hx2 : is_separator x = true := by simpa using hx
          rcases (is_separator_iff x).mp hx2 with h1 | h1 | h1 <;> simp [h1]
    · subst ht
      have hp2 : name ++ ['='] ++ t ++ r = name ++ ('=' :: (t ++ r)) := by
        simp [List.append_assoc]
      rw [hp2]
      constructor
      · rw [List.isPrefixOf_iff_prefix]
        exact ⟨_, rfl⟩
      · rw [List.drop_left]
        simp [hw]

theorem blocking_at_iff (p : List Char) :
    blocking_at p = true ↔ blocking_token (p.takeWhile (fun x => !is_separator x)) := by
  unfold blocking_at blocking_token
  simp only [Bool.or_eq_true]
  rw [directive_at_iff p "private".toList true (by decide),
    directive_at_iff p "no-store".toList true (by decide),
    directive_at_iff p "no-cache".toList true (by decide),
    directive_at_iff p "max-age=0".toList false (by decide),
    directive_at_iff p "must-revalidate".toList true (by decide),
    directive_at_iff p "proxy-revalidate".toList true (by decide)]
  simp only [blocking_names, List.mem_cons, List.mem_singleton, exists_eq_or_imp,
    exists_eq_left, true_and, Bool.false_eq_true, false_and, or_false, List.not_mem_nil,
    false_and, exists_false]
  tauto

/-- The loop of lines 291-352 with enough fuel returns 0 or 1, and it returns 0
iff some full directive token of the value refuses caching. -/
theorem directive_loop_spec :
    ∀ (fuel : Nat) (v : List Char), v.length < fuel →
      (directive_loop fuel v = 0 ∨ directive_loop fuel v = 1) ∧
      (directive_loop fuel v = 0 ↔ ∃ tok, is_directive_token tok v ∧ blocking_token tok) := by
  intro fuel
  induction fuel with
  | zero => intro v h; exact absurd h (Nat.not_lt_zero _)
  | succ fuel ih =>
    intro v hlen
    unfold directive_loop
    have htok : ∀ tok, is_directive_token tok v ↔
        is_directive_token tok (v.dropWhile is_separator) := fun tok => token_dropWhile tok v
    have hhead := head_dropWhile is_separator v
    have hdl := (List.dropWhile_sublist is_separator (l := v)).length_le
    cases hd : v.dropWhile is_separator with
    | nil =>
      simp only
      refine ⟨Or.inr (by trivial), ?_⟩
      constructor
      · intro h; exact absurd h (by decide)
      · rintro ⟨tok, ht, _⟩
        rw [htok, hd] at ht
        exact absurd ht (not_token_nil tok)
    | cons ch cs =>
      simp only
      have hch : is_separator ch = false := hhead ch (by rw [hd]; rfl)
      have hsplit := List.takeWhile_append_dropWhile (fun x => !is_separator x) (ch :: cs)
      have hwne : (ch :: cs).takeWhile (fun x => !is_separator x) ≠ [] := by
        simp [List.takeWhile_cons, hch]
      have hwfree : ∀ x ∈ (ch :: cs).takeWhile (fun x => !is_separator x),
          is_separator x = false := by
        intro x hx
        have := List.mem_takeWhile_imp hx
        simpa using this
      have hrest : ∀ x, ((ch :: cs).dropWhile (fun x => !is_separator x)).head? = some x →
          is_separator x = true := by
        intro x hx
        have := head_dropWhile (fun x => !is_separator x) (ch :: cs) x hx
        simpa using this
      have hrun : ∀ tok, is_directive_token tok (ch :: cs) ↔
          tok = (ch :: cs).takeWhile (fun x => !is_separator x) ∨
            is_directive_token tok ((ch :: cs).dropWhile (fun x => !is_separator x)) := by
        intro tok
        have := token_run tok _ _ hwne hwfree hrest
        rw [hsplit] at this
        exact this
      rw [hd] at htok
      by_cases hb : blocking_at (ch :: cs) = true
      · rw [if_pos hb]
        refine ⟨Or.inl rfl, ?_⟩
        constructor
        · intro _
          refine ⟨(ch :: cs).takeWhile (fun x => !is_separator x), ?_, (blocking_at_iff _).mp hb⟩
          rw [htok, hrun]
          left
          rfl
        · intro _; rfl
      · rw [if_neg hb]
        have hlen2 : ((ch :: cs).dropWhile (fun x => !is_separator x)).length < fuel := by
          have h1 : ((ch :: cs).dropWhile (fun x => !is_separator x)).length ≤ cs.length := by
            rw [List.dropWhile_cons_of_pos (by simp [hch])]
            exact (List.dropWhile_sublist _).length_le
          have h2 : (ch :: cs).length ≤ v.length := by rw [← hd]; exact hdl
          simp only [List.length_cons] at h2
          omega
        obtain ⟨h01, hiff⟩ := ih _ hlen2
        refine ⟨h01, ?_⟩
        rw [hiff]
        constructor
        · rintro ⟨tok, ht, hbt⟩
          refine ⟨tok, ?_, hbt⟩
          rw [htok, hrun]
          right
          exact ht
        · rintro ⟨tok, ht, hbt⟩
          rw [htok, hrun] at ht
          rcases ht with ht | ht
          · exfalso
            rw [ht] at hbt
            exact hb ((blocking_at_iff _).mpr hbt)
          · exact ⟨tok, ht, hbt⟩

/-! ## Searching a string -/

theorem starts_with_ci_length :
    ∀ (n s : List Char), starts_with_ci n s = true → n.length ≤ s.length := by
  intro n
  induction n with
  | nil => intro s _; simp
  | cons a n ih =>
    intro s h
    cases s with
    | nil => simp [starts_with_ci] at h
    | cons b s =>
      simp only [starts_with_ci, Bool.and_eq_true] at h
      have := ih s h.2
      simp only [List.length_cons]
      omega

theorem starts_with_ci_append :
    ∀ (n a b : List Char), n.length ≤ a.length →
      starts_with_ci n (a ++ b) = starts_with_ci n a := by
  intro n
  induction n with
  | nil => intro a b _; simp [starts_with_ci]
  | cons x n ih =>
    intro a b h
    cases a with
    | nil => simp at h
    | cons y a =>
      simp only [List.length_cons, Nat.add_le_add_iff_right] at h
      have hi : starts_with_ci n (a.append b) = starts_with_ci n a := ih a b h
      simp only [List.cons_append, starts_with_ci]
      rw [hi]

theorem starts_with_ci_iff :
    ∀ (n s : List Char), starts_with_ci n s = true ↔
      ∃ name rest, s = name ++ rest ∧ name.map Char.toLower = n.map Char.toLower := by
  intro n
  induction n with
  | nil =>
    intro s
    simp only [starts_with_ci, List.map_nil, List.map_eq_nil_iff, true_iff]
    exact ⟨[], s, rfl, rfl⟩
  | cons x n ih =>
    intro s
    cases s with
    | nil =>
      simp only [starts_with_ci, Bool.false_eq_true, false_iff]
      rintro ⟨name, rest, h1, h2⟩
      have h3 : name ++ rest = [] := h1.symm
      simp only [List.append_eq_nil] at h3
      rw [h3.1] at h2
      simp at h2
    | cons y s =>
      simp only [starts_with_ci, Bool.and_eq_true, beq_iff_eq, ih s]
      constructor
      · rintro ⟨hxy, name, rest, h1, h2⟩
        exact ⟨y :: name, rest, by simp [h1], by simp [h2, hxy]⟩
      · rintro ⟨name, rest, h1, h2⟩
        cases name with
        | nil => simp at h2
        | cons z name =>
          simp only [List.cons_append, List.cons.injEq] at h1
          simp only [List.map_cons, List.cons.injEq] at h2
          exact ⟨by rw [h1.1]; exact h2.1.symm, name, rest, h1.2, h2.2⟩

theorem strcasestr_short :
    ∀ (s n : List Char), s.length < n.length → strcasestr s n = none := by
  intro s
  induction s with
  | nil =>
    intro n h
    cases n with
    | nil => simp at h
    | cons a n => simp [strcasestr]
  | cons c s ih =>
    intro n h
    unfold strcasestr
    have h1 : starts_with_ci n (c :: s) = false := by
      cases hsw : starts_with_ci n (c :: s) with
      | false => rfl
      | true =>
        have := starts_with_ci_length n (c :: s) hsw
        omega
    simp only [h1, Bool.false_eq_true, if_false]
    exact ih n (by simp only [List.length_cons] at h; omega)

/-- A first occurrence found by `strcasestr`: the match, and no match that
starts earlier. -/
theorem strcasestr_some (n : List Char) (hn : n ≠ []) :
    ∀ (s suf : List Char), strcasestr s n = some suf →
      ∃ pre, s = pre ++ suf ∧ starts_with_ci n suf = true ∧
        strcasestr (pre ++ suf.take (n.length - 1)) n = none := by
  have hnl : 0 < n.length := List.length_pos.mpr hn
  intro s
  induction s with
  | nil =>
    intro suf h
    cases n with
    | nil => exact absurd rfl hn
    | cons a n => simp [strcasestr] at h
  | cons c s ih =>
    intro suf h
    unfold strcasestr at h
    by_cases hsw : starts_with_ci n (c :: s) = true
    · rw [if_pos hsw] at h
      simp only [Option.some.injEq] at h
      subst h
      refine ⟨[], rfl, hsw, ?_⟩
      apply strcasestr_short
      simp only [List.nil_append, List.length_take]
      omega
    · rw [if_neg hsw] at h
      obtain ⟨pre, h1, h2, h3⟩ := ih suf h
      refine ⟨c :: pre, by rw [h1]; rfl, h2, ?_⟩
      show strcasestr (c :: (pre ++ suf.take (n.length - 1))) n = none
      unfold strcasestr
      have hfalse : starts_with_ci n (c :: (pre ++ suf.take (n.length - 1))) = false := by
        cases hx : starts_with_ci n (c :: (pre ++ suf.take (n.length - 1))) with
        | false => rfl
        | true =>
          exfalso
          apply hsw
          have hlen := starts_with_ci_length n _ hx
          have hfull : c :: s = (c :: (pre ++ suf.take (n.length - 1))) ++ suf.drop (n.length - 1) := by
            rw [h1]
            simp [List.append_assoc, List.take_append_drop]
          rw [hfull, starts_with_ci_append n _ _ hlen]
          exact hx
      simp only [hfalse, Bool.false_eq_true, if_false]
      exact h3

/-- The text `name` after `pre` is what `strcasestr` finds when no match starts
inside `pre`. -/
theorem strcasestr_first (n : List Char) (hn : n ≠ []) (name rest : List Char)
    (hname : name.map Char.toLower = n.map Char.toLower) :
    ∀ pre : List Char, strcasestr (pre ++ name.dropLast) n = none →
      strcasestr (pre ++ name ++ rest) n = some (name ++ rest) := by
  have hlen : name.length = n.length := by
    have := congrArg List.length hname
    simpa using this
  have hnl : 0 < n.length := List.length_pos.mpr hn
  have hne : name ≠ [] := by
    intro h; rw [h] at hlen; simp at hlen; omega
  have hsw : starts_with_ci n (name ++ rest) = true :=
    (starts_with_ci_iff n _).mpr ⟨name, rest, rfl, hname⟩
  intro pre
  induction pre with
  | nil =>
    intro _
    cases hnr : name ++ rest with
    | nil =>
      have : name = [] := (List.append_eq_nil.mp hnr).1
      exact absurd this hne
    | cons c cs =>
      rw [List.nil_append, hnr]
      unfold strcasestr
      rw [← hnr, if_pos hsw]
  | cons p pre ih =>
    intro h
    have h' : strcasestr (p :: (pre ++ name.dropLast)) n = none := h
    unfold strcasestr at h'
    by_cases hx : starts_with_ci n (p :: (pre ++ name.dropLast)) = true
    · rw [if_pos hx] at h'; simp at h'
    · rw [if_neg hx] at h'
      show strcasestr (p :: (pre ++ name ++ rest)) n = some (name ++ rest)
      unfold strcasestr
      have hsplit : p :: (pre ++ name ++ rest)
          = (p :: (pre ++ name.dropLast)) ++ ([name.getLast hne] ++ rest) := by
        conv_lhs => rw [← List.dropLast_append_getLast hne]
        simp [List.append_assoc]
      have hge : n.length ≤ (p :: (pre ++ name.dropLast)).length := by
        simp only [List.length_cons, List.length_append, List.length_dropLast]
        omega
      have hy : starts_with_ci n (p :: (pre ++ name ++ rest)) = false := by
        rw [hsplit, starts_with_ci_append n _ _ hge]
        simpa using hx
      simp only [hy, Bool.false_eq_true, if_false]
      exact ih h'

theorem crlf_at_iff (s : List Char) :
    crlf.isPrefixOf s = true ↔ ∃ post, s = '\r' :: '\n' :: post := by
  rw [List.isPrefixOf_iff_prefix]
  constructor
  · rintro ⟨t, ht⟩; exact ⟨t, ht.symm⟩
  · rintro ⟨t, ht⟩; exact ⟨t, ht.symm⟩

/-- The CRLF after a value without CRLF is the one `strstr` finds. -/
theorem strstr_crlf_first (post : List Char) :
    ∀ value : List Char, strstr value crlf = none →
      strstr (value ++ crlf ++ post) crlf = some (crlf ++ post) := by
  intro value
  induction value with
  | nil =>
    intro _
    show strstr ('\r' :: '\n' :: post) crlf = _
    unfold strstr
    rw [if_pos ((crlf_at_iff _).mpr ⟨post, rfl⟩)]
    rfl
  | cons c cs ih =>
    intro h
    unfold strstr at h
    by_cases hx : crlf.isPrefixOf (c :: cs) = true
    · rw [if_pos hx] at h; simp at h
    · rw [if_neg hx] at h
      show strstr (c :: (cs ++ crlf ++ post)) crlf = _
      unfold strstr
      have hy : ¬ crlf.isPrefixOf (c :: (cs ++ crlf ++ post)) = true := by
        intro hy
        obtain ⟨t, ht⟩ := (crlf_at_iff _).mp hy
        simp only [List.cons.injEq] at ht
        apply hx
        cases cs with
        | nil =>
          exfalso
          have h2 := ht.2
          simp [crlf] at h2
        | cons d ds =>
          have h2 := ht.2
          simp only [List.cons_append, List.cons.injEq] at h2
          exact (crlf_at_iff _).mpr ⟨ds, by rw [ht.1, h2.1]⟩
      rw [if_neg hy]
      exact ih h

/-- A first CRLF found by `strstr`: what is in front of it has no CRLF. -/
theorem strstr_crlf_some :
    ∀ (s line_end : List Char), strstr s crlf = some line_end →
      ∃ value post, s = value ++ crlf ++ post ∧ line_end = crlf ++ post ∧
        strstr value crlf = none := by
  intro s
  induction s with
  | nil => intro le h; simp [strstr, crlf] at h
  | cons c cs ih =>
    intro le h
    unfold strstr at h
    by_cases hx : crlf.isPrefixOf (c :: cs) = true
    · rw [if_pos hx] at h
      simp only [Option.some.injEq] at h
      obtain ⟨post, hp⟩ := (crlf_at_iff _).mp hx
      refine ⟨[], post, by rw [hp]; rfl, by rw [← h, hp]; rfl, by simp [strstr, crlf]⟩
    · rw [if_neg hx] at h
      obtain ⟨value, post, h1, h2, h3⟩ := ih le h
      refine ⟨c :: value, post, by rw [h1]; rfl, h2, ?_⟩
      unfold strstr
      have hy : ¬ crlf.isPrefixOf (c :: value) = true := by
        intro hy
        obtain ⟨t, ht⟩ := (crlf_at_iff _).mp hy
        simp only [List.cons.injEq] at ht
        apply hx
        exact (crlf_at_iff _).mpr ⟨t ++ crlf ++ post, by rw [h1, ht.1, ht.2]; rfl⟩
      rw [if_neg hy]
      exact h3

/-! ## Locating the Cache-Control value -/

theorem dropWhile_append_all {α : Type} (p : α → Bool) (a b : List α)
    (h : ∀ x ∈ a, p x = true) : (a ++ b).dropWhile p = b.dropWhile p := by
  induction a with
  | nil => rfl
  | cons x xs ih =>
    have hx := h x (List.mem_cons_self _ _)
    rw [List.cons_append, List.dropWhile_cons_of_pos hx]
    exact ih (fun y hy => h y (List.mem_cons_of_mem _ hy))

theorem dropWhile_stop {α : Type} (p : α → Bool) (b : List α)
    (h : ∀ x, b.head? = some x → p x = false) : b.dropWhile p = b := by
  cases b with
  | nil => rfl
  | cons x xs =>
    have := h x rfl
    rw [List.dropWhile_cons_of_neg (by simp [this])]

theorem cache_control_name_lower :
    cache_control_name.map Char.toLower = "cache-control:".toList := by decide

/-- The value that lines 204-223 and 262-282 copy from a block whose first
`Cache-Control:` text is followed by blanks, `value` and CRLF. -/
theorem cache_control_value_of_first (h pre name blanks value post : List Char)
    (hf : first_cache_control h pre name blanks value post) :
    cache_control_value h = some value := by
  obtain ⟨hc, hname, hpre, hblanks, hhead, hval⟩ := hf
  have hname2 : name.map Char.toLower = cache_control_name.map Char.toLower := by
    rw [hname, cache_control_name_lower]
  have hlen : name.length = 14 := by
    have := congrArg List.length hname
    simpa using this
  have hfound := strcasestr_first cache_control_name (by decide) name
    (blanks ++ value ++ crlf ++ post) hname2 pre hpre
  have hshape : cstr h = pre ++ name ++ (blanks ++ value ++ crlf ++ post) := by
    rw [hc]; simp [List.append_assoc]
  unfold cache_control_value
  rw [hshape, hfound]
  simp only
  have hdrop : (name ++ (blanks ++ value ++ crlf ++ post)).drop 14
      = blanks ++ value ++ crlf ++ post := by
    rw [← hlen, List.drop_left]
  have hskip : skip_blanks (blanks ++ value ++ crlf ++ post) = value ++ crlf ++ post := by
    unfold skip_blanks
    have e : blanks ++ value ++ crlf ++ post = blanks ++ (value ++ crlf ++ post) := by
      simp [List.append_assoc]
    rw [e, dropWhile_append_all _ blanks _ (by
      intro x hx
      rcases hblanks x hx with h1 | h1 <;> simp [h1])]
    apply dropWhile_stop
    intro x hx
    cases value with
    | nil =>
      simp only [List.nil_append, crlf, List.cons_append, List.head?_cons,
        Option.some.injEq] at hx
      rw [← hx]; decide
    | cons v vs =>
      simp only [List.cons_append, List.head?_cons, Option.some.injEq] at hx
      have := hhead v rfl
      rw [← hx]
      simp [this.1, this.2]
  rw [hdrop, hskip, strstr_crlf_first post value hval]
  simp only [Option.some.injEq]
  have hl : (value ++ crlf ++ post).length - (crlf ++ post).length = value.length := by
    simp only [List.length_append]
    omega
  rw [hl, List.append_assoc, List.take_left]

/-- A value that lines 204-223 and 262-282 copy comes from a block of that
shape. -/
theorem first_of_cache_control_value (h value : List Char)
    (hv : cache_control_value h = some value) :
    ∃ pre name blanks post, first_cache_control h pre name blanks value post := by
  unfold cache_control_value at hv
  cases hs : strcasestr (cstr h) cache_control_name with
  | none => rw [hs] at hv; simp at hv
  | some start0 =>
    rw [hs] at hv
    simp only at hv
    obtain ⟨pre, hpre, hsw, hnone⟩ := strcasestr_some cache_control_name (by decide) _ _ hs
    obtain ⟨name, rest0, hst, hname⟩ := (starts_with_ci_iff _ _).mp hsw
    have hlen : name.length = 14 := by
      have := congrArg List.length hname
      simpa [cache_control_name] using this
    have hdrop : start0.drop 14 = rest0 := by rw [hst, ← hlen, List.drop_left]
    rw [hdrop] at hv
    cases hle : strstr (skip_blanks rest0) crlf with
    | none => rw [hle] at hv; simp at hv
    | some line_end =>
      rw [hle] at hv
      simp only [Option.some.injEq] at hv
      obtain ⟨value1, post, h1, h2, h3⟩ := strstr_crlf_some _ _ hle
      have hval : value = value1 := by
        rw [← hv, h1, h2]
        have hl : (value1 ++ crlf ++ post).length - (crlf ++ post).length = value1.length := by
          simp only [List.length_append]
          omega
        rw [hl, List.append_assoc, List.take_left]
      subst hval
      refine ⟨pre, name, rest0.takeWhile (fun ch => ch == ' ' || ch == '\t'), post, ?_, ?_, ?_,
        ?_, ?_, h3⟩
      · have hr : rest0 = rest0.takeWhile (fun ch => ch == ' ' || ch == '\t')
            ++ skip_blanks rest0 := by
          unfold skip_blanks
          exact (List.takeWhile_append_dropWhile _ _).symm
        rw [hpre, hst]
        conv_lhs => rw [hr, h1]
        simp [List.append_assoc]
      · rw [hname, cache_control_name_lower]
      · have htake : start0.take (cache_control_name.length - 1) = name.dropLast := by
          rw [hst, List.dropLast_eq_take, hlen]
          have : cache_control_name.length - 1 = 13 := by decide
          rw [this, List.take_append_of_le_length (by omega)]
        rw [← htake]
        exact hnone
      · intro ch hch
        have := List.mem_takeWhile_imp hch
        simpa using this
      · intro ch hch
        have hh : (skip_blanks rest0).head? = some ch := by
          rw [h1]
          cases value with
          | nil => simp at hch
          | cons v vs =>
            simp only [List.head?_cons, Option.some.injEq] at hch
            simp [hch]
        have := head_dropWhile _ rest0 ch hh
        simpa using this

/-- The verdict of `is_cacheable_response` in terms of the copied value. -/
theorem is_cacheable_response_of_value (h value : List Char)
    (hv : cache_control_value h = some value) :
    (is_cacheable_response h = 0 ∨ is_cacheable_response h = 1) ∧
    (is_cacheable_response h = 0 ↔
      ∃ tok, is_directive_token tok (value.map Char.toLower) ∧ blocking_token tok) := by
  unfold is_cacheable_response
  rw [hv]
  exact directive_loop_spec _ _ (Nat.lt_succ_self _)

/-! ## The verdict of `is_cacheable_response` -/

/-- C7, failing input.  The block whose only header is
`X-Cache-Control: no-store` has no Cache-Control header, and
`is_cacheable_response` returns 0 for it: the search for the text
`Cache-Control:` is not held to the start of a line. -/
theorem x_cache_control_refused :
    has_cache_control_header block_x_cache_control = false ∧
    is_cacheable_response block_x_cache_control = 0 :=
  ⟨by decide, by decide⟩

/-- The verdict in terms of the text that the code reads.  The function
`is_cacheable_response` returns 0 or 1.  It returns 0 iff the text `Cache-Control:` occurs in the block (in any case, at
any position), the first occurrence is followed, after spaces and tabs, by a
value that ends at a CRLF, and that value, after lower-casing, contains as a
full directive token `max-age=0` or one of `private`, `no-store`, `no-cache`,
`must-revalidate`, `proxy-revalidate`, alone or followed by `=` and an
argument.  A block without the text `Cache-Control:` is cacheable. -/
theorem cacheable_verdict (h : List Char) :
    (is_cacheable_response h = 0 ∨ is_cacheable_response h = 1) ∧
    (is_cacheable_response h = 0 ↔
      ∃ pre name blanks value post, first_cache_control h pre name blanks value post ∧
        ∃ tok, is_directive_token tok (value.map Char.toLower) ∧ blocking_token tok) ∧
    (strcasestr (cstr h) cache_control_name = none → is_cacheable_response h = 1) := by
  cases hv : cache_control_value h with
  | none =>
    have h1 : is_cacheable_response h = 1 := by
      unfold is_cacheable_response; rw [hv]
    refine ⟨Or.inr h1, ?_, fun _ => h1⟩
    constructor
    · intro h0; rw [h1] at h0; exact absurd h0 (by decide)
    · rintro ⟨pre, name, blanks, value, post, hf, _⟩
      rw [cache_control_value_of_first h pre name blanks value post hf] at hv
      exact absurd hv (by simp)
  | some value =>
    obtain ⟨h01, hiff⟩ := is_cacheable_response_of_value h value hv
    refine ⟨h01, ?_, ?_⟩
    · rw [hiff]
      constructor
      · rintro ⟨tok, ht, hb⟩
        obtain ⟨pre, name, blanks, post, hf⟩ := first_of_cache_control_value h value hv
        exact ⟨pre, name, blanks, value, post, hf, tok, ht, hb⟩
      · rintro ⟨pre, name, blanks, value1, post, hf, tok, ht, hb⟩
        have := cache_control_value_of_first h pre name blanks value1 post hf
        rw [hv] at this
        simp only [Option.some.injEq] at this
        subst this
        exact ⟨tok, ht, hb⟩
    · intro hnone
      exfalso
      unfold cache_control_value at hv
      rw [hnone] at hv
      simp at hv

/-! ## Decimal numerals -/

theorem isdigit_iff (ch : Char) : isdigit ch = true ↔ 48 ≤ ch.toNat ∧ ch.toNat ≤ 57 := by
  unfold isdigit
  simp only [Bool.and_eq_true, decide_eq_true_eq]
  rfl

theorem digitChar_digit (k : Nat) (hk : k < 10) :
    isdigit (Nat.digitChar k) = true ∧ (Nat.digitChar k).toNat - '0'.toNat = k := by
  interval_cases k <;> exact ⟨by decide, by decide⟩

theorem digits_value_append (ds : List Char) (d : Char) :
    digits_value (ds ++ [d]) = 10 * digits_value ds + (d.toNat - '0'.toNat) := by
  simp [digits_value, List.foldl_append]

/-- The numeral that `Nat.toDigitsCore` puts in front of its accumulator, with
enough fuel: decimal digits whose value is the number. -/
theorem toDigitsCore_spec :
    ∀ (fuel n : Nat) (ds : List Char), n < fuel →
      ∃ xs, Nat.toDigitsCore 10 fuel n ds = xs ++ ds ∧ xs ≠ [] ∧
        (∀ ch ∈ xs, isdigit ch = true) ∧ digits_value xs = n ∧ (xs = ['0'] → n = 0) := by
  intro fuel
  induction fuel with
  | zero => intro n ds h; exact absurd h (Nat.not_lt_zero _)
  | succ fuel ih =>
    intro n ds hn
    unfold Nat.toDigitsCore
    have hd := digitChar_digit (n % 10) (Nat.mod_lt _ (by decide))
    by_cases hq : n / 10 = 0
    · simp only [hq, if_true]
      have hlt : n < 10 := by omega
      refine ⟨[Nat.digitChar (n % 10)], rfl, by simp, ?_, ?_, ?_⟩
      · intro ch hch
        simp only [List.mem_singleton] at hch
        rw [hch]; exact hd.1
      · have : digits_value [Nat.digitChar (n % 10)]
            = (Nat.digitChar (n % 10)).toNat - '0'.toNat := by
          simp [digits_value]
        rw [this, hd.2]
        omega
      · intro h0
        simp only [List.cons.injEq, and_true] at h0
        have h2 := hd.2
        rw [h0] at h2
        have : ('0'.toNat - '0'.toNat) = 0 := by decide
        omega
    · simp only [hq, if_false]
      have hlt : n / 10 < fuel := by omega
      obtain ⟨xs, h1, h2, h3, h4, _⟩ := ih (n / 10) (Nat.digitChar (n % 10) :: ds) hlt
      refine ⟨xs ++ [Nat.digitChar (n % 10)], by rw [h1]; simp, by simp, ?_, ?_, ?_⟩
      · intro ch hch
        rcases List.mem_append.mp hch with h | h
        · exact h3 ch h
        · simp only [List.mem_singleton] at h
          rw [h]; exact hd.1
      · rw [digits_value_append, h4, hd.2]
        omega
      · intro h0
        exfalso
        cases xs with
        | nil => exact h2 rfl
        | cons x xs =>
          have := congrArg List.length h0
          simp at this

/-- The decimal rendering of a number: digits whose value is the number, and
not the numeral `0` unless the number is 0. -/
theorem repr_spec (N : Nat) :
    (Nat.repr N).toList ≠ [] ∧ (∀ ch ∈ (Nat.repr N).toList, isdigit ch = true) ∧
    digits_value (Nat.repr N).toList = N ∧ ((Nat.repr N).toList = ['0'] → N = 0) := by
  obtain ⟨xs, h1, h2, h3, h4, h5⟩ := toDigitsCore_spec (N + 1) N [] (Nat.lt_succ_self N)
  have hr : (Nat.repr N).toList = xs := by
    show Nat.toDigits 10 N = xs
    unfold Nat.toDigits
    rw [h1, List.append_nil]
  rw [hr]
  exact ⟨h2, h3, h4, h5⟩

theorem digit_facts (ch : Char) (h : isdigit ch = true) :
    isspace ch = false ∧ is_separator ch = false ∧ ch ≠ '-' ∧ ch ≠ '+' ∧ ch ≠ ' ' ∧
    ch ≠ '\t' ∧ ch ≠ '=' ∧ ch ≠ '\r' ∧ Char.toLower ch = ch := by
  rw [isdigit_iff] at h
  have hne : ∀ x : Char, (x.toNat < 48 ∨ 57 < x.toNat) → ch ≠ x := by
    intro x hx hcx
    rw [hcx] at h
    omega
  refine ⟨?_, ?_, hne _ (by decide), hne _ (by decide), hne _ (by decide), hne _ (by decide),
    hne _ (by decide), hne _ (by decide), ?_⟩
  · unfold isspace
    simp [hne ' ' (by decide), hne '\t' (by decide), hne '\n' (by decide),
      hne '\x0b' (by decide), hne '\x0c' (by decide), hne '\r' (by decide)]
  · unfold is_separator
    simp [hne ' ' (by decide), hne '\t' (by decide), hne ',' (by decide)]
  · rw [char_eq_iff, toLower_toNat]
    split <;> omega

/-- The function `strtol` on a run of decimal digits that ends the string. -/
theorem strtol_digits (ds : List Char) (hne : ds ≠ []) (hd : ∀ ch ∈ ds, isdigit ch = true) :
    strtol ds = (min LONG_MAX (digits_value ds : Int), true) := by
  cases ds with
  | nil => exact absurd rfl hne
  | cons d ds =>
    have hf := digit_facts d (hd d (List.mem_cons_self _ _))
    have h1 : (d :: ds).dropWhile isspace = d :: ds :=
      dropWhile_stop _ _ (fun x hx => by
        simp only [List.head?_cons, Option.some.injEq] at hx
        rw [← hx]; exact hf.1)
    have h2 : (d :: ds).takeWhile isdigit = d :: ds := by
      have := takeWhile_append_all isdigit (d :: ds) [] hd
      simpa using this
    unfold strtol
    simp only [h1, List.head?_cons]
    have hm : (some d == some '-') = false := by simp [hf.2.2.1]
    have hp : (some d == some '+') = false := by simp [hf.2.2.2.1]
    simp only [hm, hp, Bool.or_self, Bool.false_eq_true, if_false, h2, List.isEmpty_cons]

/-! ## The value of `max-age` -/

/-- The function `extract_max_age` on a block whose first `Cache-Control:` text
has the value `max-age=` followed by a run of decimal digits. -/
theorem extract_max_age_of_digits (h pre name blanks post ds : List Char)
    (hf : first_cache_control h pre name blanks ("max-age=".toList ++ ds) post)
    (hne : ds ≠ []) (hd : ∀ ch ∈ ds, isdigit ch = true) :
    extract_max_age h
      = if digits_value ds ≤ UINT32_MAX then digits_value ds else UINT32_MAX := by
  unfold extract_max_age
  rw [cache_control_value_of_first h pre name blanks _ post hf]
  have h1 : strcasestr ("max-age=".toList ++ ds) "max-age".toList
      = some ("max-age=".toList ++ ds) := rfl
  have h2 : strchr ("max-age=".toList ++ ds) '=' = some ('=' :: ds) := rfl
  simp only [h1, h2, List.drop_one, List.tail_cons]
  have h3 : skip_blanks ds = ds := by
    unfold skip_blanks
    apply dropWhile_stop
    intro x hx
    cases ds with
    | nil => simp at hx
    | cons d ds =>
      simp only [List.head?_cons, Option.some.injEq] at hx
      have hf := digit_facts d (hd d (List.mem_cons_self _ _))
      rw [← hx]
      simp [hf.2.2.2.2.1, hf.2.2.2.2.2.1]
  rw [h3, strtol_digits ds hne hd]
  simp only [Bool.not_true, Bool.false_or, decide_eq_true_eq]
  have hnn : ¬ (min LONG_MAX (digits_value ds : Int) < 0) := by
    have : (0 : Int) ≤ (digits_value ds : Int) := Int.ofNat_nonneg _
    have h63 : (0 : Int) ≤ LONG_MAX := by decide
    omega
  rw [if_neg hnn]
  by_cases hle : digits_value ds ≤ UINT32_MAX
  · have h4 : min LONG_MAX (digits_value ds : Int) = (digits_value ds : Int) := by
      have : (digits_value ds : Int) ≤ LONG_MAX := by
        have : ((UINT32_MAX : Nat) : Int) ≤ LONG_MAX := by decide
        have : (digits_value ds : Int) ≤ ((UINT32_MAX : Nat) : Int) := by exact_mod_cast hle
        omega
      omega
    have h5 : ¬ ((digits_value ds : Int) > ((UINT32_MAX : Nat) : Int)) := by
      have : (digits_value ds : Int) ≤ ((UINT32_MAX : Nat) : Int) := by exact_mod_cast hle
      omega
    rw [h4, if_neg h5, if_pos hle, Int.toNat_ofNat]
    exact Nat.mod_eq_of_lt (by
      have : UINT32_MAX < 2 ^ 32 := by decide
      omega)
  · have h5 : min LONG_MAX (digits_value ds : Int) > ((UINT32_MAX : Nat) : Int) := by
      have h6 : ((UINT32_MAX : Nat) : Int) < LONG_MAX := by decide
      have h7 : ((UINT32_MAX : Nat) : Int) < (digits_value ds : Int) := by
        exact_mod_cast (not_le.mp hle)
      omega
    rw [if_pos h5, if_neg hle]

/-- C10. For every natural number `N`, `extract_max_age` applied to a header
block whose first `Cache-Control:` text is followed by the value `max-age=`
and the decimal rendering of `N`, then CRLF, returns `N` when
`N <= 2^32 - 1` and `2^32 - 1` (`UINT32_MAX`) when `N > 2^32 - 1`, including
values at which the 64-bit `strtol` result saturates. -/
theorem extract_max_age_saturates (h pre name blanks post : List Char) (N : Nat)
    (hf : first_cache_control h pre name blanks ("max-age=".toList ++ (Nat.repr N).toList) post) :
    extract_max_age h = if N ≤ 2 ^ 32 - 1 then N else 2 ^ 32 - 1 := by
  obtain ⟨hne, hd, hval, _⟩ := repr_spec N
  have := extract_max_age_of_digits h pre name blanks post _ hf hne hd
  rw [hval] at this
  exact this

/-! ## Single-token values -/

/-- The only token of a non-empty value without separators is the value. -/
theorem token_of_plain (tok v : List Char) (hne : v ≠ [])
    (hfree : ∀ x ∈ v, is_separator x = false) (h : is_directive_token tok v) : tok = v := by
  have := (token_run tok v [] hne hfree (by simp)).mp (by simpa using h)
  rcases this with h1 | h1
  · exact h1
  · exact absurd h1 (not_token_nil tok)

theorem map_toLower_fixed (l : List Char) (h : ∀ x ∈ l, Char.toLower x = x) :
    l.map Char.toLower = l := by
  induction l with
  | nil => rfl
  | cons a l ih =>
    rw [List.map_cons, h a (List.mem_cons_self _ _),
      ih (fun x hx => h x (List.mem_cons_of_mem _ hx))]

theorem blocking_names_facts (d : List Char) (hd : d ∈ blocking_names) :
    d ≠ [] ∧ (∀ x ∈ d, is_separator x = false) ∧ d.map Char.toLower = d ∧
    d.isPrefixOf "max-age=0".toList = false ∧ d.take 2 ≠ ['m', 'a'] ∧ 2 ≤ d.length ∧
    ∀ d1 ∈ blocking_names, d.isPrefixOf d1 = true → d = d1 := by
  revert d
  decide

/-- C8. For every directive name `d` among `private`, `no-store`, `no-cache`,
`must-revalidate`, `proxy-revalidate`: a header block whose first
`Cache-Control:` text has the value `d` followed by a non-empty suffix `s`
that contains no comma, space or tab and does not begin with `=`
(`private-cache`) is cacheable; and a header block in whose value `d` stands
after other text and a comma, space or tab and is followed by a comma, space,
tab or the end of the value (`public, no-cache`) is not cacheable. -/
theorem directive_name_tokenization (d : List Char) (hd : d ∈ blocking_names) :
    (∀ h pre name blanks s post : List Char,
      first_cache_control h pre name blanks (d ++ s) post →
      s ≠ [] → (∀ ch ∈ s, is_separator ch = false) → s.head? ≠ some '=' →
      is_cacheable_response h = 1) ∧
    (∀ (h pre name blanks a : List Char) (x : Char) (b post : List Char),
      first_cache_control h pre name blanks (a ++ x :: d ++ b) post →
      is_separator x = true → (∀ y, b.head? = some y → is_separator y = true) →
      is_cacheable_response h = 0) := by
  obtain ⟨hdne, hdfree, hdlow, hdmax, _, _, hdpf⟩ := blocking_names_facts d hd
  constructor
  · intro h pre name blanks s post hf hs hsfree hseq
    have hv := cache_control_value_of_first h pre name blanks _ post hf
    obtain ⟨h01, hiff⟩ := is_cacheable_response_of_value h _ hv
    rcases h01 with h0 | h1
    · exfalso
      obtain ⟨tok, ht, hb⟩ := hiff.mp h0
      have hlow : (d ++ s).map Char.toLower = d ++ s.map Char.toLower := by
        rw [List.map_append, hdlow]
      rw [hlow] at ht
      have hfree : ∀ x ∈ d ++ s.map Char.toLower, is_separator x = false := by
        intro x hx
        rcases List.mem_append.mp hx with h1 | h1
        · exact hdfree x h1
        · obtain ⟨y, hy, hyx⟩ := List.mem_map.mp h1
          rw [← hyx, is_separator_toLower]
          exact hsfree y hy
      have htok := token_of_plain tok _ (by simp [hdne]) hfree ht
      subst htok
      have hshead : ∀ t, s.map Char.toLower ≠ '=' :: t := by
        intro t ht2
        cases s with
        | nil => exact hs rfl
        | cons c cs =>
          simp only [List.map_cons, List.cons.injEq] at ht2
          have := (toLower_eq_iff c '=' (Or.inl (by decide))).mp ht2.1
          apply hseq
          rw [this]; rfl
      rcases hb with hb | ⟨d1, hd1, hb⟩
      · have : d.isPrefixOf "max-age=0".toList = true := by
          rw [List.isPrefixOf_iff_prefix, ← hb]
          exact List.prefix_append _ _
        rw [hdmax] at this
        exact Bool.noConfusion this
      · have hp1 : d1 <+: d ++ s.map Char.toLower := by
          rcases hb with hb | hb
          · rw [hb]
          · exact List.IsPrefix.trans (List.prefix_append _ _) hb
        have hp2 : d <+: d ++ s.map Char.toLower := List.prefix_append _ _
        have hsame : d = d1 := by
          obtain ⟨_, _, _, _, _, _, hd1pf⟩ := blocking_names_facts d1 hd1
          rcases List.prefix_or_prefix_of_prefix hp2 hp1 with h3 | h3
          · exact hdpf d1 hd1 (List.isPrefixOf_iff_prefix.mpr h3)
          · exact (hd1pf d hd (List.isPrefixOf_iff_prefix.mpr h3)).symm
        subst hsame
        rcases hb with hb | hb
        · have : s.map Char.toLower = [] := by
            have := congrArg List.length hb
            simp only [List.length_append, List.length_map] at this
            have hl : s.length = 0 := by omega
            simp [List.length_eq_zero.mp hl]
          rw [List.map_eq_nil_iff] at this
          exact hs this
        · obtain ⟨t, ht2⟩ := hb
          rw [List.append_assoc, List.append_cancel_left_eq] at ht2
          exact hshead t ht2.symm
    · exact h1
  · intro h pre name blanks a x b post hf hx hb
    have hv := cache_control_value_of_first h pre name blanks _ post hf
    obtain ⟨_, hiff⟩ := is_cacheable_response_of_value h _ hv
    rw [hiff]
    refine ⟨d, ⟨hdne, hdfree, a.map Char.toLower ++ [Char.toLower x], b.map Char.toLower,
      ?_, ?_, ?_⟩, Or.inr ⟨d, hd, Or.inl rfl⟩⟩
    · simp [List.map_append, hdlow, List.append_assoc]
    · intro y hy
      rw [List.getLast?_concat] at hy
      simp only [Option.some.injEq] at hy
      rw [← hy, is_separator_toLower]
      exact hx
    · intro y hy
      cases b with
      | nil => simp at hy
      | cons b0 bs =>
        simp only [List.map_cons, List.head?_cons, Option.some.injEq] at hy
        rw [← hy, is_separator_toLower]
        exact hb b0 rfl

/-- C9, counterexample.  For `N = 4294967296 = 2^32`, written in decimal in the
header `Cache-Control: max-age=4294967296`, `extract_max_age` returns
`4294967295`, not `N`. -/
theorem max_age_directive_counterexample :
    block_max_age_2_32
      = status_line ++ "Cache-Control: ".toList ++ "max-age=".toList
          ++ (Nat.repr 4294967296).toList ++ crlf ++ crlf ∧
    is_cacheable_response block_max_age_2_32 = 1 ∧
    extract_max_age block_max_age_2_32 = 4294967295 ∧
    extract_max_age block_max_age_2_32 ≠ 4294967296 :=
  ⟨by decide, by decide, by decide, by decide⟩

/-- C9, amended.  A header block whose Cache-Control value is `max-age=0` is
not cacheable, and for every integer `N` with `0 < N <= 2^32 - 1` written in
decimal, a header block whose Cache-Control value is `max-age=N` is cacheable
and `extract_max_age` returns `N` for it; with `N = 1` a valid entry that
carries the extracted `max_age` is stale exactly when more than 1000 ms have
elapsed since `cached_at`. -/
theorem max_age_directive (h pre name blanks post : List Char) (N : Nat) :
    (first_cache_control h pre name blanks "max-age=0".toList post →
      is_cacheable_response h = 0) ∧
    (0 < N → N ≤ 2 ^ 32 - 1 →
      first_cache_control h pre name blanks ("max-age=".toList ++ (Nat.repr N).toList) post →
      is_cacheable_response h = 1 ∧ extract_max_age h = N) ∧
    (first_cache_control h pre name blanks ("max-age=".toList ++ (Nat.repr 1).toList) post →
      ∀ (c : cache_t) (i : Fin MAX_CACHE_ENTRIES) (now : Nat),
        (c.entries i).valid = true → (c.entries i).max_age = extract_max_age h →
        (c.entries i).cached_at ≤ now → now < 2 ^ 64 →
        (is_cache_entry_stale c i now = true ↔ now - (c.entries i).cached_at > 1000)) := by
  have hpos : ∀ M : Nat, 0 < M → M ≤ 2 ^ 32 - 1 →
      first_cache_control h pre name blanks ("max-age=".toList ++ (Nat.repr M).toList) post →
      is_cacheable_response h = 1 ∧ extract_max_age h = M := by
    intro M hM hM32 hf
    obtain ⟨hne, hd, _, hzero⟩ := repr_spec M
    constructor
    · have hv := cache_control_value_of_first h pre name blanks _ post hf
      obtain ⟨h01, hiff⟩ := is_cacheable_response_of_value h _ hv
      rcases h01 with h0 | h1
      · exfalso
        obtain ⟨tok, ht, hb⟩ := hiff.mp h0
        have hlow : ("max-age=".toList ++ (Nat.repr M).toList).map Char.toLower
            = "max-age=".toList ++ (Nat.repr M).toList := by
          rw [List.map_append, map_toLower_fixed (Nat.repr M).toList
            (fun x hx => (digit_facts x (hd x hx)).2.2.2.2.2.2.2.2)]
          rfl
        rw [hlow] at ht
        have hfree : ∀ x ∈ "max-age=".toList ++ (Nat.repr M).toList,
            is_separator x = false := by
          intro x hx
          rcases List.mem_append.mp hx with h1 | h1
          · exact (by decide : ∀ y ∈ "max-age=".toList, is_separator y = false) x h1
          · exact (digit_facts x (hd x h1)).2.1
        have htok := token_of_plain tok _ (by simp) hfree ht
        subst htok
        rcases hb with hb | ⟨d, hdn, hb⟩
        · have h0' : (Nat.repr M).toList = ['0'] := by
            have e : "max-age=0".toList = "max-age=".toList ++ ['0'] := rfl
            rw [e] at hb
            exact List.append_cancel_left hb
          have := hzero h0'
          omega
        · obtain ⟨_, _, _, _, htake, hlen, _⟩ := blocking_names_facts d hdn
          have hp : d <+: "max-age=".toList ++ (Nat.repr M).toList := by
            rcases hb with hb | hb
            · rw [hb]
            · exact List.IsPrefix.trans (List.prefix_append _ _) hb
          obtain ⟨t, ht2⟩ := hp
          have h2 := congrArg (List.take 2) ht2
          rw [List.take_append_of_le_length hlen] at h2
          exact htake h2
      · exact h1
    · obtain ⟨_, _, hval, _⟩ := repr_spec M
      have := extract_max_age_of_digits h pre name blanks post _ hf hne hd
      rw [hval, if_pos hM32] at this
      exact this
  refine ⟨?_, hpos N, ?_⟩
  · intro hf
    have hv := cache_control_value_of_first h pre name blanks _ post hf
    obtain ⟨_, hiff⟩ := is_cacheable_response_of_value h _ hv
    rw [hiff]
    refine ⟨"max-age=0".toList, ⟨by decide, by decide, [], [], by decide, by simp, by simp⟩,
      Or.inl rfl⟩
  · intro hf c i now hvalid hmax hat h64
    have hone := (hpos 1 (by decide) (by decide) hf).2
    rw [hone] at hmax
    have hst := stale_iff_core c i now hvalid hat h64 (by rw [hmax]; decide)
    rw [hst, hmax]
    constructor
    · intro hh; simpa using hh.2
    · intro hh; exact ⟨by decide, by simpa using hh⟩

/-! ## Example blocks -/

/-- The shape `first_cache_control` from conditions that evaluate. -/
theorem first_cache_control_of (h pre name blanks value post : List Char)
    (h1 : cstr h = pre ++ name ++ blanks ++ value ++ crlf ++ post)
    (h2 : name.map Char.toLower = "cache-control:".toList)
    (h3 : strcasestr (pre ++ name.dropLast) cache_control_name = none)
    (h4 : blanks.all (fun ch => ch == ' ' || ch == '\t') = true)
    (h5 : (value.head? == some ' ' || value.head? == some '\t') = false)
    (h6 : strstr value crlf = none) : first_cache_control h pre name blanks value post := by
  refine ⟨h1, h2, h3, ?_, ?_, h6⟩
  · intro ch hch
    have := List.all_eq_true.mp h4 ch hch
    simpa using this
  · intro ch hch
    rw [hch] at h5
    simp only [Bool.or_eq_false_iff, beq_eq_false_iff_ne, ne_eq, Option.some.injEq] at h5
    exact h5

theorem block_private_cache_shape :
    first_cache_control block_private_cache status_line "Cache-Control:".toList [' ']
      ("private".toList ++ "-cache".toList) crlf :=
  first_cache_control_of _ _ _ _ _ _ (by decide) (by decide) (by decide) (by decide)
    (by decide) (by decide)

theorem block_public_no_cache_shape :
    first_cache_control block_public_no_cache status_line "Cache-Control:".toList [' ']
      ("public,".toList ++ ' ' :: "no-cache".toList ++ []) crlf :=
  first_cache_control_of _ _ _ _ _ _ (by decide) (by decide) (by decide) (by decide)
    (by decide) (by decide)

theorem block_max_age_0_shape :
    first_cache_control block_max_age_0 status_line "Cache-Control:".toList [' ']
      "max-age=0".toList crlf :=
  first_cache_control_of _ _ _ _ _ _ (by decide) (by decide) (by decide) (by decide)
    (by decide) (by decide)

theorem block_max_age_1_shape :
    first_cache_control block_max_age_1 status_line "Cache-Control:".toList [' ']
      ("max-age=".toList ++ (Nat.repr 1).toList) crlf :=
  first_cache_control_of _ _ _ _ _ _ (by decide) (by decide) (by decide) (by decide)
    (by decide) (by decide)

theorem block_max_age_huge_shape :
    first_cache_control block_max_age_huge status_line "Cache-Control:".toList [' ']
      ("max-age=".toList ++ (Nat.repr 99999999999999999999).toList) crlf :=
  first_cache_control_of _ _ _ _ _ _ (by decide) (by decide) (by decide) (by decide)
    (by decide) (by decide)

/-- Witness of C8: `private-cache` is cacheable, `public, no-cache` is not. -/
theorem directive_name_tokenization_witness :
    "private".toList ∈ blocking_names ∧ "no-cache".toList ∈ blocking_names ∧
    is_cacheable_response block_private_cache = 1 ∧
    is_cacheable_response block_public_no_cache = 0 :=
  ⟨by decide, by decide,
   (directive_name_tokenization "private".toList (by decide)).1 block_private_cache status_line
      "Cache-Control:".toList [' '] "-cache".toList crlf block_private_cache_shape
      (by decide) (by decide) (by decide),
   (directive_name_tokenization "no-cache".toList (by decide)).2 block_public_no_cache
      status_line "Cache-Control:".toList [' '] "public,".toList ' ' [] crlf
      block_public_no_cache_shape (by decide) (by decide)⟩

/-- Witness of C9: `max-age=0` is refused, `max-age=1` is cacheable with the
extracted value 1. -/
theorem max_age_directive_witness :
    first_cache_control block_max_age_0 status_line "Cache-Control:".toList [' ']
      "max-age=0".toList crlf ∧
    is_cacheable_response block_max_age_0 = 0 ∧
    is_cacheable_response block_max_age_1 = 1 ∧ extract_max_age block_max_age_1 = 1 :=
  ⟨block_max_age_0_shape,
   (max_age_directive block_max_age_0 status_line "Cache-Control:".toList [' '] crlf 1).1
      block_max_age_0_shape,
   (max_age_directive block_max_age_1 status_line "Cache-Control:".toList [' '] crlf 1).2.1
      (by decide) (by decide) block_max_age_1_shape⟩

/-- Witness of C10: a numeral above `2^64` yields `UINT32_MAX`. -/
theorem extract_max_age_saturates_witness :
    first_cache_control block_max_age_huge status_line "Cache-Control:".toList [' ']
      ("max-age=".toList ++ (Nat.repr 99999999999999999999).toList) crlf ∧
    extract_max_age block_max_age_huge
      = if 99999999999999999999 ≤ 2 ^ 32 - 1 then 99999999999999999999 else 2 ^ 32 - 1 :=
  ⟨block_max_age_huge_shape,
   extract_max_age_saturates block_max_age_huge status_line "Cache-Control:".toList [' '] crlf
    99999999999999999999 block_max_age_huge_shape⟩

/-! ## `extract_max_age` and what follows the header -/

/-- C11. The header `Cache-Control: max-age, foo=7`, in which `max-age` is
followed by a comma and not by `=`, makes `extract_max_age` return 7: the
search for `=` runs on to the `=` of the next directive. -/
theorem extract_max_age_later_equals :
    cache_control_value block_max_age_foo = some "max-age, foo=7".toList ∧
    strchr "max-age, foo=7".toList '=' = some "=7".toList ∧
    extract_max_age block_max_age_foo = 7 :=
  ⟨by decide, by decide, by decide⟩

/-- Where `extract_max_age` returns 0: no `Cache-Control:` text or no CRLF after
it, no `max-age` text in the value, no `=` anywhere after that text, or no
number for `strtol` after the `=` and the blanks, or a negative one. -/
theorem extract_max_age_zero (h : List Char) :
    (cache_control_value h = none → extract_max_age h = 0) ∧
    (∀ value, cache_control_value h = some value →
      strcasestr value "max-age".toList = none → extract_max_age h = 0) ∧
    (∀ value max_age_pos, cache_control_value h = some value →
      strcasestr value "max-age".toList = some max_age_pos →
      strchr max_age_pos '=' = none → extract_max_age h = 0) ∧
    (∀ value max_age_pos equals_pos, cache_control_value h = some value →
      strcasestr value "max-age".toList = some max_age_pos →
      strchr max_age_pos '=' = some equals_pos →
      ((strtol (skip_blanks (equals_pos.drop 1))).2 = false ∨
        (strtol (skip_blanks (equals_pos.drop 1))).1 < 0) →
      extract_max_age h = 0) := by
  refine ⟨?_, ?_, ?_, ?_⟩
  · intro h1
    unfold extract_max_age; rw [h1]
  · intro value h1 h2
    unfold extract_max_age; rw [h1]; simp only [h2]
  · intro value p h1 h2 h3
    unfold extract_max_age; rw [h1]; simp only [h2, h3]
  · intro value p q h1 h2 h3 h4
    have hc : (!(strtol (skip_blanks (q.drop 1))).2 ||
        decide ((strtol (skip_blanks (q.drop 1))).1 < 0)) = true := by
      rcases h4 with h4 | h4
      · rw [h4]; rfl
      · rw [Bool.or_eq_true]; right; exact decide_eq_true h4
    unfold extract_max_age; rw [h1]; simp only [h2, h3]
    rw [if_pos hc]

/-- C12. Two inputs that agree through the first CRLFCRLF and differ in the
body bytes behind it: `is_cacheable_response` returns 1 for one and 0 for the
other, and `extract_max_age` returns 0 for one and 60 for the other. -/
theorem parsers_read_past_terminator :
    strstr header_length_37 (crlf ++ crlf) = some (crlf ++ crlf) ∧
    is_cacheable_response (header_length_37 ++ body_plain) = 1 ∧
    is_cacheable_response (header_length_37 ++ body_cache_control) = 0 ∧
    extract_max_age (header_length_37 ++ body_plain) = 0 ∧
    extract_max_age (header_length_37 ++ body_cache_control) = 60 :=
  ⟨by decide, by decide, by decide, by decide, by decide⟩

/-! ## Victim selection and admission -/

/-- A scan of the slots in index order stops at the lowest slot that passes the test. -/
theorem slots_find_lowest (p : Fin MAX_CACHE_ENTRIES → Bool) (k : Fin MAX_CACHE_ENTRIES)
    (h : slots.find? p = some k) : p k = true ∧ ∀ j, j < k → p j = false := by
  have hk := List.find?_some h
  refine ⟨hk, ?_⟩
  intro j hj
  rw [List.find?_eq_some] at h
  obtain ⟨_, as, bs, hsl, hbefore⟩ := h
  have hmem : j ∈ as ++ k :: bs := hsl ▸ mem_slots j
  have hsorted : slots.Pairwise (· < ·) := by decide
  rw [hsl] at hsorted
  rcases List.mem_append.mp hmem with hja | hjb
  · have := hbefore j hja
    simpa using this
  · exfalso
    rcases List.mem_cons.mp hjb with hjk | hjb2
    · exact absurd (hjk ▸ hj) (lt_irrefl _)
    · have hp := (List.pairwise_append.mp hsorted).2.1
      have := (List.pairwise_cons.mp hp).1 j hjb2
      exact absurd (lt_trans this hj) (lt_irrefl _)

/-- The lowest slot that passes a test is where the scan of the slots stops. -/
theorem slots_find_of_lowest (p : Fin MAX_CACHE_ENTRIES → Bool) (k : Fin MAX_CACHE_ENTRIES)
    (hk : p k = true) (hfirst : ∀ j, j < k → p j = false) : slots.find? p = some k := by
  cases hf : slots.find? p with
  | none =>
    rw [List.find?_eq_none] at hf
    exact absurd hk (hf k (mem_slots k))
  | some i =>
    obtain ⟨hi, hlow⟩ := slots_find_lowest p i hf
    by_cases hlt : i < k
    · rw [hfirst i hlt] at hi; exact absurd hi (by simp)
    · by_cases hgt : k < i
      · rw [hlow k hgt] at hk; exact absurd hk (by simp)
      · have : i = k := le_antisymm (not_lt.mp hgt) (not_lt.mp hlt)
        rw [this]

theorem first_invalid_eq_find (c : cache_t) :
    ∀ l : List (Fin MAX_CACHE_ENTRIES),
      first_invalid c l = l.find? (fun i => !(c.entries i).valid) := by
  intro l
  induction l with
  | nil => rfl
  | cons a l ih =>
    unfold first_invalid
    by_cases ha : (c.entries a).valid = true
    · simp [ha, List.find?_cons, ih]
    · simp [ha, List.find?_cons]

/-- The loop for the first invalid slot returns the lowest invalid index. -/
theorem first_invalid_lowest (c : cache_t) (k : Fin MAX_CACHE_ENTRIES) :
    first_invalid c slots = some k ↔
      (c.entries k).valid = false ∧ ∀ j, j < k → (c.entries j).valid = true := by
  rw [first_invalid_eq_find]
  constructor
  · intro h
    obtain ⟨h1, h2⟩ := slots_find_lowest _ k h
    refine ⟨by simpa using h1, ?_⟩
    intro j hj
    have := h2 j hj
    simpa using this
  · rintro ⟨h1, h2⟩
    apply slots_find_of_lowest
    · simp [h1]
    · intro j hj
      simp [h2 j hj]

theorem first_invalid_none_iff (c : cache_t) :
    first_invalid c slots = none ↔ ∀ k, (c.entries k).valid = true := by
  rw [first_invalid_eq_find, List.find?_eq_none]
  constructor
  · intro h k
    have := h k (mem_slots k)
    simpa using this
  · intro h k _
    simp [h k]

/-- Without a valid slot below `UINT64_MAX` the first loop of `cache_find_lru`
leaves `lru_index` at `-1`. -/
theorem lru_scan_none (c : cache_t)
    (h : ∀ i, (c.entries i).valid = true → UINT64_MAX ≤ (c.entries i).last_accessed) :
    lru_scan c slots (-1, UINT64_MAX) = (-1, UINT64_MAX) := by
  rcases lru_scan_spec c slots (-1) UINT64_MAX with ⟨heq, _⟩ | ⟨i, _, hv, _, hlt, _⟩
  · exact heq
  · have := h i hv
    omega

/-- On a table without invalid slot, an index that `cache_find_lru` returns
inside the array is that of a valid slot with the least `last_accessed`. -/
theorem cache_find_lru_slot (c : cache_t) (index : Fin MAX_CACHE_ENTRIES)
    (hall : ∀ k, (c.entries k).valid = true)
    (h : slot_of_int (cache_find_lru c) = some index) :
    (c.entries index).last_accessed < UINT64_MAX ∧
    ∀ j, (c.entries j).valid = true →
      (c.entries index).last_accessed ≤ (c.entries j).last_accessed := by
  have hval := slot_of_int_some _ _ h
  rcases lru_scan_spec c slots (-1) UINT64_MAX with ⟨heq, _⟩ | ⟨i, _, _, heq, hlt, hmin⟩
  · exfalso
    have hnone := (first_invalid_none_iff c).mpr hall
    unfold cache_find_lru at hval
    simp only [heq, hnone, if_true] at hval
    omega
  · have hne : ((i.val : Int)) ≠ -1 := by omega
    unfold cache_find_lru at hval
    simp only [heq, hne, if_false] at hval
    have hi : i = index := by
      apply Fin.ext
      exact_mod_cast hval
    subst hi
    exact ⟨hlt, fun j hj => hmin j (mem_slots j) hj⟩

/-- C13, counterexample.  In the cache that holds one entry, in slot 0, slot 1
is the first invalid slot, and `cache_find_lru` returns 0, the valid slot. -/
theorem cache_find_lru_counterexample :
    (added_once.entries 0).valid = true ∧ (added_once.entries 1).valid = false ∧
    first_invalid added_once slots = some 1 ∧ cache_find_lru added_once = 0 :=
  ⟨by decide, by decide, by decide, by decide⟩

/-- C13, amended.  For every cache state: if some valid slot has
`last_accessed` below `UINT64_MAX`, `cache_find_lru` returns the index of a
valid slot with the smallest `last_accessed` among the valid slots, whether or
not an invalid slot exists; if no valid slot is below `UINT64_MAX` (as in the
empty table), it returns the index of the first invalid slot, or `-1` when
every slot is valid. -/
theorem cache_find_lru_selection (c : cache_t) :
    ((∃ i, (c.entries i).valid = true ∧ (c.entries i).last_accessed < UINT64_MAX) →
      ∃ i : Fin MAX_CACHE_ENTRIES, cache_find_lru c = (i.val : Int) ∧
        (c.entries i).valid = true ∧
        ∀ j, (c.entries j).valid = true →
          (c.entries i).last_accessed ≤ (c.entries j).last_accessed) ∧
    ((∀ i, (c.entries i).valid = true → UINT64_MAX ≤ (c.entries i).last_accessed) →
      (∀ k : Fin MAX_CACHE_ENTRIES, (c.entries k).valid = false →
        (∀ j, j < k → (c.entries j).valid = true) → cache_find_lru c = (k.val : Int)) ∧
      ((∀ k, (c.entries k).valid = true) → cache_find_lru c = -1)) := by
  constructor
  · intro h
    exact cache_find_lru_valid c h
  · intro h
    have hscan := lru_scan_none c h
    constructor
    · intro k hk hlow
      have hfi := (first_invalid_lowest c k).mpr ⟨hk, hlow⟩
      unfold cache_find_lru
      simp only [hscan, hfi, if_true]
    · intro hall
      have hfi := (first_invalid_none_iff c).mpr hall
      unfold cache_find_lru
      simp only [hscan, hfi, if_true]

/-- Witness of C13: in the cache with one entry the valid slot 0 is returned. -/
theorem cache_find_lru_selection_witness :
    (∃ i, (added_once.entries i).valid = true ∧
      (added_once.entries i).last_accessed < UINT64_MAX) ∧
    ∃ i : Fin MAX_CACHE_ENTRIES, cache_find_lru added_once = (i.val : Int) ∧
      (added_once.entries i).valid = true ∧
      ∀ j, (added_once.entries j).valid = true →
        (added_once.entries i).last_accessed ≤ (added_once.entries j).last_accessed :=
  ⟨⟨0, by decide, by decide⟩,
   (cache_find_lru_selection added_once).1 ⟨0, by decide, by decide⟩⟩

/-- C14. For every cache state whose `size` is the number of its valid slots,
a successful `cache_add` writes exactly one slot and leaves every other slot
unchanged: when `size < 10` it is the lowest-index invalid slot, `size` grows
by one and nothing is printed; when `size = 10` it is a valid slot with the
smallest `last_accessed`, whose host and uri are those of the one `Evicting`
line printed, and `size` stays 10.  The written slot ends valid with the given
key, value, host, uri and `max_age`, `cached_at = now` and `last_accessed` the
incremented `access_sequence`. -/
theorem cache_add_writes_one_slot (c c1 : cache_t) (request : List Char) (request_len : Nat)
    (response : List Char) (response_len : Nat) (host uri : List Char) (max_age now : Nat)
    (hsize : c.size = (valid_count c : Int))
    (hadd : cache_add c request request_len response response_len host uri max_age now
      = some (c1, 1)) :
    ∃ index : Fin MAX_CACHE_ENTRIES,
      c1.entries index =
        { request := request.take request_len, request_len := request_len,
          response := response.take response_len, response_len := response_len,
          last_accessed := (c.access_sequence + 1) % 2 ^ 64, host := host, uri := uri,
          valid := true, cached_at := now, max_age := max_age } ∧
      (∀ j, j ≠ index → c1.entries j = c.entries j) ∧
      c1.access_sequence = (c.access_sequence + 1) % 2 ^ 64 ∧
      c1.start_time = c.start_time ∧
      ((c.size < 10 ∧ (c.entries index).valid = false ∧
          (∀ j, j < index → (c.entries j).valid = true) ∧ c1.size = c.size + 1 ∧
          cache_add_output c request_len response_len = []) ∨
       (c.size = 10 ∧ (c.entries index).valid = true ∧
          (∀ j, (c.entries j).valid = true →
            (c.entries index).last_accessed ≤ (c.entries j).last_accessed) ∧
          c1.size = 10 ∧
          cache_add_output c request_len response_len
            = [log_t.evicting (c.entries index).host (c.entries index).uri])) := by
  unfold cache_add at hadd
  split at hadd
  · simp at hadd
  split at hadd
  · simp at hadd
  rename_i h1 h2
  split at hadd
  · rename_i hlt
    split at hadd
    · rename_i index hfi
      simp only [Option.some.injEq, Prod.mk.injEq, and_true] at hadd
      subst hadd
      obtain ⟨hinv, hlow⟩ := (first_invalid_lowest c index).mp hfi
      refine ⟨index, by simp [fill_slot], ?_, rfl, rfl, Or.inl ⟨hlt, hinv, hlow, rfl, ?_⟩⟩
      · intro j hj
        exact fill_slot_other _ index j request request_len response response_len host uri
          max_age now hj
      · unfold cache_add_output
        rw [if_neg h1, if_neg h2, if_pos hlt]
    · simp at hadd
  · rename_i hfull
    split at hadd
    · rename_i index hso
      simp only [Option.some.injEq, Prod.mk.injEq, and_true] at hadd
      subst hadd
      have hle := valid_count_le c
      have hcount : valid_count c = MAX_CACHE_ENTRIES := by
        have : (MAX_CACHE_ENTRIES : Int) ≤ (valid_count c : Int) := by
          rw [← hsize]; exact Int.not_lt.mp hfull
        omega
      have hall := all_valid_of_count c hcount
      have hten : c.size = 10 := by rw [hsize, hcount]; rfl
      obtain ⟨_, hmin⟩ := cache_find_lru_slot c index hall hso
      refine ⟨index, by simp [fill_slot], ?_, rfl, rfl,
        Or.inr ⟨hten, hall index, hmin, hten, ?_⟩⟩
      · intro j hj
        exact fill_slot_other _ index j request request_len response response_len host uri
          max_age now hj
      · unfold cache_add_output
        rw [if_neg h1, if_neg h2, if_neg hfull, hso]
        simp [hall index]
    · simp at hadd

/-- Witness of C14: the second admission into the cache with one entry fills
slot 1 and leaves the other slots as they were. -/
theorem cache_add_writes_one_slot_witness :
    added_once.size = (valid_count added_once : Int) ∧
    cache_add added_once ['k'] 1 "new".toList 3 ['h'] ['u'] 0 0 = some (added_twice, 1) ∧
    ∃ index : Fin MAX_CACHE_ENTRIES,
      (∀ j, j ≠ index → added_twice.entries j = added_once.entries j) ∧
      added_twice.access_sequence = (added_once.access_sequence + 1) % 2 ^ 64 :=
  ⟨by decide, rfl,
   (cache_add_writes_one_slot added_once added_twice ['k'] 1 "new".toList 3 ['h'] ['u'] 0 0
      (by decide) rfl).imp (fun _ h => ⟨h.2.1, h.2.2.1⟩)⟩

/-! ## Making room before the fetch -/

/-- The scan for a stale slot returns `-1` exactly when no slot both holds the
key and is stale at its reading of the clock. -/
theorem stale_scan_none_iff (c : cache_t) (request : List Char) (total_request_len : Nat)
    (now : Fin MAX_CACHE_ENTRIES → Nat) :
    stale_scan c request total_request_len now slots = -1 ↔
      ∀ i, ¬ (key_matches c i request total_request_len = true ∧
        is_cache_entry_stale c i (now i) = true) := by
  rcases stale_scan_spec c request total_request_len now slots with
    ⟨h1, h2⟩ | ⟨i, _, h1, h2, h3⟩
  · exact ⟨fun _ i => h2 i (mem_slots i), fun _ => h1⟩
  · constructor
    · intro h
      rw [h1] at h
      omega
    · intro h
      exact absurd ⟨h2, h3⟩ (h i)

/-- C17. On a full table (`size = 10`, `size` being the number of valid slots,
one of them below `UINT64_MAX`) and with `key_len <= 2000`,
`cache_prepare_eviction_if_needed` invalidates exactly a valid slot with the
smallest `last_accessed`, prints the `Evicting` line of that slot, sets `size`
to 9, leaves all other slots unchanged and returns 1; when `size < 10` or
`key_len > 2000` it returns 0, leaves the cache unchanged and prints nothing.
Lines 153-204 of `handle_client_request` run it only when `cache_find` missed
and no slot that holds the key is stale: when the lookup is skipped, hits, or
finds a stale slot, the cache is left as `cache_find` left it. -/
theorem cache_prepare_eviction_spec (c : cache_t) (key_len : Nat) :
    (c.size = (valid_count c : Int) → c.size = 10 → key_len ≤ 2000 →
      (∃ i, (c.entries i).last_accessed < UINT64_MAX) →
      ∃ v : Fin MAX_CACHE_ENTRIES,
        (c.entries v).valid = true ∧
        (∀ j, (c.entries j).valid = true →
          (c.entries v).last_accessed ≤ (c.entries j).last_accessed) ∧
        (cache_prepare_eviction_if_needed c key_len).2 = 1 ∧
        (cache_prepare_eviction_if_needed c key_len).1.entries v
          = { c.entries v with valid := false } ∧
        (∀ j, j ≠ v →
          (cache_prepare_eviction_if_needed c key_len).1.entries j = c.entries j) ∧
        (cache_prepare_eviction_if_needed c key_len).1.size = 9 ∧
        (cache_prepare_eviction_if_needed c key_len).1.access_sequence = c.access_sequence ∧
        cache_prepare_eviction_output c key_len
          = [log_t.evicting (c.entries v).host (c.entries v).uri]) ∧
    ((c.size < 10 ∨ key_len > 2000) →
      cache_prepare_eviction_if_needed c key_len = (c, 0) ∧
      cache_prepare_eviction_output c key_len = []) ∧
    (∀ (caching_enabled : Bool) (request : List Char) (request_len now_find : Nat)
        (now_scan : Fin MAX_CACHE_ENTRIES → Nat),
      ((caching_enabled && decide (request_len ≤ MAX_REQUEST_SIZE_TO_CACHE)) = false →
        request_lookup caching_enabled c request request_len key_len now_find now_scan
          = lookup_t.fetch c (-1)) ∧
      ((caching_enabled && decide (request_len ≤ MAX_REQUEST_SIZE_TO_CACHE)) = true →
        ((cache_find c request key_len now_find).2 ≠ -1 →
          request_lookup caching_enabled c request request_len key_len now_find now_scan
            = lookup_t.served (cache_find c request key_len now_find).1
                (cache_find c request key_len now_find).2) ∧
        ((cache_find c request key_len now_find).2 = -1 →
          ((∃ i, key_matches c i request key_len = true ∧
              is_cache_entry_stale c i (now_scan i) = true) →
            ∃ s : Fin MAX_CACHE_ENTRIES,
              request_lookup caching_enabled c request request_len key_len now_find now_scan
                = lookup_t.fetch c (s.val : Int)) ∧
          ((∀ i, ¬ (key_matches c i request key_len = true ∧
              is_cache_entry_stale c i (now_scan i) = true)) →
            request_lookup caching_enabled c request request_len key_len now_find now_scan
              = lookup_t.fetch (cache_prepare_eviction_if_needed c key_len).1 (-1))))) := by
  refine ⟨?_, ?_, ?_⟩
  · intro hsize hten hkey hseq
    have hcount : valid_count c = MAX_CACHE_ENTRIES := by
      have : (valid_count c : Int) = 10 := by rw [← hsize, hten]
      exact_mod_cast this
    have hall := all_valid_of_count c hcount
    obtain ⟨k, hk⟩ := hseq
    obtain ⟨v, hv, hvalid, hmin⟩ := cache_find_lru_valid c ⟨k, hall k, hk⟩
    have hge : c.size ≥ (MAX_CACHE_ENTRIES : Int) := by rw [hten]; decide
    have hstate : cache_prepare_eviction_if_needed c key_len
        = (set_entry { c with size := c.size - 1 } v { c.entries v with valid := false }, 1) := by
      unfold cache_prepare_eviction_if_needed
      rw [if_neg (not_lt.mpr hkey), if_pos hge, hv, slot_of_int_val]
      simp only [hvalid, if_true]
    refine ⟨v, hvalid, hmin, ?_, ?_, ?_, ?_, ?_, ?_⟩
    · rw [hstate]
    · rw [hstate]; simp
    · intro j hj
      rw [hstate]
      exact set_entry_other _ v j _ hj
    · rw [hstate]
      show c.size - 1 = 9
      rw [hten]; rfl
    · rw [hstate]; rfl
    · unfold cache_prepare_eviction_output
      rw [if_neg (not_lt.mpr hkey), if_pos hge, hv, slot_of_int_val]
      simp only [hvalid, if_true]
  · intro h
    unfold cache_prepare_eviction_if_needed cache_prepare_eviction_output
    by_cases hk : key_len > MAX_REQUEST_SIZE_TO_CACHE
    · simp [hk]
    · have hs : c.size < 10 := h.resolve_right hk
      have hnot : ¬ c.size ≥ (MAX_CACHE_ENTRIES : Int) := by
        have : ((MAX_CACHE_ENTRIES : Nat) : Int) = 10 := rfl
        omega
      rw [if_neg hk, if_neg hnot, if_neg hk, if_neg hnot]
      exact ⟨rfl, rfl⟩
  · intro caching_enabled request request_len now_find now_scan
    constructor
    · intro hen
      unfold request_lookup
      rw [hen]
      simp
    · intro hen
      constructor
      · intro hhit
        unfold request_lookup
        rw [if_pos hen]
        simp only [hhit, ne_eq, not_false_eq_true, if_true]
      · intro hmiss
        have hfound := (cache_find_miss c request key_len now_find hmiss).1
        constructor
        · rintro ⟨i, hk, hst⟩
          rcases stale_scan_spec c request key_len now_scan slots with
            ⟨h1, h2⟩ | ⟨s, _, h1, _, _⟩
          · exact absurd ⟨hk, hst⟩ (h2 i (mem_slots i))
          · refine ⟨s, ?_⟩
            have hne : ((s.val : Int)) ≠ -1 := by omega
            unfold request_lookup
            rw [if_pos hen]
            simp only [hfound, ne_eq, not_true_eq_false, if_false, h1, hne]
        · intro hnone
          have hs := (stale_scan_none_iff c request key_len now_scan).mpr hnone
          unfold request_lookup
          rw [if_pos hen]
          simp only [hfound, ne_eq, not_true_eq_false, if_false, hs, if_true]

/-- Witness of C17: on the full table slot 0, the least recently used, is
invalidated and `size` drops to 9. -/
theorem cache_prepare_eviction_spec_witness :
    full_table.size = (valid_count full_table : Int) ∧ full_table.size = 10 ∧
    (∃ i, (full_table.entries i).last_accessed < UINT64_MAX) ∧
    (cache_prepare_eviction_if_needed full_table 28).2 = 1 ∧
    (cache_prepare_eviction_if_needed full_table 28).1.size = 9 :=
  ⟨by decide, by decide, ⟨0, by decide⟩,
   ((cache_prepare_eviction_spec full_table 28).1 (by decide) (by decide) (by decide)
      ⟨0, by decide⟩).elim (fun _ h => ⟨h.2.2.1, h.2.2.2.2.2.1⟩)⟩

/-! ## The commit after a stale match -/

/-- What `cache_find` prints are `Stale entry` lines. -/
theorem cache_find_output_stale (c : cache_t) (request : List Char) (request_len now : Nat) :
    ∀ l ∈ cache_find_output c request request_len now,
      ∃ host uri, l = log_t.stale_entry host uri := by
  unfold cache_find_output
  generalize slots = sl
  induction sl with
  | nil => intro l hl; simp [cache_find_loop_output] at hl
  | cons a sl ih =>
    intro l hl
    unfold cache_find_loop_output at hl
    by_cases hk : key_matches c a request request_len = true
    · rw [if_pos hk] at hl
      by_cases hs : is_cache_entry_stale c a now = true
      · rw [if_pos hs] at hl
        simp only [List.mem_singleton] at hl
        exact ⟨_, _, hl⟩
      · rw [if_neg hs] at hl
        simp at hl
    · rw [if_neg hk] at hl
      exact ih l hl

/-- A lookup that ends with a stale slot `s`: caching is enabled, the request
has at most 2000 bytes, `cache_find` missed and left the cache as it was, slot
`s` holds the key and is stale, and only `cache_find` printed. -/
theorem request_lookup_stale (caching_enabled : Bool) (c c1 : cache_t) (request : List Char)
    (request_len total_request_len now_find : Nat) (now_scan : Fin MAX_CACHE_ENTRIES → Nat)
    (s : Fin MAX_CACHE_ENTRIES)
    (h : request_lookup caching_enabled c request request_len total_request_len now_find
      now_scan = lookup_t.fetch c1 (s.val : Int)) :
    caching_enabled = true ∧ request_len ≤ MAX_REQUEST_SIZE_TO_CACHE ∧ c1 = c ∧
    key_matches c s request total_request_len = true ∧
    is_cache_entry_stale c s (now_scan s) = true ∧
    ∀ host request_uri,
      request_lookup_output caching_enabled c request request_len total_request_len host
        request_uri now_find now_scan
        = cache_find_output c request total_request_len now_find := by
  have hsne : ((s.val : Int)) ≠ -1 := by omega
  unfold request_lookup at h
  by_cases hen : (caching_enabled && decide (request_len ≤ MAX_REQUEST_SIZE_TO_CACHE)) = true
  · rw [if_pos hen] at h
    have hen2 := hen
    simp only [Bool.and_eq_true, decide_eq_true_eq] at hen2
    by_cases hret : (cache_find c request total_request_len now_find).2 = -1
    · have hfound := (cache_find_miss c request total_request_len now_find hret).1
      simp only [hfound, ne_eq, not_true_eq_false, if_false] at h
      rcases stale_scan_spec c request total_request_len now_scan slots with
        ⟨h1, _⟩ | ⟨i, _, h1, h2, h3⟩
      · simp only [h1, if_true, lookup_t.fetch.injEq] at h
        exact absurd h.2.symm hsne
      · have hine : ((i.val : Int)) ≠ -1 := by omega
        simp only [h1, hine, if_false, lookup_t.fetch.injEq] at h
        have his : i = s := by
          apply Fin.ext
          exact_mod_cast h.2
        subst his
        refine ⟨hen2.1, hen2.2, h.1.symm, h2, h3, ?_⟩
        intro host request_uri
        unfold request_lookup_output
        rw [if_pos hen]
        simp only [hfound, ne_eq, not_true_eq_false, if_false, h1, hine, List.append_nil]
    · rw [if_pos hret] at h
      exact lookup_t.noConfusion h
  · rw [if_neg hen] at h
    simp only [lookup_t.fetch.injEq] at h
    exact absurd h.2.symm hsne

/-- C15. When lines 153-204 of `handle_client_request` found the stale slot
`s` for the request key and the origin response is judged cacheable and has at
most 102400 bytes, the run replaces slot `s` in place: afterwards slot `s` is
valid and holds the new key, response, host, uri, `max_age`, `cached_at = now`
and `last_accessed` the incremented `access_sequence`; `size` is unchanged;
every other slot is unchanged; and no `Evicting` line is printed. -/
theorem stale_replaced_in_place (caching_enabled : Bool) (c c1 : cache_t) (r : run_t)
    (o : origin_t) (s : Fin MAX_CACHE_ENTRIES)
    (hlook : request_lookup caching_enabled c r.request r.request_len r.total_request_len
      r.now_find r.now_scan = lookup_t.fetch c1 (s.val : Int))
    (hblock : r.total_request_len ≤ r.request_len)
    (horigin : r.origin = some o)
    (hfit : o.complete_response_size ≤ 102400)
    (hcb : is_cacheable_response o.header_accumulator ≠ 0) :
    ∃ c2, handle_client_request_cache caching_enabled c r = some c2 ∧
      c2.entries s =
        { request := r.request.take r.total_request_len, request_len := r.total_request_len,
          response := o.complete_response.take o.complete_response_size,
          response_len := o.complete_response_size,
          last_accessed := (c.access_sequence + 1) % 2 ^ 64,
          host := r.host, uri := r.request_uri, valid := true,
          cached_at := o.now_commit, max_age := extract_max_age o.header_accumulator } ∧
      (∀ j, j ≠ s → c2.entries j = c.entries j) ∧
      c2.size = c.size ∧
      c2.access_sequence = (c.access_sequence + 1) % 2 ^ 64 ∧
      ∀ l ∈ handle_client_request_output caching_enabled c r,
        ∀ host uri, l ≠ log_t.evicting host uri := by
  obtain ⟨hen, hlen, hc1, hk, _, hout⟩ := request_lookup_stale caching_enabled c c1 r.request
    r.request_len r.total_request_len r.now_find r.now_scan s hlook
  subst hc1
  subst hen
  have hvalid := ((key_matches_iff c1 s r.request r.total_request_len).mp hk).1
  have hsne : ((s.val : Int)) ≠ -1 := by omega
  have htot : r.total_request_len ≤ MAX_REQUEST_SIZE_TO_CACHE := le_trans hblock hlen
  have hen2 : (true && decide (r.total_request_len ≤ MAX_REQUEST_SIZE_TO_CACHE)) = true := by
    simp [htot]
  have hcommit : request_commit true c1 (s.val : Int) r.request r.total_request_len
      o.complete_response o.complete_response_size o.header_accumulator r.host r.request_uri
      o.now_commit
      = some (replace_stale c1 s r.request r.total_request_len o.complete_response
          o.complete_response_size r.host r.request_uri
          (extract_max_age o.header_accumulator) o.now_commit) := by
    unfold request_commit
    rw [if_pos hen2, if_pos hfit, if_pos hcb, if_pos hsne, slot_of_int_val]
  refine ⟨replace_stale c1 s r.request r.total_request_len o.complete_response
    o.complete_response_size r.host r.request_uri (extract_max_age o.header_accumulator)
    o.now_commit, ?_, ?_, ?_, ?_, ?_, ?_⟩
  · unfold handle_client_request_cache
    rw [hlook]
    simp only [horigin]
    exact hcommit
  · simp [replace_stale, cache_update_lru, hvalid]
  · intro j hj
    simp [replace_stale, cache_update_lru, hvalid, set_entry_other _ _ _ _ hj]
  · simp [replace_stale, cache_update_lru, hvalid]
  · simp [replace_stale, cache_update_lru, hvalid]
  · intro l hl host uri hev
    unfold handle_client_request_output at hl
    rw [hlook, hout] at hl
    simp only [horigin] at hl
    have hco : request_commit_output true c1 (s.val : Int) r.total_request_len
        o.complete_response_size o.header_accumulator r.host r.request_uri = [] := by
      unfold request_commit_output
      rw [if_pos hen2, if_pos hfit, if_pos hcb, if_pos hsne]
    rw [hco] at hl
    rcases List.mem_append.mp hl with h1 | h1
    · obtain ⟨h2, u2, h3⟩ := cache_find_output_stale _ _ _ _ l h1
      rw [h3] at hev
      exact log_t.noConfusion hev
    · simp only [List.mem_singleton] at h1
      rw [h1] at hev
      exact log_t.noConfusion hev

/-- The release of a stale slot.  When lines 153-204 of `handle_client_request` found the
stale slot `s` for the request key and the origin response is judged not
cacheable or is longer than 102400 bytes, the commit marks slot `s` invalid,
decreases `size` by exactly one, prints an `Evicting` line with the host and
uri of slot `s`, changes no other slot and stores the response nowhere; when
`s` was the only valid slot with the request key, no valid slot holds that key
afterwards.  In the not-cacheable case `Not caching` is printed as well. -/
theorem stale_released (caching_enabled : Bool) (c c1 : cache_t) (r : run_t)
    (o : origin_t) (s : Fin MAX_CACHE_ENTRIES)
    (hlook : request_lookup caching_enabled c r.request r.request_len r.total_request_len
      r.now_find r.now_scan = lookup_t.fetch c1 (s.val : Int))
    (hblock : r.total_request_len ≤ r.request_len)
    (horigin : r.origin = some o)
    (hbad : is_cacheable_response o.header_accumulator = 0 ∨
      o.complete_response_size > 102400) :
    ∃ c2, handle_client_request_cache caching_enabled c r = some c2 ∧
      c2.entries s = { c.entries s with valid := false } ∧
      (∀ j, j ≠ s → c2.entries j = c.entries j) ∧
      c2.size = c.size - 1 ∧
      c2.access_sequence = c.access_sequence ∧
      log_t.evicting (c.entries s).host (c.entries s).uri
        ∈ handle_client_request_output caching_enabled c r ∧
      ((∀ j, j ≠ s → key_matches c j r.request r.total_request_len = false) →
        ∀ j, key_matches c2 j r.request r.total_request_len = false) ∧
      (o.complete_response_size ≤ 102400 →
        log_t.not_caching r.host r.request_uri
          ∈ handle_client_request_output caching_enabled c r) := by
  obtain ⟨hen, hlen, hc1, hk, _, hout⟩ := request_lookup_stale caching_enabled c c1 r.request
    r.request_len r.total_request_len r.now_find r.now_scan s hlook
  subst hc1
  subst hen
  have hsne : ((s.val : Int)) ≠ -1 := by omega
  have htot : r.total_request_len ≤ MAX_REQUEST_SIZE_TO_CACHE := le_trans hblock hlen
  have hen2 : (true && decide (r.total_request_len ≤ MAX_REQUEST_SIZE_TO_CACHE)) = true := by
    simp [htot]
  have hrel : release_stale c1 (s.val : Int)
      = some (set_entry { c1 with size := c1.size - 1 } s { c1.entries s with valid := false }) := by
    unfold release_stale
    rw [if_pos hsne, slot_of_int_val]
  have hrelo : release_stale_output c1 (s.val : Int)
      = [log_t.evicting (c1.entries s).host (c1.entries s).uri] := by
    unfold release_stale_output
    rw [if_pos hsne, slot_of_int_val]
  have hcommit : request_commit true c1 (s.val : Int) r.request r.total_request_len
      o.complete_response o.complete_response_size o.header_accumulator r.host r.request_uri
      o.now_commit
      = some (set_entry { c1 with size := c1.size - 1 } s { c1.entries s with valid := false }) := by
    unfold request_commit
    rw [if_pos hen2]
    by_cases hfit : o.complete_response_size ≤ MAX_CACHE_ENTRY_SIZE
    · have h0 : is_cacheable_response o.header_accumulator = 0 := by
        rcases hbad with h0 | h0
        · exact h0
        · exact absurd hfit (not_le.mpr h0)
      rw [if_pos hfit, if_neg (by rw [h0]; simp), hrel]
    · rw [if_neg hfit, hrel]
  have hco : request_commit_output true c1 (s.val : Int) r.total_request_len
      o.complete_response_size o.header_accumulator r.host r.request_uri
      = if o.complete_response_size ≤ MAX_CACHE_ENTRY_SIZE then
          [log_t.evicting (c1.entries s).host (c1.entries s).uri,
            log_t.not_caching r.host r.request_uri]
        else [log_t.evicting (c1.entries s).host (c1.entries s).uri] := by
    unfold request_commit_output
    rw [if_pos hen2]
    by_cases hfit : o.complete_response_size ≤ MAX_CACHE_ENTRY_SIZE
    · have h0 : is_cacheable_response o.header_accumulator = 0 := by
        rcases hbad with h0 | h0
        · exact h0
        · exact absurd hfit (not_le.mpr h0)
      rw [if_pos hfit, if_pos hfit, if_neg (by rw [h0]; simp), hrelo]
      rfl
    · rw [if_neg hfit, if_neg hfit, hrelo]
  have houtput : handle_client_request_output true c1 r
      = cache_find_output c1 r.request r.total_request_len r.now_find ++
          log_t.getting r.host r.request_uri ::
            (if o.complete_response_size ≤ MAX_CACHE_ENTRY_SIZE then
              [log_t.evicting (c1.entries s).host (c1.entries s).uri,
                log_t.not_caching r.host r.request_uri]
            else [log_t.evicting (c1.entries s).host (c1.entries s).uri]) := by
    unfold handle_client_request_output
    rw [hlook, hout]
    simp only [horigin]
    rw [hco]
  refine ⟨set_entry { c1 with size := c1.size - 1 } s { c1.entries s with valid := false },
    ?_, ?_, ?_, ?_, ?_, ?_, ?_, ?_⟩
  · unfold handle_client_request_cache
    rw [hlook]
    simp only [horigin]
    exact hcommit
  · simp
  · intro j hj
    exact set_entry_other _ s j _ hj
  · rfl
  · rfl
  · rw [houtput]
    apply List.mem_append_right
    apply List.mem_cons_of_mem
    split <;> simp
  · intro huniq j
    by_cases hj : j = s
    · subst hj
      simp [key_matches]
    · have he : (set_entry { c1 with size := c1.size - 1 } s
          { c1.entries s with valid := false }).entries j = c1.entries j :=
        set_entry_other _ s j _ hj
      rw [key_matches_congr c1 _ j r.request r.total_request_len he]
      exact huniq j hj
  · intro hfit
    rw [houtput]
    apply List.mem_append_right
    apply List.mem_cons_of_mem
    rw [if_pos hfit]
    simp

/-! ## A full miss -/

theorem cache_find_none (c : cache_t) (request : List Char) (request_len now : Nat)
    (hnone : ∀ i, key_matches c i request request_len = false) :
    cache_find c request request_len now = (c, -1) := by
  unfold cache_find
  rw [cache_find_loop_eq]
  have : slots.find? (fun i => key_matches c i request request_len) = none := by
    rw [List.find?_eq_none]
    intro i _
    simp [hnone i]
  rw [this]

/-- What `cache_find` prints, read off the first slot that holds the key. -/
theorem cache_find_output_eq (c : cache_t) (request : List Char) (request_len now : Nat) :
    cache_find_output c request request_len now =
      match slots.find? (fun i => key_matches c i request request_len) with
      | none => []
      | some i =>
        if is_cache_entry_stale c i now then
          [log_t.stale_entry (c.entries i).host (c.entries i).uri]
        else [] := by
  unfold cache_find_output
  generalize slots = sl
  induction sl with
  | nil => simp [cache_find_loop_output]
  | cons a sl ih =>
    unfold cache_find_loop_output
    by_cases ha : key_matches c a request request_len = true
    · simp [ha, List.find?_cons]
    · simp only [ha, List.find?_cons]
      simpa using ih

/-- Whether a slot holds the key depends on the first `request_len` bytes of
the request only. -/
theorem key_matches_take (c : cache_t) (i : Fin MAX_CACHE_ENTRIES) (request request2 : List Char)
    (request_len : Nat) (h : request2.take request_len = request.take request_len) :
    key_matches c i request2 request_len = key_matches c i request request_len := by
  simp [key_matches, memcmp_eq, h]

/-- The value that `extract_max_age` returns is a 32-bit value. -/
theorem extract_max_age_lt (h : List Char) : extract_max_age h < 2 ^ 32 := by
  unfold extract_max_age
  split
  · decide
  · split
    · decide
    · split
      · decide
      · simp only
        split
        · decide
        · split
          · decide
          · exact Nat.mod_lt _ (by decide)

/-- Lines 153-204 on a key that no valid slot holds: the request goes to the
origin without a stale slot; the cache is the given one, or the one that
`cache_prepare_eviction_if_needed` leaves. -/
theorem request_lookup_miss (caching_enabled : Bool) (c : cache_t) (request : List Char)
    (request_len total_request_len now_find : Nat) (now_scan : Fin MAX_CACHE_ENTRIES → Nat)
    (hnone : ∀ i, key_matches c i request total_request_len = false) :
    (request_lookup caching_enabled c request request_len total_request_len now_find now_scan
        = lookup_t.fetch c (-1) ∧
      ∀ host request_uri,
        request_lookup_output caching_enabled c request request_len total_request_len host
          request_uri now_find now_scan = []) ∨
    (request_lookup caching_enabled c request request_len total_request_len now_find now_scan
        = lookup_t.fetch (cache_prepare_eviction_if_needed c total_request_len).1 (-1) ∧
      ∀ host request_uri,
        request_lookup_output caching_enabled c request request_len total_request_len host
          request_uri now_find now_scan
          = cache_prepare_eviction_output c total_request_len) := by
  by_cases hen : (caching_enabled && decide (request_len ≤ MAX_REQUEST_SIZE_TO_CACHE)) = true
  · right
    have hfound := cache_find_none c request total_request_len now_find hnone
    have hs : stale_scan c request total_request_len now_scan slots = -1 := by
      rw [stale_scan_none_iff]
      intro i hi
      rw [hnone i] at hi
      exact Bool.false_ne_true hi.1
    have hfo : cache_find_output c request total_request_len now_find = [] := by
      rw [cache_find_output_eq]
      have : slots.find? (fun i => key_matches c i request total_request_len) = none := by
        rw [List.find?_eq_none]
        intro i _
        simp [hnone i]
      rw [this]
    constructor
    · unfold request_lookup
      rw [if_pos hen]
      simp only [hfound, ne_eq, not_true_eq_false, if_false, hs, if_true]
    · intro host request_uri
      unfold request_lookup_output
      rw [if_pos hen]
      simp only [hfound, ne_eq, not_true_eq_false, if_false, hs, if_true, hfo, List.nil_append]
  · left
    constructor
    · unfold request_lookup
      rw [if_neg hen]
    · intro host request_uri
      unfold request_lookup_output
      rw [if_neg hen]

/-- The cache that `cache_prepare_eviction_if_needed` leaves: a valid slot of it
is an unchanged slot of the given cache. -/
theorem cache_prepare_valid_same (c : cache_t) (request_len : Nat) (j : Fin MAX_CACHE_ENTRIES)
    (h : ((cache_prepare_eviction_if_needed c request_len).1.entries j).valid = true) :
    (cache_prepare_eviction_if_needed c request_len).1.entries j = c.entries j := by
  revert h
  unfold cache_prepare_eviction_if_needed
  split
  · intro _; rfl
  split
  · split
    · rename_i index _
      by_cases hv : (c.entries index).valid = true
      · simp only [hv, if_true]
        by_cases hj : j = index
        · subst hj; simp
        · intro _; exact set_entry_other _ index j _ hj
      · simp only [hv]
        intro _; rfl
    · intro _; rfl
  · intro _; rfl

theorem no_match_of_valid_same (c d : cache_t) (request : List Char) (request_len : Nat)
    (hsub : ∀ j, (d.entries j).valid = true → d.entries j = c.entries j)
    (hnone : ∀ i, key_matches c i request request_len = false) :
    ∀ i, key_matches d i request request_len = false := by
  intro i
  cases hd : key_matches d i request request_len with
  | false => rfl
  | true =>
    have hv := ((key_matches_iff d i request request_len).mp hd).1
    rw [key_matches_congr c d i request request_len (hsub i hv), hnone i] at hd
    exact hd.symm

/-- The cache after lines 153-204 on a key that no valid slot holds. -/
theorem request_lookup_miss_state (caching_enabled : Bool) (c : cache_t) (request : List Char)
    (request_len total_request_len now_find : Nat) (now_scan : Fin MAX_CACHE_ENTRIES → Nat)
    (hnone : ∀ i, key_matches c i request total_request_len = false) :
    ∃ d, request_lookup caching_enabled c request request_len total_request_len now_find now_scan
        = lookup_t.fetch d (-1) ∧
      (∀ j, (d.entries j).valid = true → d.entries j = c.entries j) ∧
      (∀ i, key_matches d i request total_request_len = false) := by
  rcases request_lookup_miss caching_enabled c request request_len total_request_len now_find
    now_scan hnone with h | h
  · exact ⟨c, h.1, fun _ _ => rfl, hnone⟩
  · have hsub := cache_prepare_valid_same c total_request_len
    exact ⟨_, h.1, hsub, no_match_of_valid_same c _ request total_request_len hsub hnone⟩

/-! ## The lines of the eviction and of the commit -/

theorem cache_prepare_eviction_output_evicting (c : cache_t) (request_len : Nat) :
    ∀ x ∈ cache_prepare_eviction_output c request_len, ∃ h u, x = log_t.evicting h u := by
  intro x hx
  unfold cache_prepare_eviction_output at hx
  split at hx
  · cases hx
  · split at hx
    · split at hx
      · split at hx
        · rw [List.mem_singleton] at hx
          exact ⟨_, _, hx⟩
        · cases hx
      · cases hx
    · cases hx

theorem cache_add_output_evicting (c : cache_t) (request_len response_len : Nat) :
    ∀ x ∈ cache_add_output c request_len response_len, ∃ h u, x = log_t.evicting h u := by
  intro x hx
  unfold cache_add_output at hx
  split at hx
  · cases hx
  · split at hx
    · cases hx
    · split at hx
      · cases hx
      · split at hx
        · split at hx
          · rw [List.mem_singleton] at hx
            exact ⟨_, _, hx⟩
          · cases hx
        · cases hx

theorem release_stale_output_evicting (c : cache_t) (stale_entry_index : Int) :
    ∀ x ∈ release_stale_output c stale_entry_index, ∃ h u, x = log_t.evicting h u := by
  intro x hx
  unfold release_stale_output at hx
  split at hx
  · split at hx
    · rw [List.mem_singleton] at hx
      exact ⟨_, _, hx⟩
    · cases hx
  · cases hx

/-- The commit prints no `Serving` line. -/
theorem request_commit_output_no_serving (caching_enabled : Bool) (c : cache_t)
    (stale_entry_index : Int) (total_request_len complete_response_size : Nat)
    (header_accumulator host request_uri h u : List Char) :
    log_t.serving h u ∉ request_commit_output caching_enabled c stale_entry_index
      total_request_len complete_response_size header_accumulator host request_uri := by
  intro hx
  unfold request_commit_output at hx
  split at hx
  · split at hx
    · split at hx
      · split at hx
        · cases hx
        · obtain ⟨_, _, hx⟩ := cache_add_output_evicting _ _ _ _ hx
          cases hx
      · rcases List.mem_append.mp hx with hx | hx
        · obtain ⟨_, _, hx⟩ := release_stale_output_evicting _ _ _ hx
          cases hx
        · rw [List.mem_singleton] at hx
          cases hx
    · obtain ⟨_, _, hx⟩ := release_stale_output_evicting _ _ _ hx
      cases hx
  · cases hx

/-! ## A response that is not admitted -/

/-- C20: with caching enabled and no valid slot holding the key of the request,
an origin response that `is_cacheable_response` judges not cacheable, or that
is longer than 102400 bytes, is not admitted: the run ends, every valid slot
afterwards is an unchanged slot of the cache before, no valid slot holds the
key, a following request with the same header block is not served from the
cache and prints a `GETting` line and no `Serving` line, and when the header
block is at most 2000 bytes long and the response fits and is judged not
cacheable the run prints `Not caching host uri`. -/
theorem uncacheable_not_admitted (c : cache_t) (r r2 : run_t) (o : origin_t)
    (hnone : ∀ i, key_matches c i r.request r.total_request_len = false)
    (horigin : r.origin = some o)
    (hbad : is_cacheable_response o.header_accumulator = 0 ∨
      o.complete_response_size > MAX_CACHE_ENTRY_SIZE)
    (hlen2 : r2.total_request_len = r.total_request_len)
    (hsame : r2.request.take r2.total_request_len = r.request.take r.total_request_len) :
    ∃ c1, handle_client_request_cache true c r = some c1 ∧
      (∀ j, (c1.entries j).valid = true → c1.entries j = c.entries j) ∧
      (∀ i, key_matches c1 i r.request r.total_request_len = false) ∧
      (∃ c2, request_lookup true c1 r2.request r2.request_len r2.total_request_len r2.now_find
          r2.now_scan = lookup_t.fetch c2 (-1)) ∧
      handle_client_request_sent true c1 r2 = none ∧
      log_t.getting r2.host r2.request_uri ∈ handle_client_request_output true c1 r2 ∧
      log_t.serving r2.host r2.request_uri ∉ handle_client_request_output true c1 r2 ∧
      (r.total_request_len ≤ MAX_REQUEST_SIZE_TO_CACHE →
        is_cacheable_response o.header_accumulator = 0 →
        o.complete_response_size ≤ MAX_CACHE_ENTRY_SIZE →
        log_t.not_caching r.host r.request_uri ∈ handle_client_request_output true c r) := by
  obtain ⟨d, hd, hsub, hdnone⟩ := request_lookup_miss_state true c r.request r.request_len
    r.total_request_len r.now_find r.now_scan hnone
  have hcommit : request_commit true d (-1) r.request r.total_request_len o.complete_response
      o.complete_response_size o.header_accumulator r.host r.request_uri o.now_commit
      = some d := by
    unfold request_commit
    by_cases hen : (true && decide (r.total_request_len ≤ MAX_REQUEST_SIZE_TO_CACHE)) = true
    · rw [if_pos hen]
      rcases hbad with hb | hb
      · by_cases hfit : o.complete_response_size ≤ MAX_CACHE_ENTRY_SIZE
        · rw [if_pos hfit, if_neg (by simp [hb])]
          simp [release_stale]
        · rw [if_neg hfit]
          simp [release_stale]
      · rw [if_neg (by omega)]
        simp [release_stale]
    · rw [if_neg hen]
  have hrun : handle_client_request_cache true c r = some d := by
    unfold handle_client_request_cache
    rw [hd, horigin]
    exact hcommit
  have hnone2 : ∀ i, key_matches d i r2.request r2.total_request_len = false := by
    intro i
    rw [hlen2, key_matches_take d i r.request r2.request r.total_request_len
      (by rw [← hlen2]; rw [hlen2] at hsame; rw [hlen2]; exact hsame)]
    exact hdnone i
  obtain ⟨d2, hd2, -, -⟩ := request_lookup_miss_state true d r2.request r2.request_len
    r2.total_request_len r2.now_find r2.now_scan hnone2
  have hout2 : ∀ x ∈ request_lookup_output true d r2.request r2.request_len r2.total_request_len
      r2.host r2.request_uri r2.now_find r2.now_scan, ∃ h u, x = log_t.evicting h u := by
    intro x hx
    rcases request_lookup_miss true d r2.request r2.request_len r2.total_request_len r2.now_find
      r2.now_scan hnone2 with h | h
    · rw [h.2] at hx
      cases hx
    · rw [h.2] at hx
      exact cache_prepare_eviction_output_evicting _ _ x hx
  refine ⟨d, hrun, hsub, hdnone, ⟨d2, hd2⟩, ?_, ?_, ?_, ?_⟩
  · unfold handle_client_request_sent
    rw [hd2]
  · unfold handle_client_request_output
    rw [hd2]
    exact List.mem_append_right _ (List.mem_cons_self _ _)
  · unfold handle_client_request_output
    rw [hd2]
    dsimp only
    intro hmem
    rcases List.mem_append.mp hmem with hx | hx
    · obtain ⟨h, u, hx⟩ := hout2 _ hx
      cases hx
    · rcases List.mem_cons.mp hx with hx | hx
      · cases hx
      · cases hr2 : r2.origin with
        | none =>
          rw [hr2] at hx
          cases hx
        | some o2 =>
          rw [hr2] at hx
          exact request_commit_output_no_serving _ _ _ _ _ _ _ _ _ _ hx
  · intro hkey hb hfit
    have hen : (true && decide (r.total_request_len ≤ MAX_REQUEST_SIZE_TO_CACHE)) = true := by
      simp [hkey]
    unfold handle_client_request_output
    rw [hd, horigin]
    dsimp only
    apply List.mem_append_right
    apply List.mem_cons_of_mem
    unfold request_commit_output
    rw [if_pos hen, if_pos hfit, if_neg (by simp [hb])]
    exact List.mem_append_right _ (List.mem_singleton.mpr rfl)

/-- C20 on the example of the specification: the empty cache, `request_a`, and an
origin that answers with `Cache-Control: no-store, max-age=60`. -/
theorem uncacheable_not_admitted_witness :
    is_cacheable_response block_no_store = 0 ∧
    handle_client_request_output true (cache_init 0) run_a_no_store
      = [log_t.getting ['h'] ['/', 'a'], log_t.not_caching ['h'] ['/', 'a']] ∧
    ∃ c1, handle_client_request_cache true (cache_init 0) run_a_no_store = some c1 ∧
      (∀ i, key_matches c1 i request_a 28 = false) ∧
      handle_client_request_sent true c1 run_a_no_store = none ∧
      log_t.getting ['h'] ['/', 'a'] ∈ handle_client_request_output true c1 run_a_no_store := by
  have hnone : ∀ i, key_matches (cache_init 0) i run_a_no_store.request
      run_a_no_store.total_request_len = false := by decide
  obtain ⟨c1, h1, -, h3, -, h5, h6, -, -⟩ :=
    uncacheable_not_admitted (cache_init 0) run_a_no_store run_a_no_store
      { complete_response := block_no_store, complete_response_size := 56,
        header_accumulator := block_no_store, now_commit := 0 }
      hnone rfl (Or.inl (by decide)) rfl rfl
  exact ⟨by decide, by decide, c1, h1, h3, h5, h6⟩

/-! ## The request that follows an admission -/

/-- After a successful `cache_add` of a key that no valid slot held, the slot
it filled is the first one that holds the key, and it is fresh at any time `t`
from `t0` on with `t - t0 <= max_age * 1000` (any later `t` when
`max_age = 0`). -/
theorem cache_add_first_match (c c1 : cache_t) (request : List Char) (request_len : Nat)
    (response : List Char) (response_len : Nat) (host uri : List Char) (max_age t0 t : Nat)
    (hnew : ∀ i, key_matches c i request request_len = false)
    (hadd : cache_add c request request_len response response_len host uri max_age t0
      = some (c1, 1))
    (h32 : max_age < 2 ^ 32) (h64 : t < 2 ^ 64) (hle : t0 ≤ t)
    (hage : max_age = 0 ∨ t - t0 ≤ max_age * 1000) :
    ∃ index : Fin MAX_CACHE_ENTRIES,
      c1.entries index =
        { request := request.take request_len, request_len := request_len,
          response := response.take response_len, response_len := response_len,
          last_accessed := (c.access_sequence + 1) % 2 ^ 64, host := host, uri := uri,
          valid := true, cached_at := t0, max_age := max_age } ∧
      key_matches c1 index request request_len = true ∧
      (∀ j, j < index → key_matches c1 j request request_len = false) ∧
      is_cache_entry_stale c1 index t = false := by
  obtain ⟨_, _, index, size, hc1⟩ := cache_add_success c c1 request request_len response
    response_len host uri max_age t0 hadd
  have hentry := fill_slot_entry { c with size := size } index request request_len response
    response_len host uri max_age t0
  rw [← hc1] at hentry
  have hother : ∀ j, j ≠ index → c1.entries j = c.entries j := by
    intro j hj
    rw [hc1]
    exact fill_slot_other { c with size := size } index j request request_len response
      response_len host uri max_age t0 hj
  have hmatch : key_matches c1 index request request_len = true := by
    rw [key_matches_iff, hentry]
    simp
  have hfirst : ∀ j, j < index → key_matches c1 j request request_len = false := by
    intro j hj
    rw [key_matches_congr c c1 j request request_len (hother j (ne_of_lt hj))]
    exact hnew j
  have hfresh : is_cache_entry_stale c1 index t = false := by
    unfold is_cache_entry_stale
    rw [hentry]
    by_cases hz : max_age = 0
    · simp [hz]
    · have hbound : t - t0 ≤ max_age * 1000 := hage.resolve_left hz
      have ht0 : t0 % 2 ^ 64 = t0 := Nat.mod_eq_of_lt (by omega)
      have hsum : t + 2 ^ 64 - t0 = (t - t0) + 2 ^ 64 := by omega
      have hprod : (max_age * 1000) % 2 ^ 64 = max_age * 1000 := Nat.mod_eq_of_lt (by omega)
      have hagems : (t + 2 ^ 64 - t0 % 2 ^ 64) % 2 ^ 64 = t - t0 := by
        rw [ht0, hsum, Nat.add_mod_right]
        exact Nat.mod_eq_of_lt (by omega)
      simp only [Bool.not_true, Bool.false_or, beq_iff_eq, hz, if_false]
      rw [hagems, hprod]
      simp only [decide_eq_false_iff_not, not_lt, ge_iff_le, gt_iff_lt]
      exact hbound
  exact ⟨index, hentry, hmatch, hfirst, hfresh⟩

/-- The function `cache_prepare_eviction_if_needed` leaves every `last_accessed`
as it is. -/
theorem cache_prepare_last_accessed (c : cache_t) (request_len : Nat)
    (j : Fin MAX_CACHE_ENTRIES) :
    ((cache_prepare_eviction_if_needed c request_len).1.entries j).last_accessed
      = (c.entries j).last_accessed := by
  unfold cache_prepare_eviction_if_needed
  split
  · rfl
  split
  · split
    · rename_i index _
      by_cases hv : (c.entries index).valid = true
      · simp only [hv, if_true]
        by_cases hj : j = index
        · subst hj; simp [set_entry]
        · rw [set_entry_other _ _ _ _ hj]
      · simp only [hv]
        rfl
    · rfl
  · rfl

theorem cache_prepare_access_sequence (c : cache_t) (request_len : Nat) :
    (cache_prepare_eviction_if_needed c request_len).1.access_sequence = c.access_sequence := by
  unfold cache_prepare_eviction_if_needed
  split
  · rfl
  split
  · split
    · split
      · rfl
      · rfl
    · rfl
  · rfl

/-- With caching enabled, on a cache whose `size` counts the valid slots and
that has a slot below `UINT64_MAX`: a request whose header block of at most
2000 bytes no valid slot holds, and whose origin response is cacheable and at
most 102400 bytes long, is committed, and a following request with the same
header block and at most 2000 received bytes, handled while the entry is
fresh, is sent exactly the accumulated response out of the cache; its run
prints `Serving host uri from cache` and nothing else. -/
theorem second_request_served (c : cache_t) (r r2 : run_t) (o : origin_t)
    (hsize : c.size = (valid_count c : Int))
    (hseq : ∃ i, (c.entries i).last_accessed < UINT64_MAX)
    (hnone : ∀ i, key_matches c i r.request r.total_request_len = false)
    (hkey : r.total_request_len ≤ MAX_REQUEST_SIZE_TO_CACHE)
    (horigin : r.origin = some o)
    (hfit : o.complete_response_size ≤ MAX_CACHE_ENTRY_SIZE)
    (hcb : is_cacheable_response o.header_accumulator ≠ 0)
    (hlen2 : r2.total_request_len = r.total_request_len)
    (hsame : r2.request.take r2.total_request_len = r.request.take r.total_request_len)
    (hrecv2 : r2.request_len ≤ MAX_REQUEST_SIZE_TO_CACHE)
    (hclock : o.now_commit ≤ r2.now_find) (h64 : r2.now_find < 2 ^ 64)
    (hfresh : extract_max_age o.header_accumulator = 0 ∨
      r2.now_find - o.now_commit ≤ extract_max_age o.header_accumulator * 1000) :
    ∃ c1, handle_client_request_cache true c r = some c1 ∧
      handle_client_request_sent true c1 r2
        = some (o.complete_response.take o.complete_response_size) ∧
      handle_client_request_output true c1 r2 = [log_t.serving r2.host r2.request_uri] := by
  obtain ⟨d, hd, hsub, hdnone⟩ := request_lookup_miss_state true c r.request r.request_len
    r.total_request_len r.now_find r.now_scan hnone
  have hdsize : d.size = (valid_count d : Int) ∧
      ∃ i, (d.entries i).last_accessed < UINT64_MAX := by
    rcases request_lookup_miss true c r.request r.request_len r.total_request_len r.now_find
      r.now_scan hnone with h | h
    · rw [h.1] at hd
      cases hd
      exact ⟨hsize, hseq⟩
    · rw [h.1] at hd
      cases hd
      refine ⟨cache_prepare_size_inv c r.total_request_len hsize, ?_⟩
      obtain ⟨i, hi⟩ := hseq
      exact ⟨i, by rw [cache_prepare_last_accessed]; exact hi⟩
  obtain ⟨c1, hadd⟩ := cache_add_admitted d r.request r.total_request_len o.complete_response
    o.complete_response_size r.host r.request_uri (extract_max_age o.header_accumulator)
    o.now_commit hdsize.1 hdsize.2 hkey hfit
  have hen : (true && decide (r.total_request_len ≤ MAX_REQUEST_SIZE_TO_CACHE)) = true := by
    simp [hkey]
  have hrun : handle_client_request_cache true c r = some c1 := by
    unfold handle_client_request_cache
    rw [hd, horigin]
    dsimp only
    unfold request_commit
    rw [if_pos hen, if_pos hfit, if_pos hcb, if_neg (by simp), hadd]
    rfl
  obtain ⟨index, hentry, hmatch, hfirst, hstale⟩ := cache_add_first_match d c1 r.request
    r.total_request_len o.complete_response o.complete_response_size r.host r.request_uri
    (extract_max_age o.header_accumulator) o.now_commit r2.now_find hdnone hadd
    (extract_max_age_lt _) h64 hclock hfresh
  have htake : r2.request.take r.total_request_len = r.request.take r.total_request_len := by
    rw [← hlen2]; rw [hlen2] at hsame; rw [hlen2]; exact hsame
  have hmatch2 : key_matches c1 index r2.request r2.total_request_len = true := by
    rw [hlen2, key_matches_take c1 index r.request r2.request r.total_request_len htake]
    exact hmatch
  have hfirst2 : ∀ j, j < index → key_matches c1 j r2.request r2.total_request_len = false := by
    intro j hj
    rw [hlen2, key_matches_take c1 j r.request r2.request r.total_request_len htake]
    exact hfirst j hj
  have hfound := cache_find_fresh c1 r2.request r2.total_request_len r2.now_find index hmatch2
    hfirst2 hstale
  have hen2 : (true && decide (r2.request_len ≤ MAX_REQUEST_SIZE_TO_CACHE)) = true := by
    simp [hrecv2]
  have hne : ((index.val : Int)) ≠ -1 := by omega
  have hlook : request_lookup true c1 r2.request r2.request_len r2.total_request_len r2.now_find
      r2.now_scan = lookup_t.served (cache_update_lru c1 index) (index.val : Int) := by
    unfold request_lookup
    rw [if_pos hen2, hfound]
    dsimp only
    rw [if_pos hne]
  have hvalid : (c1.entries index).valid = true := by rw [hentry]
  have hnewentry : (cache_update_lru c1 index).entries index
      = { c1.entries index with last_accessed := (c1.access_sequence + 1) % 2 ^ 64 } := by
    simp [cache_update_lru, hvalid]
  refine ⟨c1, hrun, ?_, ?_⟩
  · unfold handle_client_request_sent
    rw [hlook]
    dsimp only
    rw [slot_of_int_val]
    dsimp only
    rw [hnewentry, hentry]
    simp
  · unfold handle_client_request_output
    rw [hlook]
    dsimp only
    unfold request_lookup_output
    rw [if_pos hen2, hfound]
    dsimp only
    rw [if_pos hne, cache_find_output_eq,
      find_first_match c1 r2.request r2.total_request_len index hmatch2 hfirst2]
    dsimp only
    rw [hstale]
    rfl

/-- C19, failing input.  The empty cache admits `response_abc` for `request_a`
(28 bytes).  The same 28 bytes received again are served from the cache; the
same header block received with 1973 more bytes behind it (2001 bytes in all),
at the same instant, is not looked up: nothing is sent from the cache and the
run prints `GETting h /a`. -/
theorem second_request_trailing_bytes_refetched :
    handle_client_request_cache true (cache_init 0) run_a = some after_run_a ∧
    handle_client_request_sent true after_run_a run_a = some response_abc ∧
    handle_client_request_output true after_run_a run_a = [log_t.serving ['h'] ['/', 'a']] ∧
    run_a_long.total_request_len = run_a.total_request_len ∧
    run_a_long.request.take run_a_long.total_request_len
      = run_a.request.take run_a.total_request_len ∧
    handle_client_request_sent true after_run_a run_a_long = none ∧
    handle_client_request_output true after_run_a run_a_long
      = [log_t.getting ['h'] ['/', 'a']] :=
  ⟨rfl, by decide, by decide, rfl, by decide, by decide, by decide⟩

/-! ## The stale slot on examples -/

/-- Witness of C15: slot 0 of `stale_once` is stale five seconds after it was
filled, and the cacheable answer to `run_a_late` replaces it in place. -/
theorem stale_replaced_in_place_witness :
    request_lookup true stale_once run_a_late.request run_a_late.request_len
      run_a_late.total_request_len run_a_late.now_find run_a_late.now_scan
      = lookup_t.fetch stale_once 0 ∧
    ∃ c2, handle_client_request_cache true stale_once run_a_late = some c2 ∧
      (c2.entries 0).valid = true ∧ (c2.entries 0).response = response_abc ∧
      (c2.entries 0).cached_at = 5000 ∧ (c2.entries 0).last_accessed = 2 ∧
      c2.size = 1 := by
  have hlook : request_lookup true stale_once run_a_late.request run_a_late.request_len
      run_a_late.total_request_len run_a_late.now_find run_a_late.now_scan
      = lookup_t.fetch stale_once ((0 : Fin MAX_CACHE_ENTRIES).val : Int) := rfl
  obtain ⟨c2, h1, h2, -, h4, -, -⟩ := stale_replaced_in_place true stale_once stale_once
    run_a_late
    { complete_response := response_abc, complete_response_size := 41,
      header_accumulator := response_abc, now_commit := 5000 }
    0 hlook (by decide) rfl (by decide) (by decide)
  refine ⟨rfl, c2, h1, ?_, ?_, ?_, ?_, ?_⟩
  · rw [h2]
  · rw [h2]; decide
  · rw [h2]
  · rw [h2]; decide
  · rw [h4]; decide

/-- C16, failing input.  From the empty cache, `run_a_max_age_1` fills slot 0
and `run_a_long_max_age_1`, whose 2001 received bytes skip the lookup, fills
slot 1 with the same key.  Five seconds later the lookup of `request_a` finds
the stale slot 0, the origin answers `no-store`, and the commit releases slot
0: slot 1 is still valid and still holds the request key. -/
theorem stale_release_keeps_duplicate :
    handle_client_request_cache true (cache_init 0) run_a_max_age_1 = some stale_once ∧
    handle_client_request_cache true stale_once run_a_long_max_age_1 = some stale_twice ∧
    request_lookup true stale_twice run_a_late_no_store.request run_a_late_no_store.request_len
      run_a_late_no_store.total_request_len run_a_late_no_store.now_find
      run_a_late_no_store.now_scan = lookup_t.fetch stale_twice 0 ∧
    is_cacheable_response block_no_store = 0 ∧
    ∃ c2, handle_client_request_cache true stale_twice run_a_late_no_store = some c2 ∧
      (c2.entries 0).valid = false ∧ c2.size = 1 ∧
      (c2.entries 1).valid = true ∧
      key_matches c2 1 run_a_late_no_store.request run_a_late_no_store.total_request_len
        = true :=
  ⟨rfl, rfl, rfl, by decide,
    set_entry { stale_twice with size := stale_twice.size - 1 } 0
      { stale_twice.entries 0 with valid := false },
    rfl, by decide, by decide, by decide, by decide⟩

/-- An instance of the release: slot 0 of `stale_once` is stale five seconds after it was
filled, it is the only slot with the key, and the `no-store` answer to
`run_a_late_no_store` releases it. -/
theorem stale_released_witness :
    request_lookup true stale_once run_a_late_no_store.request run_a_late_no_store.request_len
      run_a_late_no_store.total_request_len run_a_late_no_store.now_find
      run_a_late_no_store.now_scan = lookup_t.fetch stale_once 0 ∧
    is_cacheable_response block_no_store = 0 ∧
    ∃ c2, handle_client_request_cache true stale_once run_a_late_no_store = some c2 ∧
      (c2.entries 0).valid = false ∧ c2.size = 0 ∧
      log_t.evicting ['h'] ['/', 'a']
        ∈ handle_client_request_output true stale_once run_a_late_no_store ∧
      (∀ j, key_matches c2 j request_a 28 = false) ∧
      log_t.not_caching ['h'] ['/', 'a']
        ∈ handle_client_request_output true stale_once run_a_late_no_store := by
  have hlook : request_lookup true stale_once run_a_late_no_store.request
      run_a_late_no_store.request_len run_a_late_no_store.total_request_len
      run_a_late_no_store.now_find run_a_late_no_store.now_scan
      = lookup_t.fetch stale_once ((0 : Fin MAX_CACHE_ENTRIES).val : Int) := rfl
  obtain ⟨c2, h1, h2, -, h4, -, h6, h7, h8⟩ := stale_released true stale_once stale_once
    run_a_late_no_store
    { complete_response := block_no_store, complete_response_size := 56,
      header_accumulator := block_no_store, now_commit := 5000 }
    0 hlook (by decide) rfl (Or.inl (by decide))
  refine ⟨rfl, by decide, c2, h1, ?_, ?_, h6, h7 (by decide), h8 (by decide)⟩
  · rw [h2]
  · rw [h4]; decide

theorem run_a_max_age_1_clock : clock_ordered 0 run_a_max_age_1 0 := by
  refine ⟨by decide, fun i => ⟨Nat.le_refl 0, Nat.le_refl 0⟩, ?_, by decide⟩
  intro o ho
  simp only [run_a_max_age_1, Option.some.injEq] at ho
  subst ho
  exact ⟨fun _ => Nat.le_refl 0, Nat.le_refl 0⟩

theorem stale_once_reachable : pipeline_reachable true stale_once 0 :=
  pipeline_reachable.run (cache_init 0) stale_once 0 0 run_a_max_age_1
    (pipeline_reachable.init 0 (by decide)) run_a_max_age_1_clock (Or.inl (by decide)) rfl

/-- The release of a stale slot on the states of `pipeline_reachable`, those
reached without a run whose received request exceeds 2000 bytes while its
header block does not.  There the stale slot `s` found by the lookup is the
only valid slot with the request key, so after the commit has marked it
invalid no valid slot holds the request key; the other effects are those of
`stale_released`. -/
theorem stale_released_reachable (caching_enabled : Bool) (c c1 : cache_t) (t : Nat)
    (r : run_t) (o : origin_t) (s : Fin MAX_CACHE_ENTRIES)
    (hreach : pipeline_reachable caching_enabled c t)
    (hlook : request_lookup caching_enabled c r.request r.request_len r.total_request_len
      r.now_find r.now_scan = lookup_t.fetch c1 (s.val : Int))
    (hblock : r.total_request_len ≤ r.request_len)
    (horigin : r.origin = some o)
    (hbad : is_cacheable_response o.header_accumulator = 0 ∨
      o.complete_response_size > 102400) :
    ∃ c2, handle_client_request_cache caching_enabled c r = some c2 ∧
      c2.entries s = { c.entries s with valid := false } ∧
      (∀ j, j ≠ s → c2.entries j = c.entries j) ∧
      c2.size = c.size - 1 ∧
      log_t.evicting (c.entries s).host (c.entries s).uri
        ∈ handle_client_request_output caching_enabled c r ∧
      ∀ j, key_matches c2 j r.request r.total_request_len = false := by
  obtain ⟨hi1, hi2, -, -⟩ := pipeline_reachable_keys caching_enabled c t hreach
  obtain ⟨-, -, -, hk, -, -⟩ := request_lookup_stale caching_enabled c c1 r.request
    r.request_len r.total_request_len r.now_find r.now_scan s hlook
  obtain ⟨c2, h1, h2, h3, h4, -, h6, h7, -⟩ :=
    stale_released caching_enabled c c1 r o s hlook hblock horigin hbad
  refine ⟨c2, h1, h2, h3, h4, h6, h7 ?_⟩
  intro j hj
  by_contra hne
  have hkj : key_matches c j r.request r.total_request_len = true := by simpa using hne
  rw [key_matches_iff] at hk hkj
  obtain ⟨hvs, hls, hts⟩ := hk
  obtain ⟨hvj, hlj, htj⟩ := hkj
  have hs := hi2 s hvs
  have hj2 := hi2 j hvj
  have es : (c.entries s).request.take r.total_request_len = (c.entries s).request :=
    List.take_of_length_le (by omega)
  have ej : (c.entries j).request.take r.total_request_len = (c.entries j).request :=
    List.take_of_length_le (by omega)
  apply hj
  apply hi1 j s hvj hvs (hlj.trans hls.symm)
  rw [← ej, ← es, htj, hts]

/-- An instance on a reachable state: `stale_once` is reached by
`run_a_max_age_1`, and the `no-store` answer five seconds later leaves no valid
slot with the key of `request_a`. -/
theorem stale_released_reachable_witness :
    pipeline_reachable true stale_once 0 ∧
    ∃ c2, handle_client_request_cache true stale_once run_a_late_no_store = some c2 ∧
      ∀ j, key_matches c2 j request_a 28 = false := by
  obtain ⟨c2, h1, -, -, -, -, h6⟩ := stale_released_reachable true stale_once stale_once 0
    run_a_late_no_store
    { complete_response := block_no_store, complete_response_size := 56,
      header_accumulator := block_no_store, now_commit := 5000 }
    0 stale_once_reachable rfl (by decide) rfl (Or.inl (by decide))
  exact ⟨stale_once_reachable, c2, h1, h6⟩

/-! ## Ten admissions and an eleventh -/

theorem same_key_comm (a b : run_t) : same_key a b = same_key b a := by
  unfold same_key
  rw [Bool.eq_iff_iff]
  simp only [Bool.and_eq_true, decide_eq_true_eq]
  constructor
  · intro h; exact ⟨h.1.symm, h.2.symm⟩
  · intro h; exact ⟨h.1.symm, h.2.symm⟩

theorem committed_entry_of (r : run_t) (o : origin_t) (seq : Nat) (h : r.origin = some o) :
    committed_entry r seq =
      { request := r.request.take r.total_request_len, request_len := r.total_request_len,
        response := o.complete_response.take o.complete_response_size,
        response_len := o.complete_response_size,
        last_accessed := seq, host := r.host, uri := r.request_uri, valid := true,
        cached_at := o.now_commit, max_age := extract_max_age o.header_accumulator } := by
  unfold committed_entry
  rw [h]

/-- A slot that holds the run `q` does not hold the key of a run with another key. -/
theorem committed_entry_no_match (c : cache_t) (i : Fin MAX_CACHE_ENTRIES) (q r : run_t)
    (seq : Nat) (hq : cacheable_run q) (he : c.entries i = committed_entry q seq)
    (hk : same_key q r = false) :
    key_matches c i r.request r.total_request_len = false := by
  obtain ⟨_, o, ho, _, _⟩ := hq
  cases hm : key_matches c i r.request r.total_request_len with
  | false => rfl
  | true =>
    exfalso
    rw [key_matches_iff, he, committed_entry_of q o seq ho] at hm
    obtain ⟨_, hlen, htake⟩ := hm
    simp only at hlen htake
    have : same_key q r = true := by
      unfold same_key
      simp only [Bool.and_eq_true, decide_eq_true_eq]
      refine ⟨hlen, ?_⟩
      rw [← htake, List.take_take, hlen, min_self]
    rw [hk] at this
    exact Bool.false_ne_true this

/-- A slot that holds the run `r` holds the key of `r`. -/
theorem committed_entry_match (c : cache_t) (i : Fin MAX_CACHE_ENTRIES) (r : run_t)
    (o : origin_t) (seq : Nat) (ho : r.origin = some o)
    (he : c.entries i = committed_entry r seq) :
    key_matches c i r.request r.total_request_len = true := by
  rw [key_matches_iff, he, committed_entry_of r o seq ho]
  simp

theorem filled_by_init (now : Nat) : filled_by (cache_init now) [] := by
  refine ⟨rfl, rfl, ?_⟩
  intro j
  rfl

theorem filled_by_no_match (c : cache_t) (rs : List run_t) (r : run_t)
    (hf : filled_by c rs) (hall : ∀ q ∈ rs, cacheable_run q)
    (hnew : ∀ q ∈ rs, same_key q r = false) :
    ∀ i, key_matches c i r.request r.total_request_len = false := by
  intro i
  have he := hf.2.2 i
  cases hq : rs[i.val]? with
  | none =>
    rw [hq] at he
    simp [key_matches, he, zero_entry]
  | some q =>
    rw [hq] at he
    have hmem : q ∈ rs := List.getElem?_mem hq
    exact committed_entry_no_match c i q r _ (hall q hmem) he (hnew q hmem)

/-- Below ten entries `cache_prepare_eviction_if_needed` does nothing. -/
theorem cache_prepare_room (c : cache_t) (request_len : Nat)
    (h : c.size < (MAX_CACHE_ENTRIES : Int)) :
    (cache_prepare_eviction_if_needed c request_len).1 = c ∧
    cache_prepare_eviction_output c request_len = [] := by
  have hge : ¬ c.size ≥ (MAX_CACHE_ENTRIES : Int) := not_le.mpr h
  constructor
  · unfold cache_prepare_eviction_if_needed
    by_cases h1 : request_len > MAX_REQUEST_SIZE_TO_CACHE
    · rw [if_pos h1]
    · rw [if_neg h1, if_neg hge]
  · unfold cache_prepare_eviction_output
    by_cases h1 : request_len > MAX_REQUEST_SIZE_TO_CACHE
    · rw [if_pos h1]
    · rw [if_neg h1, if_neg hge]

/-- With room in the table, a full miss goes to the origin on the given cache
and prints nothing before `GETting`. -/
theorem request_lookup_miss_room (caching_enabled : Bool) (c : cache_t) (r : run_t)
    (hnone : ∀ i, key_matches c i r.request r.total_request_len = false)
    (h : c.size < (MAX_CACHE_ENTRIES : Int)) :
    request_lookup caching_enabled c r.request r.request_len r.total_request_len r.now_find
      r.now_scan = lookup_t.fetch c (-1) ∧
    request_lookup_output caching_enabled c r.request r.request_len r.total_request_len r.host
      r.request_uri r.now_find r.now_scan = [] := by
  rcases request_lookup_miss caching_enabled c r.request r.request_len r.total_request_len
    r.now_find r.now_scan hnone with hm | hm
  · exact ⟨hm.1, hm.2 _ _⟩
  · have hp := cache_prepare_room c r.total_request_len h
    refine ⟨?_, ?_⟩
    · rw [hm.1, hp.1]
    · rw [hm.2, hp.2]

/-- One admission into a table with room: the run ends, the table holds the
run in the next slot, and the run prints its `GETting` line only. -/
theorem filled_by_step (c : cache_t) (rs : List run_t) (r : run_t)
    (hf : filled_by c rs) (hlen : rs.length < MAX_CACHE_ENTRIES)
    (hall : ∀ q ∈ rs, cacheable_run q) (hr : cacheable_run r)
    (hnew : ∀ q ∈ rs, same_key q r = false) :
    ∃ c1, handle_client_request_cache true c r = some c1 ∧ filled_by c1 (rs ++ [r]) ∧
      handle_client_request_output true c r = [log_t.getting r.host r.request_uri] := by
  have hnone := filled_by_no_match c rs r hf hall hnew
  have hroom : c.size < (MAX_CACHE_ENTRIES : Int) := by
    rw [hf.1]
    exact Int.ofNat_lt.mpr hlen
  obtain ⟨hlook, hlout⟩ := request_lookup_miss_room true c r hnone hroom
  obtain ⟨hkey, o, ho, hfit, hcb⟩ := hr
  have hen : (true && decide (r.total_request_len ≤ MAX_REQUEST_SIZE_TO_CACHE)) = true := by
    simp [hkey]
  have hfirst : first_invalid c slots = some ⟨rs.length, hlen⟩ := by
    rw [first_invalid_lowest]
    constructor
    · rw [hf.2.2 ⟨rs.length, hlen⟩]
      have : rs[rs.length]? = none := List.getElem?_eq_none_iff.mpr (le_refl _)
      simp only [this]
      rfl
    · intro j hj
      have hjl : j.val < rs.length := hj
      rw [hf.2.2 j, List.getElem?_eq_getElem hjl]
      obtain ⟨_, oq, hoq, _, _⟩ := hall _ (List.getElem_mem hjl)
      simp only
      rw [committed_entry_of _ oq _ hoq]
  have hadd : cache_add c r.request r.total_request_len o.complete_response
      o.complete_response_size r.host r.request_uri (extract_max_age o.header_accumulator)
      o.now_commit
      = some (fill_slot { c with size := c.size + 1 } ⟨rs.length, hlen⟩ r.request
          r.total_request_len o.complete_response o.complete_response_size r.host r.request_uri
          (extract_max_age o.header_accumulator) o.now_commit, 1) := by
    unfold cache_add
    rw [if_neg (not_lt.mpr hkey), if_neg (not_lt.mpr hfit), if_pos hroom, hfirst]
  refine ⟨fill_slot { c with size := c.size + 1 } ⟨rs.length, hlen⟩ r.request
    r.total_request_len o.complete_response o.complete_response_size r.host r.request_uri
    (extract_max_age o.header_accumulator) o.now_commit, ?_, ?_, ?_⟩
  · unfold handle_client_request_cache
    rw [hlook, ho]
    dsimp only
    unfold request_commit
    rw [if_pos hen, if_pos hfit, if_pos hcb, if_neg (by simp), hadd]
    rfl
  · refine ⟨?_, ?_, ?_⟩
    · rw [fill_slot_size]
      simp [hf.1]
    · unfold fill_slot
      simp only [set_entry]
      rw [hf.2.1, List.length_append, List.length_singleton]
      exact Nat.mod_eq_of_lt (by have : MAX_CACHE_ENTRIES = 10 := rfl; omega)
    · intro j
      by_cases hj : j = ⟨rs.length, hlen⟩
      · subst hj
        rw [fill_slot_entry]
        simp only [List.getElem?_concat_length]
        rw [committed_entry_of r o _ ho, hf.2.1]
        have hmod : (rs.length + 1) % 2 ^ 64 = rs.length + 1 :=
          Nat.mod_eq_of_lt (by have : MAX_CACHE_ENTRIES = 10 := rfl; omega)
        simp only [hmod]
      · rw [fill_slot_other _ _ _ _ _ _ _ _ _ _ _ hj]
        show c.entries j = _
        rw [hf.2.2 j]
        have hne : j.val ≠ rs.length := fun h => hj (Fin.ext h)
        by_cases hlt : j.val < rs.length
        · rw [List.getElem?_append_left hlt]
        · have hgt : rs.length < j.val := by omega
          have h1 : rs[j.val]? = none := List.getElem?_eq_none_iff.mpr (by omega)
          have h2 : (rs ++ [r])[j.val]? = none :=
            List.getElem?_eq_none_iff.mpr (by
              rw [List.length_append, List.length_singleton]; omega)
          rw [h1, h2]
  · unfold handle_client_request_output
    rw [hlook, hlout, ho]
    dsimp only
    unfold request_commit_output
    rw [if_pos hen, if_pos hfit, if_pos hcb, if_neg (by simp)]
    unfold cache_add_output
    rw [if_neg (not_lt.mpr hkey), if_neg (not_lt.mpr hfit), if_pos hroom]
    rfl

/-- Admissions of runs with pairwise distinct keys into a table that stays
within ten entries: the loop of `main` ends, the table holds the runs in
order, and each run prints its `GETting` line only. -/
theorem filled_by_loop :
    ∀ (rs pre : List run_t) (c : cache_t), filled_by c pre →
      pre.length + rs.length ≤ MAX_CACHE_ENTRIES →
      (∀ q ∈ pre ++ rs, cacheable_run q) →
      (pre ++ rs).Pairwise (fun a b => same_key a b = false) →
      ∃ c1, main_loop true c rs = some c1 ∧ filled_by c1 (pre ++ rs) ∧
        main_loop_output true c rs = rs.map (fun r => log_t.getting r.host r.request_uri) := by
  intro rs
  induction rs with
  | nil =>
    intro pre c hf _ _ _
    refine ⟨c, rfl, ?_, rfl⟩
    rw [List.append_nil]
    exact hf
  | cons r rest ih =>
    intro pre c hf hlen hall hdist
    have hlen1 : pre.length < MAX_CACHE_ENTRIES := by
      rw [List.length_cons] at hlen; omega
    have hpw := List.pairwise_append.mp hdist
    obtain ⟨c1, hrun, hf1, hout⟩ := filled_by_step c pre r hf hlen1
      (fun q hq => hall q (List.mem_append_left _ hq))
      (hall r (List.mem_append_right _ (List.mem_cons_self _ _)))
      (fun q hq => hpw.2.2 q hq r (List.mem_cons_self _ _))
    have heq : pre ++ [r] ++ rest = pre ++ r :: rest := by simp
    obtain ⟨c2, hloop, hf2, hout2⟩ := ih (pre ++ [r]) c1 hf1
      (by rw [List.length_append, List.length_singleton]; rw [List.length_cons] at hlen; omega)
      (by rw [heq]; exact hall) (by rw [heq]; exact hdist)
    refine ⟨c2, ?_, ?_, ?_⟩
    · unfold main_loop
      rw [hrun]
      exact hloop
    · rw [← heq]
      exact hf2
    · unfold main_loop_output
      rw [hrun, hout]
      dsimp only
      rw [hout2]
      rfl

/-- In a table filled by ten runs every slot is valid and slot `k` was last
touched with the counter at `k + 1`. -/
theorem filled_by_full (c : cache_t) (rs : List run_t) (hf : filled_by c rs)
    (hlen : rs.length = MAX_CACHE_ENTRIES) (hall : ∀ q ∈ rs, cacheable_run q)
    (k : Fin MAX_CACHE_ENTRIES) :
    ∃ q, rs[k.val]? = some q ∧ q ∈ rs ∧ c.entries k = committed_entry q (k.val + 1) ∧
      (c.entries k).valid = true ∧ (c.entries k).last_accessed = k.val + 1 ∧
      (c.entries k).host = q.host ∧ (c.entries k).uri = q.request_uri := by
  have hk : k.val < rs.length := by rw [hlen]; exact k.isLt
  have hq : rs[k.val]? = some rs[k.val] := List.getElem?_eq_getElem hk
  have hmem : rs[k.val] ∈ rs := List.getElem_mem hk
  have he : c.entries k = committed_entry rs[k.val] (k.val + 1) := by
    rw [hf.2.2 k, hq]
  obtain ⟨_, o, ho, _, _⟩ := hall _ hmem
  refine ⟨rs[k.val], hq, hmem, he, ?_, ?_, ?_, ?_⟩
  · rw [he, committed_entry_of _ o _ ho]
  · rw [he, committed_entry_of _ o _ ho]
  · rw [he, committed_entry_of _ o _ ho]
  · rw [he, committed_entry_of _ o _ ho]

/-- In a table filled by ten runs `cache_find_lru` returns slot 0. -/
theorem filled_by_lru (c : cache_t) (rs : List run_t) (hf : filled_by c rs)
    (hlen : rs.length = MAX_CACHE_ENTRIES) (hall : ∀ q ∈ rs, cacheable_run q) :
    cache_find_lru c = ((0 : Fin MAX_CACHE_ENTRIES).val : Int) := by
  obtain ⟨_, _, _, _, hv0, hl0, _, _⟩ := filled_by_full c rs hf hlen hall 0
  obtain ⟨i, hi, _, hmin⟩ := cache_find_lru_valid c
    ⟨0, hv0, by rw [hl0]; decide⟩
  obtain ⟨_, _, _, _, _, hli, _, _⟩ := filled_by_full c rs hf hlen hall i
  have h := hmin 0 hv0
  rw [hli, hl0] at h
  have hi0 : i = 0 := by
    apply Fin.ext
    have : (0 : Fin MAX_CACHE_ENTRIES).val = 0 := rfl
    omega
  rw [hi, hi0]

/-- The eleventh admission: the run ends, slot 0 holds the new run, the other
slots are unchanged, `size` is 10, and the only `Evicting` line that the run
prints names the run that slot 0 held. -/
theorem filled_by_full_step (c : cache_t) (rs : List run_t) (r : run_t)
    (hf : filled_by c rs) (hlen : rs.length = MAX_CACHE_ENTRIES)
    (hall : ∀ q ∈ rs, cacheable_run q) (hr : cacheable_run r)
    (hnew : ∀ q ∈ rs, same_key q r = false) :
    ∃ c1, handle_client_request_cache true c r = some c1 ∧ c1.size = 10 ∧
      c1.entries 0 = committed_entry r 11 ∧
      (∀ j, j ≠ 0 → c1.entries j = c.entries j) ∧
      (handle_client_request_output true c r).filter is_evicting
        = [log_t.evicting (c.entries 0).host (c.entries 0).uri] := by
  have hnone := filled_by_no_match c rs r hf hall hnew
  have hlru := filled_by_lru c rs hf hlen hall
  obtain ⟨_, _, _, _, hv0, _, _, _⟩ := filled_by_full c rs hf hlen hall 0
  obtain ⟨hkey, o, ho, hfit, hcb⟩ := hr
  have hsize : c.size = 10 := by rw [hf.1, hlen]; rfl
  have hseq : c.access_sequence = 10 := by rw [hf.2.1, hlen]
  have hen : (true && decide (r.total_request_len ≤ MAX_REQUEST_SIZE_TO_CACHE)) = true := by
    simp [hkey]
  have hnotroom : ¬ c.size < (MAX_CACHE_ENTRIES : Int) := by rw [hsize]; decide
  have hfull : c.size ≥ (MAX_CACHE_ENTRIES : Int) := by rw [hsize]; decide
  have hce := committed_entry_of r o 11 ho
  rcases request_lookup_miss true c r.request r.request_len r.total_request_len r.now_find
    r.now_scan hnone with hm | hm
  · -- the lookup is skipped: `cache_add` evicts
    have hadd : cache_add c r.request r.total_request_len o.complete_response
        o.complete_response_size r.host r.request_uri (extract_max_age o.header_accumulator)
        o.now_commit
        = some (fill_slot c 0 r.request r.total_request_len o.complete_response
            o.complete_response_size r.host r.request_uri
            (extract_max_age o.header_accumulator) o.now_commit, 1) := by
      unfold cache_add
      rw [if_neg (not_lt.mpr hkey), if_neg (not_lt.mpr hfit), if_neg hnotroom, hlru,
        slot_of_int_val]
    refine ⟨fill_slot c 0 r.request r.total_request_len o.complete_response
      o.complete_response_size r.host r.request_uri (extract_max_age o.header_accumulator)
      o.now_commit, ?_, ?_, ?_, ?_, ?_⟩
    · unfold handle_client_request_cache
      rw [hm.1, ho]
      dsimp only
      unfold request_commit
      rw [if_pos hen, if_pos hfit, if_pos hcb, if_neg (by simp), hadd]
      rfl
    · rw [fill_slot_size, hsize]
    · rw [fill_slot_entry, hce, hseq]
      rfl
    · intro j hj
      exact fill_slot_other _ _ _ _ _ _ _ _ _ _ _ hj
    · unfold handle_client_request_output
      rw [hm.1, hm.2, ho]
      dsimp only
      unfold request_commit_output
      rw [if_pos hen, if_pos hfit, if_pos hcb, if_neg (by simp)]
      unfold cache_add_output
      rw [if_neg (not_lt.mpr hkey), if_neg (not_lt.mpr hfit), if_neg hnotroom, hlru,
        slot_of_int_val]
      simp [hv0, is_evicting]
  · -- the lookup misses: `cache_prepare_eviction_if_needed` evicts, `cache_add` fills
    have hprep : (cache_prepare_eviction_if_needed c r.total_request_len).1
        = set_entry { c with size := c.size - 1 } 0 { c.entries 0 with valid := false } := by
      unfold cache_prepare_eviction_if_needed
      rw [if_neg (not_lt.mpr hkey), if_pos hfull, hlru, slot_of_int_val]
      simp [hv0]
    have hprepo : cache_prepare_eviction_output c r.total_request_len
        = [log_t.evicting (c.entries 0).host (c.entries 0).uri] := by
      unfold cache_prepare_eviction_output
      rw [if_neg (not_lt.mpr hkey), if_pos hfull, hlru, slot_of_int_val]
      simp [hv0]
    rw [hprep] at hm
    have hdroom : (set_entry { c with size := c.size - 1 } 0
        { c.entries 0 with valid := false }).size < (MAX_CACHE_ENTRIES : Int) := by
      show c.size - 1 < (MAX_CACHE_ENTRIES : Int)
      rw [hsize]; decide
    have hfirst : first_invalid (set_entry { c with size := c.size - 1 } 0
        { c.entries 0 with valid := false }) slots = some 0 := by
      rw [first_invalid_lowest]
      constructor
      · rw [set_entry_same]
      · intro j hj
        exact absurd hj (Fin.not_lt_zero j)
    have hadd : cache_add (set_entry { c with size := c.size - 1 } 0
        { c.entries 0 with valid := false }) r.request r.total_request_len o.complete_response
        o.complete_response_size r.host r.request_uri (extract_max_age o.header_accumulator)
        o.now_commit
        = some (fill_slot { (set_entry { c with size := c.size - 1 } 0
              { c.entries 0 with valid := false }) with size := c.size - 1 + 1 } 0 r.request
            r.total_request_len o.complete_response o.complete_response_size r.host
            r.request_uri (extract_max_age o.header_accumulator) o.now_commit, 1) := by
      unfold cache_add
      rw [if_neg (not_lt.mpr hkey), if_neg (not_lt.mpr hfit), if_pos hdroom, hfirst]
      rfl
    refine ⟨fill_slot { (set_entry { c with size := c.size - 1 } 0
        { c.entries 0 with valid := false }) with size := c.size - 1 + 1 } 0 r.request
      r.total_request_len o.complete_response o.complete_response_size r.host
      r.request_uri (extract_max_age o.header_accumulator) o.now_commit, ?_, ?_, ?_, ?_, ?_⟩
    · unfold handle_client_request_cache
      rw [hm.1, ho]
      dsimp only
      unfold request_commit
      rw [if_pos hen, if_pos hfit, if_pos hcb, if_neg (by simp), hadd]
      rfl
    · rw [fill_slot_size]
      show c.size - 1 + 1 = 10
      rw [hsize]; rfl
    · rw [fill_slot_entry, hce]
      show _ = _
      simp only [set_entry, hseq]
      rfl
    · intro j hj
      rw [fill_slot_other _ _ _ _ _ _ _ _ _ _ _ hj]
      show (set_entry { c with size := c.size - 1 } 0
        { c.entries 0 with valid := false }).entries j = c.entries j
      exact set_entry_other _ _ _ _ hj
    · unfold handle_client_request_output
      rw [hm.1, hm.2, hprepo, ho]
      dsimp only
      unfold request_commit_output
      rw [if_pos hen, if_pos hfit, if_pos hcb, if_neg (by simp)]
      unfold cache_add_output
      rw [if_neg (not_lt.mpr hkey), if_neg (not_lt.mpr hfit), if_pos hdroom]
      simp [is_evicting]

theorem main_loop_append (caching_enabled : Bool) :
    ∀ (xs ys : List run_t) (c c1 : cache_t), main_loop caching_enabled c xs = some c1 →
      main_loop caching_enabled c (xs ++ ys) = main_loop caching_enabled c1 ys ∧
      main_loop_output caching_enabled c (xs ++ ys)
        = main_loop_output caching_enabled c xs ++ main_loop_output caching_enabled c1 ys := by
  intro xs
  induction xs with
  | nil =>
    intro ys c c1 h
    simp only [main_loop, Option.some.injEq] at h
    subst h
    exact ⟨rfl, rfl⟩
  | cons r rest ih =>
    intro ys c c1 h
    unfold main_loop at h
    cases hrun : handle_client_request_cache caching_enabled c r with
    | none =>
      rw [hrun] at h
      exact absurd h (by simp)
    | some d =>
      rw [hrun] at h
      obtain ⟨h1, h2⟩ := ih ys d c1 h
      constructor
      · simp only [List.cons_append, main_loop, hrun]
        exact h1
      · simp only [List.cons_append, main_loop_output, hrun, List.append_assoc]
        exact congrArg (fun l => handle_client_request_output caching_enabled c r ++ l) h2

theorem filter_getting (rs : List run_t) :
    (rs.map (fun r => log_t.getting r.host r.request_uri)).filter is_evicting = [] := by
  induction rs with
  | nil => rfl
  | cons r rest ih =>
    rw [List.map_cons, List.filter_cons]
    simp only [is_evicting]
    exact ih

/-- C18. From the empty cache with caching enabled, eleven runs of
`handle_client_request` with pairwise distinct keys of at most 2000 bytes,
each answered by a cacheable origin response of at most 102400 bytes: the loop
ends with `size = 10`, no valid slot holds the key of the first run, each of
the ten runs after it has a valid slot with its key, response, host and uri,
and the only `Evicting` line printed names the host and uri of the first
run. -/
theorem eleven_requests_evict_first (now : Nat) (first last : run_t) (middle : List run_t)
    (hlen : middle.length = 9)
    (hall : ∀ r ∈ (first :: middle) ++ [last], cacheable_run r)
    (hdist : ((first :: middle) ++ [last]).Pairwise (fun a b => same_key a b = false)) :
    ∃ c1, main_loop true (cache_init now) ((first :: middle) ++ [last]) = some c1 ∧
      c1.size = 10 ∧
      (∀ i, key_matches c1 i first.request first.total_request_len = false) ∧
      (∀ r ∈ middle ++ [last], ∃ i o, r.origin = some o ∧
        key_matches c1 i r.request r.total_request_len = true ∧
        (c1.entries i).response = o.complete_response.take o.complete_response_size ∧
        (c1.entries i).response_len = o.complete_response_size ∧
        (c1.entries i).host = r.host ∧ (c1.entries i).uri = r.request_uri) ∧
      (main_loop_output true (cache_init now) ((first :: middle) ++ [last])).filter is_evicting
        = [log_t.evicting first.host first.request_uri] := by
  have hpw := List.pairwise_append.mp hdist
  have hten : (first :: middle).length = MAX_CACHE_ENTRIES := by
    rw [List.length_cons, hlen]
  have hallten : ∀ q ∈ first :: middle, cacheable_run q :=
    fun q hq => hall q (List.mem_append_left _ hq)
  have hlast : cacheable_run last :=
    hall last (List.mem_append_right _ (List.mem_singleton.mpr rfl))
  obtain ⟨c10, hloop, hf, hout⟩ := filled_by_loop (first :: middle) [] (cache_init now)
    (filled_by_init now)
    (le_of_eq (by rw [List.length_nil, Nat.zero_add]; exact hten)) hallten hpw.1
  rw [List.nil_append] at hf
  obtain ⟨c1, hrun, hsize, h0, hother, hev⟩ := filled_by_full_step c10 (first :: middle) last hf
    hten hallten hlast (fun q hq => hpw.2.2 q hq last (List.mem_singleton.mpr rfl))
  obtain ⟨happ, happo⟩ := main_loop_append true (first :: middle) [last] (cache_init now) c10
    hloop
  have hlast1 : main_loop true c10 [last] = some c1 := by
    unfold main_loop
    rw [hrun]
    rfl
  have hfirst0 : c10.entries 0 = committed_entry first 1 := by
    rw [hf.2.2 0]
    simp
  obtain ⟨_, of, hof, _, _⟩ := hallten first (List.mem_cons_self _ _)
  obtain ⟨_, ol, hol, _, _⟩ := hlast
  refine ⟨c1, ?_, hsize, ?_, ?_, ?_⟩
  · rw [happ]
    exact hlast1
  · intro i
    by_cases hi : i = 0
    · subst hi
      refine committed_entry_no_match c1 0 last first 11
        (hall last (List.mem_append_right _ (List.mem_singleton.mpr rfl))) h0 ?_
      rw [same_key_comm]
      exact hpw.2.2 first (List.mem_cons_self _ _) last (List.mem_singleton.mpr rfl)
    · obtain ⟨q, hq, hqmem, he, _, _, _, _⟩ := filled_by_full c10 (first :: middle) hf hten
        hallten i
      have hival : i.val ≠ 0 := fun h => hi (Fin.ext h)
      obtain ⟨n, hn⟩ := Nat.exists_eq_succ_of_ne_zero hival
      rw [hn, List.getElem?_cons_succ] at hq
      have hqm : q ∈ middle := List.getElem?_mem hq
      refine committed_entry_no_match c1 i q first (i.val + 1) (hallten q hqmem)
        (by rw [hother i hi]; exact he) ?_
      rw [same_key_comm]
      exact (List.pairwise_cons.mp hpw.1).1 q hqm
  · intro r hr
    rcases List.mem_append.mp hr with hm | hm
    · obtain ⟨n, hn⟩ := List.mem_iff_getElem?.mp hm
      have hnlt : n < middle.length := by
        by_contra hge
        rw [List.getElem?_eq_none_iff.mpr (not_lt.mp hge)] at hn
        exact absurd hn (by simp)
      have hbound : n + 1 < MAX_CACHE_ENTRIES := by
        have : MAX_CACHE_ENTRIES = 10 := rfl
        omega
      have hslot : c10.entries ⟨n + 1, hbound⟩ = committed_entry r (n + 1 + 1) := by
        rw [hf.2.2 ⟨n + 1, hbound⟩]
        simp only [List.getElem?_cons_succ, hn]
      have hne : (⟨n + 1, hbound⟩ : Fin MAX_CACHE_ENTRIES) ≠ 0 := by
        intro h
        have := congrArg Fin.val h
        simp at this
      have hslot1 : c1.entries ⟨n + 1, hbound⟩ = committed_entry r (n + 1 + 1) := by
        rw [hother _ hne]; exact hslot
      obtain ⟨_, o, ho, _, _⟩ := hallten r (List.mem_cons_of_mem _ hm)
      refine ⟨⟨n + 1, hbound⟩, o, ho, committed_entry_match c1 _ r o _ ho hslot1, ?_, ?_, ?_, ?_⟩
      · rw [hslot1, committed_entry_of r o _ ho]
      · rw [hslot1, committed_entry_of r o _ ho]
      · rw [hslot1, committed_entry_of r o _ ho]
      · rw [hslot1, committed_entry_of r o _ ho]
    · rw [List.mem_singleton] at hm
      subst hm
      refine ⟨0, ol, hol, committed_entry_match c1 0 r ol 11 hol h0, ?_, ?_, ?_, ?_⟩
      · rw [h0, committed_entry_of r ol _ hol]
      · rw [h0, committed_entry_of r ol _ hol]
      · rw [h0, committed_entry_of r ol _ hol]
      · rw [h0, committed_entry_of r ol _ hol]
  · rw [happo, hout, List.filter_append, filter_getting, List.nil_append]
    have hone : main_loop_output true c10 [last]
        = handle_client_request_output true c10 last := by
      unfold main_loop_output
      rw [hrun]
      simp [main_loop_output]
    rw [hone, hev, hfirst0, committed_entry_of first of 1 hof]

theorem letter_run_cacheable (ch : Char) : cacheable_run (letter_run ch) :=
  ⟨(by decide : 28 ≤ MAX_REQUEST_SIZE_TO_CACHE), _, rfl, by decide, by decide⟩

/-- Witness of C18: the requests `GET /a` to `GET /k`; after the eleventh the
table is full, `/a` is gone, `/b` and `/k` are held, and the only `Evicting`
line names `h /a`. -/
theorem eleven_requests_evict_first_witness :
    ∃ c1, main_loop true (cache_init 0)
        ((letter_run 'a' :: "bcdefghij".toList.map letter_run) ++ [letter_run 'k']) = some c1 ∧
      c1.size = 10 ∧
      (∀ i, key_matches c1 i (letter_run 'a').request 28 = false) ∧
      (∃ i, key_matches c1 i (letter_run 'b').request 28 = true) ∧
      (∃ i, key_matches c1 i (letter_run 'k').request 28 = true) ∧
      (main_loop_output true (cache_init 0)
        ((letter_run 'a' :: "bcdefghij".toList.map letter_run) ++ [letter_run 'k'])).filter
          is_evicting = [log_t.evicting ['h'] ['/', 'a']] := by
  have hall : ∀ r ∈ (letter_run 'a' :: "bcdefghij".toList.map letter_run) ++ [letter_run 'k'],
      cacheable_run r := by
    intro r hr
    rcases List.mem_append.mp hr with h | h
    · rcases List.mem_cons.mp h with h | h
      · rw [h]; exact letter_run_cacheable _
      · obtain ⟨ch, _, hch⟩ := List.mem_map.mp h
        rw [← hch]; exact letter_run_cacheable _
    · rw [List.mem_singleton.mp h]; exact letter_run_cacheable _
  obtain ⟨c1, h1, h2, h3, h4, h5⟩ := eleven_requests_evict_first 0 (letter_run 'a')
    (letter_run 'k') ("bcdefghij".toList.map letter_run) (by decide) hall (by decide)
  obtain ⟨ib, _, _, hb, _⟩ := h4 (letter_run 'b')
    (List.mem_append_left _ (List.mem_map.mpr ⟨'b', by decide, rfl⟩))
  obtain ⟨ik, _, _, hk, _⟩ := h4 (letter_run 'k')
    (List.mem_append_right _ (List.mem_singleton.mpr rfl))
  exact ⟨c1, h1, h2, h3, ⟨ib, hb⟩, ⟨ik, hk⟩, h5⟩

/-! ## The key and the bytes behind it -/

theorem cache_find_loop_take (c : cache_t) (request request2 : List Char)
    (request_len now : Nat) (h : request2.take request_len = request.take request_len)
    (l : List (Fin MAX_CACHE_ENTRIES)) :
    cache_find_loop c request2 request_len now l = cache_find_loop c request request_len now l := by
  induction l with
  | nil => rfl
  | cons i rest ih =>
    simp only [cache_find_loop, key_matches_take c i request request2 request_len h, ih]

theorem stale_scan_take (c : cache_t) (request request2 : List Char)
    (total_request_len : Nat) (now : Fin MAX_CACHE_ENTRIES → Nat)
    (h : request2.take total_request_len = request.take total_request_len)
    (l : List (Fin MAX_CACHE_ENTRIES)) :
    stale_scan c request2 total_request_len now l
      = stale_scan c request total_request_len now l := by
  induction l with
  | nil => rfl
  | cons i rest ih =>
    simp only [stale_scan, key_matches_take c i request request2 total_request_len h, ih]

/-- Two received buffers with the same header block that are both at most 2000
bytes long, or both longer, are treated alike by one run of
`handle_client_request`: the same lookup result and the same cache afterwards. -/
theorem same_key_same_treatment (caching_enabled : Bool) (c : cache_t) (r r2 : run_t)
    (hlen : r2.total_request_len = r.total_request_len)
    (hkey : r2.request.take r.total_request_len = r.request.take r.total_request_len)
    (hguard : (r2.request_len ≤ MAX_REQUEST_SIZE_TO_CACHE) ↔
      (r.request_len ≤ MAX_REQUEST_SIZE_TO_CACHE))
    (hclock : r2.now_find = r.now_find ∧ r2.now_scan = r.now_scan)
    (hrest : r2.host = r.host ∧ r2.request_uri = r.request_uri ∧ r2.origin = r.origin) :
    request_lookup caching_enabled c r2.request r2.request_len r2.total_request_len r2.now_find
        r2.now_scan
      = request_lookup caching_enabled c r.request r.request_len r.total_request_len r.now_find
        r.now_scan ∧
    handle_client_request_cache caching_enabled c r2
      = handle_client_request_cache caching_enabled c r := by
  have hg : decide (r2.request_len ≤ MAX_REQUEST_SIZE_TO_CACHE)
      = decide (r.request_len ≤ MAX_REQUEST_SIZE_TO_CACHE) := by
    rw [decide_eq_decide]; exact hguard
  have hfind : cache_find c r2.request r.total_request_len r.now_find
      = cache_find c r.request r.total_request_len r.now_find :=
    cache_find_loop_take c r.request r2.request r.total_request_len r.now_find hkey slots
  have hlook : request_lookup caching_enabled c r2.request r2.request_len r2.total_request_len
      r2.now_find r2.now_scan
      = request_lookup caching_enabled c r.request r.request_len r.total_request_len r.now_find
        r.now_scan := by
    unfold request_lookup
    rw [hlen, hclock.1, hclock.2, hg, hfind]
    simp only [stale_scan_take _ r.request r2.request r.total_request_len r.now_scan hkey]
  refine ⟨hlook, ?_⟩
  unfold handle_client_request_cache
  rw [hlook, hrest.1, hrest.2.1, hrest.2.2, hlen]
  cases request_lookup caching_enabled c r.request r.request_len r.total_request_len r.now_find
    r.now_scan with
  | served c1 i => rfl
  | fetch c1 s =>
    cases r.origin with
    | none => rfl
    | some o =>
      simp only [request_commit, replace_stale, cache_add, fill_slot, hkey]

/-- C21, failing input.  `run_a` and `run_a_long` carry the same 28-byte header
block and differ only in the 1973 bytes behind the terminator.  On the cache
that holds this key fresh in slot 0, at the same clock reading, `run_a` is a
hit served from slot 0 and admits nothing, while `run_a_long` is not looked up,
goes to the origin, and its response is admitted into slot 1. -/
theorem trailing_bytes_change_treatment :
    run_a_long.total_request_len = run_a.total_request_len ∧
    run_a_long.request.take 28 = run_a.request.take 28 ∧
    run_a_long.request = run_a.request ++ List.replicate 1973 'x' ∧
    run_a_long.now_find = run_a.now_find ∧
    request_lookup true after_run_a run_a.request run_a.request_len run_a.total_request_len
        run_a.now_find run_a.now_scan
      = lookup_t.served (cache_update_lru after_run_a 0) 0 ∧
    request_lookup true after_run_a run_a_long.request run_a_long.request_len
        run_a_long.total_request_len run_a_long.now_find run_a_long.now_scan
      = lookup_t.fetch after_run_a (-1) ∧
    handle_client_request_cache true after_run_a run_a = some (cache_update_lru after_run_a 0) ∧
    handle_client_request_cache true after_run_a run_a_long = some after_run_a_long ∧
    (after_run_a.entries 1).valid = false ∧ (after_run_a_long.entries 1).valid = true ∧
    ((cache_update_lru after_run_a 0).entries 1).valid = false :=
  ⟨rfl, by decide, rfl, rfl, rfl, rfl, rfl, rfl, by decide, by decide, by decide⟩

/-! ## The counter `access_sequence` -/

theorem quiet_refl (c : cache_t) : quiet c c :=
  ⟨rfl, fun _ => ⟨rfl, fun h => h⟩⟩

theorem quiet_trans (c c1 c2 : cache_t) (h1 : quiet c c1) (h2 : quiet c1 c2) : quiet c c2 :=
  ⟨h2.1.trans h1.1, fun i =>
    ⟨((h2.2 i).1).trans (h1.2 i).1, fun h => (h1.2 i).2 ((h2.2 i).2 h)⟩⟩

theorem quiet_touched (c c1 c2 : cache_t) (k : Fin MAX_CACHE_ENTRIES)
    (h1 : quiet c c1) (h2 : touched c1 c2 k) : touched c c2 k := by
  obtain ⟨ha, hk, ho⟩ := h2
  refine ⟨by rw [ha, h1.1], by rw [hk, h1.1], ?_⟩
  intro i hi
  exact ⟨((ho i hi).1).trans (h1.2 i).1, fun h => (h1.2 i).2 ((ho i hi).2 h)⟩

theorem cache_update_lru_effect (c : cache_t) (index : Fin MAX_CACHE_ENTRIES)
    (hw : c.access_sequence < UINT64_MAX) :
    ((c.entries index).valid = true → touched c (cache_update_lru c index) index) ∧
    ((c.entries index).valid = false → cache_update_lru c index = c) := by
  have hmod : (c.access_sequence + 1) % 2 ^ 64 = c.access_sequence + 1 :=
    Nat.mod_eq_of_lt (by have : UINT64_MAX = 2 ^ 64 - 1 := rfl; omega)
  constructor
  · intro hv
    unfold cache_update_lru
    rw [if_pos hv]
    refine ⟨?_, ?_, ?_⟩
    · show (c.access_sequence + 1) % 2 ^ 64 = _
      exact hmod
    · rw [set_entry_same]
      exact hmod
    · intro i hi
      rw [set_entry_other _ _ _ _ hi]
      exact ⟨rfl, fun h => h⟩
  · intro hv
    unfold cache_update_lru
    rw [if_neg (by rw [hv]; exact Bool.false_ne_true)]

theorem cache_update_lru_step (c : cache_t) (index : Fin MAX_CACHE_ENTRIES)
    (hw : c.access_sequence < UINT64_MAX) :
    quiet c (cache_update_lru c index) ∨ ∃ k, touched c (cache_update_lru c index) k := by
  cases hv : (c.entries index).valid with
  | true => exact Or.inr ⟨index, (cache_update_lru_effect c index hw).1 hv⟩
  | false =>
    rw [(cache_update_lru_effect c index hw).2 hv]
    exact Or.inl (quiet_refl c)

theorem cache_find_step (c : cache_t) (request : List Char) (request_len now : Nat)
    (hw : c.access_sequence < UINT64_MAX) :
    quiet c (cache_find c request request_len now).1 ∨
      ∃ k, touched c (cache_find c request request_len now).1 k := by
  rcases cache_find_cases c request request_len now with h | ⟨i, h, _, _⟩
  · rw [h]; exact Or.inl (quiet_refl c)
  · rw [h]; exact cache_update_lru_step c i hw

theorem fill_slot_touched (c : cache_t) (index : Fin MAX_CACHE_ENTRIES) (size : Int)
    (request : List Char) (request_len : Nat) (response : List Char) (response_len : Nat)
    (host uri : List Char) (max_age now : Nat) (hw : c.access_sequence < UINT64_MAX) :
    touched c (fill_slot { c with size := size } index request request_len response
      response_len host uri max_age now) index := by
  have hmod : (c.access_sequence + 1) % 2 ^ 64 = c.access_sequence + 1 :=
    Nat.mod_eq_of_lt (by have : UINT64_MAX = 2 ^ 64 - 1 := rfl; omega)
  refine ⟨?_, ?_, ?_⟩
  · show (c.access_sequence + 1) % 2 ^ 64 = _
    exact hmod
  · rw [fill_slot_entry]
    exact hmod
  · intro i hi
    rw [fill_slot_other _ _ _ _ _ _ _ _ _ _ _ hi]
    exact ⟨rfl, fun h => h⟩

theorem cache_add_step (c c1 : cache_t) (request : List Char) (request_len : Nat)
    (response : List Char) (response_len : Nat) (host uri : List Char) (max_age now : Nat)
    (ret : Int) (hw : c.access_sequence < UINT64_MAX)
    (h : cache_add c request request_len response response_len host uri max_age now
      = some (c1, ret)) :
    quiet c c1 ∨ ∃ k, touched c c1 k := by
  rcases cache_add_cases c c1 request request_len response response_len host uri max_age now
    ret h with h1 | ⟨index, size, h1⟩
  · rw [h1]; exact Or.inl (quiet_refl c)
  · rw [h1]
    exact Or.inr ⟨index, fill_slot_touched c index size request request_len response
      response_len host uri max_age now hw⟩

theorem cache_prepare_quiet (c : cache_t) (request_len : Nat) :
    quiet c (cache_prepare_eviction_if_needed c request_len).1 :=
  ⟨cache_prepare_access_sequence c request_len, fun i =>
    ⟨cache_prepare_last_accessed c request_len i, (cache_prepare_sub c request_len i).1⟩⟩

theorem cache_cleanup_quiet (c : cache_t) : quiet c (cache_cleanup c) := by
  refine ⟨rfl, ?_⟩
  intro i
  unfold cache_cleanup
  by_cases hv : (c.entries i).valid = true
  · simp [hv]
  · simp [hv]

theorem release_stale_quiet (c d : cache_t) (stale_entry_index : Int)
    (h : release_stale c stale_entry_index = some d) : quiet c d := by
  unfold release_stale at h
  split at h
  · split at h
    · rename_i s _
      simp only [Option.some.injEq] at h
      subst h
      refine ⟨rfl, ?_⟩
      intro i
      by_cases hi : i = s
      · subst hi; simp [set_entry]
      · rw [set_entry_other _ _ _ _ hi]
        exact ⟨rfl, fun h => h⟩
    · exact absurd h (by simp)
  · simp only [Option.some.injEq] at h
    subst h
    exact quiet_refl c

theorem replace_stale_step (c : cache_t) (s : Fin MAX_CACHE_ENTRIES) (request : List Char)
    (total_request_len : Nat) (complete_response : List Char) (complete_response_size : Nat)
    (host request_uri : List Char) (max_age now : Nat) (hw : c.access_sequence < UINT64_MAX) :
    quiet c (replace_stale c s request total_request_len complete_response
        complete_response_size host request_uri max_age now) ∨
      ∃ k, touched c (replace_stale c s request total_request_len complete_response
        complete_response_size host request_uri max_age now) k := by
  have hq : quiet c (set_entry c s
      { c.entries s with
        request := request.take total_request_len, request_len := total_request_len,
        response := complete_response.take complete_response_size,
        response_len := complete_response_size,
        host := host, uri := request_uri, cached_at := now, max_age := max_age }) := by
    refine ⟨rfl, ?_⟩
    intro i
    by_cases hi : i = s
    · subst hi; simp [set_entry]
    · rw [set_entry_other _ _ _ _ hi]
      exact ⟨rfl, fun h => h⟩
  unfold replace_stale
  rcases cache_update_lru_step _ s (show (set_entry c s _).access_sequence < UINT64_MAX from hw)
    with h | ⟨k, h⟩
  · exact Or.inl (quiet_trans _ _ _ hq h)
  · exact Or.inr ⟨k, quiet_touched _ _ _ k hq h⟩

theorem request_lookup_step (caching_enabled : Bool) (c : cache_t) (request : List Char)
    (request_len total_request_len now_find : Nat) (now_scan : Fin MAX_CACHE_ENTRIES → Nat)
    (hw : c.access_sequence < UINT64_MAX) :
    (∀ c1 i, request_lookup caching_enabled c request request_len total_request_len now_find
        now_scan = lookup_t.served c1 i → quiet c c1 ∨ ∃ k, touched c c1 k) ∧
    (∀ c1 s, request_lookup caching_enabled c request request_len total_request_len now_find
        now_scan = lookup_t.fetch c1 s → quiet c c1) := by
  unfold request_lookup
  by_cases hen : (caching_enabled && decide (request_len ≤ MAX_REQUEST_SIZE_TO_CACHE)) = true
  · rw [if_pos hen]
    rcases cache_find_cases c request total_request_len now_find with h | ⟨i, h, _, _⟩
    · rw [h]
      simp only [ne_eq, not_true_eq_false, if_false]
      by_cases hs : stale_scan c request total_request_len now_scan slots = -1
      · rw [if_pos hs]
        constructor
        · intro c1 i h1
          exact lookup_t.noConfusion h1
        · intro c1 s h1
          simp only [lookup_t.fetch.injEq] at h1
          rw [← h1.1]
          exact cache_prepare_quiet c total_request_len
      · rw [if_neg hs]
        constructor
        · intro c1 i h1
          exact lookup_t.noConfusion h1
        · intro c1 s h1
          simp only [lookup_t.fetch.injEq] at h1
          rw [← h1.1]
          exact quiet_refl c
    · rw [h]
      have hne : ((i.val : Int)) ≠ -1 := by omega
      simp only [ne_eq, hne, not_false_eq_true, if_true]
      constructor
      · intro c1 j h1
        simp only [lookup_t.served.injEq] at h1
        rw [← h1.1]
        exact cache_update_lru_step c i hw
      · intro c1 s h1
        exact lookup_t.noConfusion h1
  · rw [if_neg hen]
    constructor
    · intro c1 i h1
      exact lookup_t.noConfusion h1
    · intro c1 s h1
      simp only [lookup_t.fetch.injEq] at h1
      rw [← h1.1]
      exact quiet_refl c

theorem request_commit_step (caching_enabled : Bool) (c c2 : cache_t) (stale_entry_index : Int)
    (request : List Char) (total_request_len : Nat) (complete_response : List Char)
    (complete_response_size : Nat) (header_accumulator host request_uri : List Char)
    (now : Nat) (hw : c.access_sequence < UINT64_MAX)
    (h : request_commit caching_enabled c stale_entry_index request total_request_len
      complete_response complete_response_size header_accumulator host request_uri now
      = some c2) :
    quiet c c2 ∨ ∃ k, touched c c2 k := by
  unfold request_commit at h
  split at h
  · split at h
    · split at h
      · split at h
        · split at h
          · rename_i s _
            simp only [Option.some.injEq] at h
            rw [← h]
            exact replace_stale_step c s request total_request_len complete_response
              complete_response_size host request_uri _ now hw
          · exact absurd h (by simp)
        · dsimp only at h
          cases hadd : cache_add c request total_request_len complete_response
            complete_response_size host request_uri (extract_max_age header_accumulator) now with
          | none =>
            rw [hadd] at h
            exact absurd h (by simp)
          | some pr =>
            rw [hadd] at h
            simp only [Option.map_some', Option.some.injEq] at h
            obtain ⟨d, ret⟩ := pr
            simp only at h
            subst h
            exact cache_add_step c d request total_request_len complete_response
              complete_response_size host request_uri _ now ret hw hadd
      · exact Or.inl (release_stale_quiet c c2 stale_entry_index h)
    · exact Or.inl (release_stale_quiet c c2 stale_entry_index h)
  · simp only [Option.some.injEq] at h
    rw [← h]
    exact Or.inl (quiet_refl c)

theorem handle_client_request_step (caching_enabled : Bool) (c c1 : cache_t) (r : run_t)
    (hw : c.access_sequence < UINT64_MAX)
    (h : handle_client_request_cache caching_enabled c r = some c1) :
    quiet c c1 ∨ ∃ k, touched c c1 k := by
  obtain ⟨hserved, hfetch⟩ := request_lookup_step caching_enabled c r.request r.request_len
    r.total_request_len r.now_find r.now_scan hw
  unfold handle_client_request_cache at h
  cases hl : request_lookup caching_enabled c r.request r.request_len r.total_request_len
    r.now_find r.now_scan with
  | served d i =>
    rw [hl] at h
    simp only [Option.some.injEq] at h
    rw [← h]
    exact hserved d i hl
  | fetch d s =>
    rw [hl] at h
    have hq := hfetch d s hl
    cases ho : r.origin with
    | none =>
      rw [ho] at h
      simp only [Option.some.injEq] at h
      rw [← h]
      exact Or.inl hq
    | some o =>
      rw [ho] at h
      simp only at h
      rcases request_commit_step caching_enabled d c1 s r.request r.total_request_len
        o.complete_response o.complete_response_size o.header_accumulator r.host r.request_uri
        o.now_commit (by rw [hq.1]; exact hw) h with h2 | ⟨k, h2⟩
      · exact Or.inl (quiet_trans _ _ _ hq h2)
      · exact Or.inr ⟨k, quiet_touched _ _ _ k hq h2⟩

/-- Every step is quiet or touches one slot. -/
theorem cache_step_effect (c c1 : cache_t) (hw : c.access_sequence < UINT64_MAX)
    (h : cache_step c c1) : quiet c c1 ∨ ∃ k, touched c c1 k := by
  cases h with
  | add _ _ request request_len response response_len host uri max_age now ret hadd =>
    exact cache_add_step c c1 request request_len response response_len host uri max_age now
      ret hw hadd
  | find _ request request_len now => exact cache_find_step c request request_len now hw
  | update_lru _ index => exact cache_update_lru_step c index hw
  | prepare _ request_len => exact Or.inl (cache_prepare_quiet c request_len)
  | cleanup _ => exact Or.inl (cache_cleanup_quiet c)
  | run caching_enabled _ _ r hrun =>
    exact handle_client_request_step caching_enabled c c1 r hw hrun

theorem lru_inv_init (now : Nat) : lru_inv (cache_init now) := by
  constructor
  · intro i
    exact Nat.le_refl 0
  · intro i j hi
    exact absurd hi (by simp [cache_init, zero_entry])

theorem lru_inv_step (c c1 : cache_t) (hinv : lru_inv c)
    (h : quiet c c1 ∨ ∃ k, touched c c1 k) : lru_inv c1 := by
  obtain ⟨hb, hd⟩ := hinv
  rcases h with ⟨hs, hq⟩ | ⟨k, hs, hk, ho⟩
  · constructor
    · intro i
      rw [(hq i).1, hs]
      exact hb i
    · intro i j hi hj hij
      rw [(hq i).1, (hq j).1]
      exact hd i j ((hq i).2 hi) ((hq j).2 hj) hij
  · constructor
    · intro i
      by_cases hi : i = k
      · rw [hi, hk, hs]
      · rw [(ho i hi).1, hs]
        exact Nat.le_succ_of_le (hb i)
    · intro i j hi hj hij
      by_cases hik : i = k
      · have hjk : j ≠ k := fun h => hij (hik.trans h.symm)
        rw [hik, hk, (ho j hjk).1]
        have := hb j
        omega
      · by_cases hjk : j = k
        · rw [hjk, hk, (ho i hik).1]
          have := hb i
          omega
        · rw [(ho i hik).1, (ho j hjk).1]
          exact hd i j ((ho i hik).2 hi) ((ho j hjk).2 hj) hij

theorem counter_reachable_inv (c : cache_t) (h : counter_reachable c) : lru_inv c := by
  induction h with
  | init now => exact lru_inv_init now
  | step c c1 _ hw hstep ih => exact lru_inv_step c c1 ih (cache_step_effect c c1 hw hstep)

theorem counter_advances_of_effect (c c1 : cache_t)
    (h : quiet c c1 ∨ ∃ k, touched c c1 k) : counter_advances c c1 := by
  rcases h with ⟨hs, hq⟩ | ⟨k, hs, hk, ho⟩
  · refine ⟨by rw [hs], ?_⟩
    intro i hi
    exact absurd (hq i).1 hi
  · refine ⟨by rw [hs]; exact Nat.le_succ _, ?_⟩
    intro i hi
    by_cases hik : i = k
    · rw [hik, hk, hs]
      exact ⟨rfl, rfl⟩
    · exact absurd (ho i hik).1 hi

/-- C22. In every cache state reached from `cache_init` without a wrap of the
64-bit counter, two different valid slots differ in `last_accessed`, and no
`last_accessed` (of a valid slot or of any other) is above `access_sequence`.
From such a state, whose counter is below `UINT64_MAX`: `cache_update_lru` on a
valid slot, a `cache_find` that returns a slot, a `cache_add` that returns 1
and the replacement of a valid stale slot each store `access_sequence + 1`,
which is above every `last_accessed` of the table; and after any step the
counter is not lower, and a slot whose `last_accessed` differs holds the new
counter value, the old one plus one. -/
theorem last_accessed_distinct_and_increasing (c : cache_t) (h : counter_reachable c) :
    (∀ i j, (c.entries i).valid = true → (c.entries j).valid = true → i ≠ j →
      (c.entries i).last_accessed ≠ (c.entries j).last_accessed) ∧
    (∀ i, (c.entries i).last_accessed ≤ c.access_sequence) ∧
    (c.access_sequence < UINT64_MAX →
      (∀ j, (c.entries j).last_accessed < c.access_sequence + 1) ∧
      (∀ index, (c.entries index).valid = true →
        ((cache_update_lru c index).entries index).last_accessed = c.access_sequence + 1) ∧
      (∀ request request_len now (i : Fin MAX_CACHE_ENTRIES),
        (cache_find c request request_len now).2 = (i.val : Int) →
        ((cache_find c request request_len now).1.entries i).last_accessed
          = c.access_sequence + 1) ∧
      (∀ c1 request request_len response response_len host uri max_age now,
        cache_add c request request_len response response_len host uri max_age now
          = some (c1, 1) →
        ∃ index, (c1.entries index).valid = true ∧
          (c1.entries index).request = request.take request_len ∧
          (c1.entries index).last_accessed = c.access_sequence + 1) ∧
      (∀ s request total_request_len complete_response complete_response_size host
          request_uri max_age now,
        (c.entries s).valid = true →
        ((replace_stale c s request total_request_len complete_response
          complete_response_size host request_uri max_age now).entries s).last_accessed
          = c.access_sequence + 1) ∧
      (∀ c1, cache_step c c1 → counter_advances c c1)) := by
  have hinv := counter_reachable_inv c h
  refine ⟨hinv.2, hinv.1, ?_⟩
  intro hw
  have hmod : (c.access_sequence + 1) % 2 ^ 64 = c.access_sequence + 1 :=
    Nat.mod_eq_of_lt (by have : UINT64_MAX = 2 ^ 64 - 1 := rfl; omega)
  refine ⟨fun j => Nat.lt_succ_of_le (hinv.1 j), ?_, ?_, ?_, ?_, ?_⟩
  · intro index hv
    exact ((cache_update_lru_effect c index hw).1 hv).2.1
  · intro request request_len now i hi
    rcases cache_find_cases c request request_len now with h1 | ⟨k, h1, hk, _⟩
    · rw [h1] at hi
      simp only at hi
      omega
    · rw [h1] at hi ⊢
      simp only at hi ⊢
      have hik : i = k := by
        apply Fin.ext
        omega
      rw [hik]
      exact ((cache_update_lru_effect c k hw).1
        ((key_matches_iff c k request request_len).mp hk).1).2.1
  · intro c1 request request_len response response_len host uri max_age now hadd
    obtain ⟨_, _, index, size, hc1⟩ := cache_add_success c c1 request request_len response
      response_len host uri max_age now hadd
    have he := fill_slot_entry { c with size := size } index request request_len response
      response_len host uri max_age now
    rw [← hc1] at he
    refine ⟨index, by rw [he], by rw [he], ?_⟩
    rw [he]
    exact hmod
  · intro s request total_request_len complete_response complete_response_size host
      request_uri max_age now hv
    unfold replace_stale
    exact ((cache_update_lru_effect _ s
      (show (set_entry c s _).access_sequence < UINT64_MAX from hw)).1
      (by rw [set_entry_same]; exact hv)).2.1
  · intro c1 hstep
    exact counter_advances_of_effect c c1 (cache_step_effect c c1 hw hstep)

theorem after_run_b_counter_reachable : counter_reachable after_run_b :=
  counter_reachable.step after_run_a after_run_b
    (counter_reachable.step (cache_init 0) after_run_a (counter_reachable.init 0) (by decide)
      (cache_step.run true (cache_init 0) after_run_a run_a rfl))
    (by decide) (cache_step.run true after_run_a after_run_b run_b rfl)

/-- Witness of C22: after the runs of `request_a` and `request_b` slots 0 and 1
are valid with different `last_accessed`, neither above the counter. -/
theorem last_accessed_distinct_and_increasing_witness :
    counter_reachable after_run_b ∧
    (after_run_b.entries 0).last_accessed ≠ (after_run_b.entries 1).last_accessed ∧
    (after_run_b.entries 1).last_accessed ≤ after_run_b.access_sequence :=
  ⟨after_run_b_counter_reachable,
   (last_accessed_distinct_and_increasing after_run_b after_run_b_counter_reachable).1 0 1
     (by decide) (by decide) (by decide),
   (last_accessed_distinct_and_increasing after_run_b after_run_b_counter_reachable).2.1 1⟩

/-! ## The request URI -/

theorem strchr_none (x : Char) : ∀ s : List Char, x ∉ s → strchr s x = none := by
  intro s
  induction s with
  | nil => intro _; rfl
  | cons c cs ih =>
    intro h
    have hc : (c == x) = false := by
      rw [beq_eq_false_iff_ne]
      intro hcx
      exact h (by rw [hcx]; exact List.mem_cons_self _ _)
    unfold strchr
    simp only [hc, Bool.false_eq_true, if_false]
    exact ih (fun hm => h (List.mem_cons_of_mem _ hm))

theorem strchr_split (x : Char) (t : List Char) :
    ∀ a : List Char, x ∉ a → strchr (a ++ x :: t) x = some (x :: t) := by
  intro a
  induction a with
  | nil =>
    intro _
    simp [strchr]
  | cons c cs ih =>
    intro h
    have hc : (c == x) = false := by
      rw [beq_eq_false_iff_ne]
      intro hcx
      exact h (by rw [hcx]; exact List.mem_cons_self _ _)
    rw [List.cons_append]
    unfold strchr
    simp only [hc, Bool.false_eq_true, if_false]
    exact ih (fun hm => h (List.mem_cons_of_mem _ hm))

/-- The function `strchr` finds nothing, or a suffix that is not longer than
the string. -/
theorem strchr_length (x : Char) :
    ∀ (s suf : List Char), strchr s x = some suf → suf.length ≤ s.length := by
  intro s
  induction s with
  | nil => intro suf h; simp [strchr] at h
  | cons c cs ih =>
    intro suf h
    unfold strchr at h
    by_cases hc : (c == x) = true
    · rw [if_pos hc] at h
      simp only [Option.some.injEq] at h
      rw [← h]
    · rw [if_neg hc] at h
      have := ih suf h
      simp only [List.length_cons]
      omega

theorem strstr_crlf_none_iff (s : List Char) : strstr s crlf = none ↔ ¬ crlf <:+: s := by
  induction s with
  | nil =>
    simp only [strstr, crlf, List.isEmpty_cons, Bool.false_eq_true, if_false, true_iff]
    intro h
    have := List.IsInfix.length_le h
    simp at this
  | cons c cs ih =>
    unfold strstr
    by_cases hx : crlf.isPrefixOf (c :: cs) = true
    · rw [if_pos hx]
      simp only [false_iff, not_not, reduceCtorEq]
      exact (List.isPrefixOf_iff_prefix.mp hx).isInfix
    · rw [if_neg hx, ih, List.infix_cons_iff]
      have hp : ¬ crlf <+: c :: cs := fun h => hx (List.isPrefixOf_iff_prefix.mpr h)
      constructor
      · intro h1 h2
        rcases h2 with h2 | h2
        · exact hp h2
        · exact h1 h2
      · intro h1 h2
        exact h1 (Or.inr h2)

/-- A search for a space that starts in a text without space, in front of a
CRLF, ends in `NULL` or behind that CRLF. -/
theorem strchr_past_line (t rest : List Char) (ht : ' ' ∉ t) :
    strchr (t ++ crlf ++ rest) ' ' = none ∨
    ∃ second, strchr (t ++ crlf ++ rest) ' ' = some second ∧
      second.length ≤ (crlf ++ rest).length := by
  by_cases hr : ' ' ∈ rest
  · right
    obtain ⟨r1, r2, hrest, hr1⟩ := List.eq_append_cons_of_mem hr
    have hnot : ' ' ∉ t ++ crlf ++ r1 := by
      intro hm
      rcases List.mem_append.mp hm with hm | hm
      · rcases List.mem_append.mp hm with hm | hm
        · exact ht hm
        · simp [crlf] at hm
      · exact hr1 hm
    refine ⟨' ' :: r2, ?_, ?_⟩
    · rw [hrest, ← List.append_assoc]
      exact strchr_split ' ' r2 _ hnot
    · rw [hrest]
      simp only [List.length_append, List.length_cons]
      omega
  · left
    apply strchr_none
    intro hm
    rcases List.mem_append.mp hm with hm | hm
    · rcases List.mem_append.mp hm with hm | hm
      · exact ht hm
      · simp [crlf] at hm
    · exact hr hm

/-- The function `extract_request_uri` on a buffer whose first line, the text
in front of the first CRLF, is `line`. -/
theorem extract_request_uri_of_line (request line rest : List Char)
    (hs : cstr request = line ++ crlf ++ rest) (hline : strstr line crlf = none) :
    (' ' ∉ line → extract_request_uri request = none) ∧
    (∀ a t, line = a ++ ' ' :: t → ' ' ∉ a → ' ' ∉ t → extract_request_uri request = none) ∧
    (∀ a u b, line = a ++ ' ' :: u ++ ' ' :: b → ' ' ∉ a → ' ' ∉ u →
      extract_request_uri request = some u) := by
  have hend : strstr (cstr request) crlf = some (crlf ++ rest) := by
    rw [hs]
    exact strstr_crlf_first rest line hline
  refine ⟨?_, ?_, ?_⟩
  · intro hno
    unfold extract_request_uri
    rw [hend]
    dsimp only
    rcases strchr_past_line line rest hno with h | ⟨second, h, hle⟩
    · rw [hs, h]
    · rw [hs, h]
      dsimp only
      rw [if_pos hle]
  · intro a t hl ha ht
    have hfirst : strchr (cstr request) ' ' = some (' ' :: (t ++ crlf ++ rest)) := by
      rw [hs, hl]
      simp only [List.append_assoc, List.cons_append]
      exact strchr_split ' ' _ a ha
    unfold extract_request_uri
    rw [hend, hfirst]
    dsimp only
    rw [if_neg (by simp only [List.length_cons, List.length_append]; omega)]
    simp only [List.drop_one, List.tail_cons]
    rcases strchr_past_line t rest ht with h | ⟨second, h, hle⟩
    · rw [h]
    · rw [h]
      dsimp only
      rw [if_pos hle]
  · intro a u b hl ha hu
    have hfirst : strchr (cstr request) ' '
        = some (' ' :: (u ++ ' ' :: (b ++ crlf ++ rest))) := by
      rw [hs, hl]
      simp only [List.append_assoc, List.cons_append]
      exact strchr_split ' ' _ a ha
    have hsecond : strchr (u ++ ' ' :: (b ++ crlf ++ rest)) ' '
        = some (' ' :: (b ++ crlf ++ rest)) := strchr_split ' ' _ u hu
    unfold extract_request_uri
    rw [hend, hfirst]
    dsimp only
    rw [if_neg (by simp only [List.length_cons, List.length_append]; omega)]
    simp only [List.drop_one, List.tail_cons]
    rw [hsecond]
    dsimp only
    rw [if_neg (by simp only [List.length_cons, List.length_append]; omega)]
    have hlen : (u ++ ' ' :: (b ++ crlf ++ rest)).length
        - (' ' :: (b ++ crlf ++ rest)).length = u.length := by
      simp only [List.length_cons, List.length_append]
      omega
    rw [hlen, List.take_left]

theorem not_mem_of_count_zero (x : Char) (l : List Char) (h : l.count x = 0) : x ∉ l := by
  intro hm
  have := List.count_pos_iff.mpr hm
  omega

/-- A text with fewer than two spaces has none, or one with no space on either
side; a text with two or more has a first and a second one. -/
theorem spaces_of_line (line : List Char) :
    (line.count ' ' < 2 →
      ' ' ∉ line ∨ ∃ a t, line = a ++ ' ' :: t ∧ ' ' ∉ a ∧ ' ' ∉ t) ∧
    (2 ≤ line.count ' ' →
      ∃ a u b, line = a ++ ' ' :: u ++ ' ' :: b ∧ ' ' ∉ a ∧ ' ' ∉ u) := by
  by_cases hm : ' ' ∈ line
  · obtain ⟨a, t, hl, ha⟩ := List.eq_append_cons_of_mem hm
    have hca : a.count ' ' = 0 := List.count_eq_zero_of_not_mem ha
    have hc : line.count ' ' = t.count ' ' + 1 := by
      rw [hl, List.count_append, List.count_cons_self, hca]
      omega
    constructor
    · intro h
      right
      exact ⟨a, t, hl, ha, not_mem_of_count_zero ' ' t (by omega)⟩
    · intro h
      have ht : ' ' ∈ t := List.count_pos_iff.mp (by omega)
      obtain ⟨u, b, htl, hu⟩ := List.eq_append_cons_of_mem ht
      refine ⟨a, u, b, ?_, ha, hu⟩
      rw [hl, htl]
      simp [List.append_assoc]
  · constructor
    · intro _
      exact Or.inl hm
    · intro h
      have := List.count_eq_zero_of_not_mem hm
      omega

/-- C24. The function `extract_request_uri` returns `NULL` exactly when the
buffer has no CRLF or its request line, the text in front of the first CRLF,
has fewer than two spaces (no first space, or no second one, in front of the
first CRLF); and when the request line reads `a`, a space, `u`, a space, `b`
with no space in `a` and `u`, it returns exactly `u`, the bytes strictly
between the first and the second space. -/
theorem extract_request_uri_spec (request : List Char) :
    (extract_request_uri request = none ↔
      ¬ crlf <:+: cstr request ∨
      ∃ line rest, cstr request = line ++ crlf ++ rest ∧ ¬ crlf <:+: line ∧
        line.count ' ' < 2) ∧
    (∀ line rest a u b, cstr request = line ++ crlf ++ rest → ¬ crlf <:+: line →
      line = a ++ ' ' :: u ++ ' ' :: b → ' ' ∉ a → ' ' ∉ u →
      extract_request_uri request = some u) := by
  constructor
  · constructor
    · intro hnone
      by_cases hin : crlf <:+: cstr request
      · right
        cases hst : strstr (cstr request) crlf with
        | none => exact absurd hin ((strstr_crlf_none_iff _).mp hst)
        | some line_end =>
          obtain ⟨value, post, hs, _, hv⟩ := strstr_crlf_some _ _ hst
          refine ⟨value, post, hs, (strstr_crlf_none_iff _).mp hv, ?_⟩
          by_contra hge
          obtain ⟨a, u, b, hl, ha, hu⟩ := (spaces_of_line value).2 (by omega)
          have := (extract_request_uri_of_line request value post hs hv).2.2 a u b hl ha hu
          rw [hnone] at this
          exact absurd this (by simp)
      · exact Or.inl hin
    · intro h
      rcases h with h | ⟨line, rest, hs, hline, hcount⟩
      · unfold extract_request_uri
        rw [(strstr_crlf_none_iff _).mpr h]
      · have hl := (strstr_crlf_none_iff _).mpr hline
        rcases (spaces_of_line line).1 hcount with h1 | ⟨a, t, h1, ha, ht⟩
        · exact (extract_request_uri_of_line request line rest hs hl).1 h1
        · exact (extract_request_uri_of_line request line rest hs hl).2.1 a t h1 ha ht
  · intro line rest a u b hs hline hl ha hu
    exact (extract_request_uri_of_line request line rest hs
      ((strstr_crlf_none_iff _).mpr hline)).2.2 a u b hl ha hu

/-! ## The Host header -/

/-- Where `strcasestr` finds nothing: no part of the string reads as the needle
in any case. -/
theorem strcasestr_none_of_no_match (n : List Char) (hn : n ≠ []) (s : List Char)
    (h : ∀ pre name rest, s = pre ++ name ++ rest →
      name.map Char.toLower ≠ n.map Char.toLower) :
    strcasestr s n = none := by
  cases hs : strcasestr s n with
  | none => rfl
  | some suf =>
    exfalso
    obtain ⟨pre, hpre, hsw, _⟩ := strcasestr_some n hn s suf hs
    obtain ⟨name, rest, hsuf, hname⟩ := (starts_with_ci_iff n suf).mp hsw
    exact h pre name rest (by rw [hpre, hsuf, List.append_assoc]) hname

/-- Lines 26-47 of `extract_host_header` from the pointer `host_header` on, when
it points at `name` (five bytes), a run of spaces and `rest`. -/
theorem host_value_of (name spaces rest : List Char) (hlen : name.length = 5)
    (hspaces : ∀ ch ∈ spaces, ch = ' ') (hrest : rest.head? ≠ some ' ') :
    ((name ++ spaces ++ rest).drop 5).dropWhile (fun ch => ch == ' ') = rest := by
  have hd : (name ++ spaces ++ rest).drop 5 = spaces ++ rest := by
    rw [List.append_assoc, ← hlen, List.drop_left]
  rw [hd, dropWhile_append_all _ _ _ (fun x hx => by rw [hspaces x hx]; rfl)]
  apply dropWhile_stop
  intro x hx
  rw [beq_eq_false_iff_ne]
  intro hxs
  exact hrest (by rw [hx, hxs])

theorem host_line_value (rest value post : List Char) (h : rest = value ++ crlf ++ post)
    (hv : ¬ crlf <:+: value) :
    (match strstr rest crlf with
      | none => none
      | some line_end => some (rest.take (rest.length - line_end.length))) = some value := by
  rw [h, strstr_crlf_first post value ((strstr_crlf_none_iff _).mpr hv)]
  dsimp only
  have hl : (value ++ crlf ++ post).length - (crlf ++ post).length = value.length := by
    simp only [List.length_append]
    omega
  rw [hl, List.append_assoc, List.take_left]

/-- C23, counterexample.  A tab after `Host:` is not skipped: the value
returned starts with the tab.  And a request whose only text `Host:` is the end
of `X-Forwarded-Host:` does not fail: the value of that header is returned. -/
theorem extract_host_header_counterexample :
    extract_host_header request_host_tab = some "\texample.com".toList ∧
    strcasestr (cstr request_forwarded_host) "\nHost:".toList = none ∧
    extract_host_header request_forwarded_host = some "evil".toList :=
  ⟨by decide, by decide, by decide⟩

/-- C23, amended.  When the first text `Host:` (in any case) that stands
directly after a line feed is followed by a run of spaces and then by `rest`,
or when no such text stands after a line feed and the buffer itself begins
with `Host:`, spaces and `rest`: the function returns the bytes of `rest` in
front of its first CRLF, and `NULL` when `rest` has no CRLF.  Tabs are not
skipped.  When no part of the buffer reads `Host:` in any case, the function
returns `NULL`. -/
theorem extract_host_header_spec (request : List Char) :
    ((∀ pre name rest, cstr request = pre ++ name ++ rest →
        name.map Char.toLower ≠ "host:".toList) →
      extract_host_header request = none) ∧
    (∀ pre name spaces rest, name.map Char.toLower = "host:".toList →
      (∀ ch ∈ spaces, ch = ' ') → rest.head? ≠ some ' ' →
      ((cstr request = pre ++ '\n' :: name ++ spaces ++ rest ∧
          strcasestr (pre ++ '\n' :: name.dropLast) "\nHost:".toList = none) ∨
        (pre = [] ∧ cstr request = name ++ spaces ++ rest ∧
          strcasestr (cstr request) "\nHost:".toList = none)) →
      (∀ value post, rest = value ++ crlf ++ post → ¬ crlf <:+: value →
        extract_host_header request = some value) ∧
      (¬ crlf <:+: rest → extract_host_header request = none)) := by
  constructor
  · intro hno
    have h1 : strcasestr (cstr request) "Host:".toList = none :=
      strcasestr_none_of_no_match _ (by decide) _ (fun pre name rest hs hname =>
        hno pre name rest hs (by rw [hname]; decide))
    have h2 : strcasestr (cstr request) "\nHost:".toList = none := by
      apply strcasestr_none_of_no_match _ (by decide)
      intro pre name rest hs hname
      cases name with
      | nil => simp at hname
      | cons x name =>
        simp only [List.map_cons] at hname
        have hname2 : name.map Char.toLower = "host:".toList := by
          have := (List.cons.inj hname).2
          rw [this]
          decide
        exact hno (pre ++ [x]) name rest (by rw [hs]; simp) hname2
    unfold extract_host_header
    rw [h2, h1]
  · intro pre name spaces rest hname hspaces hrest hshape
    have hlen : name.length = 5 := by
      have := congrArg List.length hname
      simpa using this
    have hfound : (match strcasestr (cstr request) "\nHost:".toList with
        | some host_header => some (host_header.drop 1)
        | none => strcasestr (cstr request) "Host:".toList)
        = some (name ++ spaces ++ rest) := by
      rcases hshape with ⟨hs, hfirst⟩ | ⟨hpre, hs, hnone⟩
      · have hname2 : ('\n' :: name).map Char.toLower = "\nHost:".toList.map Char.toLower := by
          simp only [List.map_cons, hname]
          decide
        have hne : name ≠ [] := by
          intro h; rw [h] at hlen; simp at hlen
        have hdl : ('\n' :: name).dropLast = '\n' :: name.dropLast := by
          cases name with
          | nil => exact absurd rfl hne
          | cons y ys => rfl
        have := strcasestr_first "\nHost:".toList (by decide) ('\n' :: name) (spaces ++ rest)
          hname2 pre (by rw [hdl]; exact hfirst)
        have hs2 : cstr request = pre ++ ('\n' :: name) ++ (spaces ++ rest) := by
          rw [hs]; simp [List.append_assoc]
        rw [hs2, this]
        simp [List.append_assoc]
      · have hname2 : name.map Char.toLower = "Host:".toList.map Char.toLower := by
          rw [hname]; decide
        have hshort : strcasestr ([] ++ name.dropLast) "Host:".toList = none := by
          apply strcasestr_short
          simp [hlen]
        have := strcasestr_first "Host:".toList (by decide) name (spaces ++ rest) hname2 []
          hshort
        rw [hnone]
        dsimp only
        rw [hs]
        simpa [List.append_assoc] using this
    have htail := host_value_of name spaces rest hlen hspaces hrest
    constructor
    · intro value post hr hv
      unfold extract_host_header
      dsimp only
      rw [hfound]
      dsimp only
      rw [htail]
      exact host_line_value rest value post hr hv
    · intro hr
      unfold extract_host_header
      dsimp only
      rw [hfound]
      dsimp only
      rw [htail, (strstr_crlf_none_iff _).mpr hr]

/-- Witness of C23: the header `hOsT:` followed by three spaces. -/
theorem extract_host_header_spec_witness :
    extract_host_header request_host_spaces = some "example.com".toList :=
  ((extract_host_header_spec request_host_spaces).2 "GET / HTTP/1.1\r".toList "hOsT:".toList
    "   ".toList "example.com\r\nAccept: a\r\n\r\n".toList (by decide) (by decide) (by decide)
    (Or.inl ⟨by decide, by decide⟩)).1 "example.com".toList "Accept: a\r\n\r\n".toList
    (by decide) (by decide)

/-- Witness of C24: the request line `GET /a HTTP/1.1`. -/
theorem extract_request_uri_spec_witness :
    extract_request_uri request_a = some "/a".toList :=
  (extract_request_uri_spec request_a).2 "GET /a HTTP/1.1".toList "Host: h\r\n\r\n".toList
    "GET".toList "/a".toList "HTTP/1.1".toList (by decide) (by decide) (by decide) (by decide)
    (by decide)

/-! ## The walk back from the terminator -/

/-- The first occurrence of a text is the one `strstr` finds. -/
theorem strstr_first (n : List Char) (rest : List Char) :
    ∀ head : List Char, ¬ n <:+: head ++ n.dropLast →
      strstr (head ++ n ++ rest) n = some (n ++ rest) := by
  intro head
  induction head with
  | nil =>
    intro _
    cases n with
    | nil =>
      cases rest with
      | nil => rfl
      | cons r rs => simp [strstr]
    | cons a n =>
      simp only [List.nil_append, List.cons_append]
      unfold strstr
      have hp : (a :: n).isPrefixOf (a :: (n ++ rest)) = true :=
        List.isPrefixOf_iff_prefix.mpr ⟨rest, rfl⟩
      rw [if_pos hp]
  | cons c cs ih =>
    intro h
    have hnp : ¬ n.isPrefixOf (c :: cs ++ n ++ rest) = true := by
      intro hp
      rw [List.isPrefixOf_iff_prefix] at hp
      cases hn : n with
      | nil =>
        rw [hn] at h
        exact h List.nil_infix
      | cons a n1 =>
        have hdl : n = n.dropLast ++ [n.getLast (by rw [hn]; simp)] :=
          (List.dropLast_append_getLast _).symm
        have hbig : c :: cs ++ n.dropLast <+: c :: cs ++ n ++ rest := by
          refine ⟨[n.getLast (by rw [hn]; simp)] ++ rest, ?_⟩
          conv_rhs => rw [hdl]
          simp [List.append_assoc]
        have hle : n.length ≤ (c :: cs ++ n.dropLast).length := by
          simp only [List.length_append, List.length_cons, List.length_dropLast]
          rw [hn]
          simp only [List.length_cons]
          omega
        exact h (List.prefix_of_prefix_length_le hp hbig hle).isInfix
    rw [List.cons_append, List.cons_append]
    unfold strstr
    rw [if_neg (by simpa using hnp)]
    apply ih
    intro hin
    apply h
    rw [List.cons_append, List.infix_cons_iff]
    exact Or.inr hin

theorem read_at_nat (buffer : List Char) (n : Nat) : read_at buffer (n : Int) = buffer[n]? := by
  unfold read_at
  rw [if_neg (by omega)]
  rfl

theorem infix_of_pair (l : List Char) (i : Nat) (a b : Char)
    (ha : l[i]? = some a) (hb : l[i + 1]? = some b) : [a, b] <:+: l := by
  obtain ⟨h1, ha1⟩ := List.getElem?_eq_some.mp ha
  obtain ⟨h2, hb1⟩ := List.getElem?_eq_some.mp hb
  refine ⟨l.take i, l.drop (i + 2), ?_⟩
  have e1 : l.drop i = l[i] :: l.drop (i + 1) := List.drop_eq_getElem_cons h1
  have e2 : l.drop (i + 1) = l[i + 1] :: l.drop (i + 2) := List.drop_eq_getElem_cons h2
  have : l = l.take i ++ l.drop i := (List.take_append_drop i l).symm
  conv_rhs => rw [this, e1, e2, ha1, hb1]
  simp

/-- The walk stops at `start` when `start` is the buffer start or stands right
behind a CRLF, and no offset between `start` and the first one stands right
behind a CRLF.  No read falls outside the buffer. -/
theorem last_line_start_spec (s : List Char) (start : Nat)
    (hstart : start = 0 ∨
      (2 ≤ start ∧ s[start - 2]? = some '\r' ∧ s[start - 1]? = some '\n')) :
    ∀ offset, start ≤ offset → offset ≤ s.length →
      (∀ p, start < p → p ≤ offset →
        ¬ (2 ≤ p ∧ s[p - 2]? = some '\r' ∧ s[p - 1]? = some '\n')) →
      last_line_start s offset = some start := by
  intro offset
  induction offset with
  | zero =>
    intro h _ _
    have : start = 0 := by omega
    rw [this]
    rfl
  | succ k ih =>
    intro hle hlen hnot
    unfold last_line_start
    by_cases heq : start = k + 1
    · rcases hstart with h0 | ⟨h2, hr, hn⟩
      · omega
      · rw [heq] at h2 hr hn
        rw [if_pos h2]
        have e1 : ((k + 1 : Nat) : Int) - 2 = ((k + 1 - 2 : Nat) : Int) := by omega
        have e2 : ((k + 1 : Nat) : Int) - 1 = ((k + 1 - 1 : Nat) : Int) := by omega
        rw [e1, e2, read_at_nat, read_at_nat, hr, hn]
        simp [heq]
    · have hlt : start ≤ k := by omega
      have hrec := ih hlt (by omega) (fun p hp1 hp2 => hnot p hp1 (by omega))
      have hp := hnot (k + 1) (by omega) (Nat.le_refl _)
      by_cases h2 : 2 ≤ k + 1
      · rw [if_pos h2]
        have e1 : ((k + 1 : Nat) : Int) - 2 = ((k + 1 - 2 : Nat) : Int) := by omega
        have e2 : ((k + 1 : Nat) : Int) - 1 = ((k + 1 - 1 : Nat) : Int) := by omega
        rw [e1, e2, read_at_nat, read_at_nat]
        have hi1 : k + 1 - 2 < s.length := by omega
        have hi2 : k + 1 - 1 < s.length := by omega
        rw [List.getElem?_eq_getElem hi1, List.getElem?_eq_getElem hi2]
        dsimp only
        by_cases ha : (s[k + 1 - 2] == '\r') = true
        · rw [if_pos ha]
          by_cases hb : (s[k + 1 - 1] == '\n') = true
          · exfalso
            apply hp
            refine ⟨h2, ?_, ?_⟩
            · rw [List.getElem?_eq_getElem hi1, beq_iff_eq.mp ha]
            · rw [List.getElem?_eq_getElem hi2, beq_iff_eq.mp hb]
          · rw [if_neg hb]
            exact hrec
        · rw [if_neg ha]
          exact hrec
      · rw [if_neg h2]
        exact hrec

/-- The walk over a line without CRLF that stands at the buffer start or right
behind a CRLF ends at the start of that line. -/
theorem last_line_start_of_line (pre line tail : List Char)
    (hpre : pre = [] ∨ ∃ before, pre = before ++ crlf) (hline : ¬ crlf <:+: line) :
    last_line_start (pre ++ line ++ tail) (pre.length + line.length) = some pre.length := by
  apply last_line_start_spec
  · rcases hpre with h | ⟨before, h⟩
    · left; rw [h]; rfl
    · right
      rw [h]
      refine ⟨by simp [crlf], ?_, ?_⟩
      · have : (before ++ crlf).length - 2 = before.length := by simp [crlf]
        rw [this, List.append_assoc, List.append_assoc,
          List.getElem?_append_right (Nat.le_refl _), Nat.sub_self]
        rfl
      · have : (before ++ crlf).length - 1 = before.length + 1 := by simp [crlf]
        rw [this, List.append_assoc, List.append_assoc,
          List.getElem?_append_right (Nat.le_succ _)]
        have e : before.length.succ - before.length = 1 := by omega
        rw [e]
        simp [crlf]
  · omega
  · simp only [List.length_append]
    omega
  · intro p hp1 hp2 hP
    obtain ⟨h2, hr, hn⟩ := hP
    by_cases hin : pre.length ≤ p - 2
    · -- both bytes are bytes of the line
      apply hline
      obtain ⟨i, hi⟩ : ∃ i, p - 2 = pre.length + i := ⟨p - 2 - pre.length, by omega⟩
      have hi1 : p - 1 = pre.length + (i + 1) := by omega
      rw [hi, List.append_assoc, List.getElem?_append_right (Nat.le_add_right _ _),
        Nat.add_sub_cancel_left, List.getElem?_append_left (by omega)] at hr
      rw [hi1, List.append_assoc, List.getElem?_append_right (Nat.le_add_right _ _),
        Nat.add_sub_cancel_left, List.getElem?_append_left (by omega)] at hn
      exact infix_of_pair line i _ _ hr hn
    · -- the byte in front of the line is the line feed of the CRLF
      rcases hpre with h | ⟨before, h⟩
      · rw [h] at hin hp1
        simp only [List.length_nil] at hin hp1
        omega
      · have hp : p - 2 = before.length + 1 := by
          rw [h] at hin hp1
          simp only [List.length_append, crlf, List.length_cons, List.length_nil] at hin hp1
          omega
        rw [hp, h, List.append_assoc, List.append_assoc,
          List.getElem?_append_right (Nat.le_succ _)] at hr
        have e : before.length + 1 - before.length = 1 := by omega
        rw [e] at hr
        simp [crlf] at hr

/-- The string `last_line` for a buffer that reads `pre`, `line`, CRLFCRLF,
where that CRLFCRLF is the first one, `line` has no CRLF, and `pre` is empty or
ends with a CRLF. -/
theorem last_line_of (request pre line rest : List Char)
    (hs : cstr request = pre ++ line ++ crlf ++ crlf ++ rest)
    (hpre : pre = [] ∨ ∃ before, pre = before ++ crlf) (hline : ¬ crlf <:+: line)
    (hfirst : ¬ (crlf ++ crlf) <:+: pre ++ line ++ ['\r', '\n', '\r']) :
    last_line_start (cstr request) (pre ++ line).length = some pre.length ∧
    last_line request = some line := by
  have hend : strstr (cstr request) (crlf ++ crlf) = some (crlf ++ crlf ++ rest) := by
    have := strstr_first (crlf ++ crlf) rest (pre ++ line) hfirst
    rw [hs]
    simpa [List.append_assoc] using this
  have hwalk : last_line_start (cstr request) (pre.length + line.length) = some pre.length := by
    rw [hs]
    have := last_line_start_of_line pre line (crlf ++ crlf ++ rest) hpre hline
    simpa [List.append_assoc] using this
  have hoff : (cstr request).length - (crlf ++ crlf ++ rest).length
      = pre.length + line.length := by
    rw [hs]
    simp only [List.length_append]
    omega
  constructor
  · rw [List.length_append]
    exact hwalk
  · unfold last_line
    rw [hend]
    dsimp only
    rw [hoff, hwalk]
    dsimp only
    have hd : (cstr request).drop pre.length = line ++ (crlf ++ crlf ++ rest) := by
      rw [hs]
      simp only [List.append_assoc]
      exact List.drop_left _ _
    rw [hd, Nat.add_sub_cancel_left, List.take_left]

/-- A text with a CRLF has a last one. -/
theorem last_crlf :
    ∀ head : List Char, crlf <:+: head →
      ∃ before line, head = before ++ crlf ++ line ∧ ¬ crlf <:+: line := by
  intro head
  induction head with
  | nil =>
    intro h
    have := List.IsInfix.length_le h
    simp [crlf] at this
  | cons c cs ih =>
    intro h
    by_cases hcs : crlf <:+: cs
    · obtain ⟨before, line, hb, hl⟩ := ih hcs
      exact ⟨c :: before, line, by rw [hb]; simp, hl⟩
    · rcases List.infix_cons_iff.mp h with hp | hi
      · obtain ⟨t, ht⟩ := hp
        refine ⟨[], t, by rw [← ht]; simp, ?_⟩
        intro hin
        apply hcs
        have hcs2 : cs = '\n' :: t := by
          simp only [crlf, List.cons_append, List.nil_append, List.cons.injEq] at ht
          exact ht.2.symm
        rw [hcs2, List.infix_cons_iff]
        exact Or.inr hin
      · exact absurd hi hcs

/-- A line without CRLF that is followed by CRLFCRLF has no CRLFCRLF that
starts inside it. -/
theorem single_line_first (line : List Char) (hline : ¬ crlf <:+: line) :
    ¬ (crlf ++ crlf) <:+: line ++ ['\r', '\n', '\r'] := by
  rintro ⟨s1, t, h⟩
  have hlen := congrArg List.length h
  simp only [List.length_append, crlf, List.length_cons, List.length_nil] at hlen
  have e0 : (line ++ ['\r', '\n', '\r'])[s1.length]? = some '\r' := by
    rw [← h, List.append_assoc, List.getElem?_append_right (Nat.le_refl _), Nat.sub_self]
    simp [crlf]
  have e1 : (line ++ ['\r', '\n', '\r'])[s1.length + 1]? = some '\n' := by
    rw [← h, List.append_assoc, List.getElem?_append_right (Nat.le_succ _)]
    have e : s1.length + 1 - s1.length = 1 := by omega
    rw [e]
    simp [crlf]
  by_cases hin : s1.length + 1 < line.length
  · rw [List.getElem?_append_left (by omega)] at e0
    rw [List.getElem?_append_left hin] at e1
    exact hline (infix_of_pair line _ _ _ e0 e1)
  · have hl : s1.length + 1 = line.length := by omega
    rw [hl, List.getElem?_append_right (Nat.le_refl _), Nat.sub_self] at e1
    simp at e1

/-- C25. For a buffer whose first CRLFCRLF stands behind `head`: the walk ends
without a read outside the buffer, at an offset inside `head`; when `head` has
a CRLF, the walk ends right behind the last one and the string printed after
`Request tail` is the text of `head` behind it; when `head` has none, the walk
ends at the buffer start and the string printed is `head`. -/
theorem last_line_spec (request head rest : List Char)
    (hs : cstr request = head ++ crlf ++ crlf ++ rest)
    (hfirst : ¬ (crlf ++ crlf) <:+: head ++ ['\r', '\n', '\r']) :
    (∀ before line, head = before ++ crlf ++ line → ¬ crlf <:+: line →
      last_line_start (cstr request) head.length = some (before.length + 2) ∧
      last_line request = some line) ∧
    (¬ crlf <:+: head →
      last_line_start (cstr request) head.length = some 0 ∧ last_line request = some head) ∧
    (∃ start line, last_line_start (cstr request) head.length = some start ∧
      start ≤ head.length ∧ last_line request = some line ∧ line = head.drop start) := by
  have hcase1 : ∀ before line, head = before ++ crlf ++ line → ¬ crlf <:+: line →
      last_line_start (cstr request) head.length = some (before.length + 2) ∧
      last_line request = some line := by
    intro before line hh hline
    have := last_line_of request (before ++ crlf) line rest (by rw [hs, hh])
      (Or.inr ⟨before, rfl⟩) hline (by rw [← hh]; exact hfirst)
    rw [← hh] at this
    simpa [crlf] using this
  have hcase2 : ¬ crlf <:+: head →
      last_line_start (cstr request) head.length = some 0 ∧ last_line request = some head := by
    intro hline
    have := last_line_of request [] head rest (by rw [hs]; simp) (Or.inl rfl) hline
      (by simpa using hfirst)
    simpa using this
  refine ⟨hcase1, hcase2, ?_⟩
  by_cases hin : crlf <:+: head
  · obtain ⟨before, line, hh, hline⟩ := last_crlf head hin
    obtain ⟨h1, h2⟩ := hcase1 before line hh hline
    refine ⟨before.length + 2, line, h1, ?_, h2, ?_⟩
    · rw [hh]
      simp only [List.length_append, crlf, List.length_cons, List.length_nil]
      omega
    · rw [hh]
      have : before.length + 2 = (before ++ crlf).length := by simp [crlf]
      rw [this, List.drop_left]
  · obtain ⟨h1, h2⟩ := hcase2 hin
    exact ⟨0, head, h1, Nat.zero_le _, h2, rfl⟩

/-- Witness of C25: the last header line of `request_a` is `Host: h`. -/
theorem last_line_spec_witness :
    last_line request_a = some "Host: h".toList :=
  ((last_line_spec request_a "GET /a HTTP/1.1\r\nHost: h".toList [] (by decide)
    (by decide)).1 "GET /a HTTP/1.1".toList "Host: h".toList (by decide) (by decide)).2

/-- C28, counterexample.  The header block of `request_single_line` is the
request line alone; the walk ends at the buffer start, and the string printed
after `Request tail` is the request line, not the empty string. -/
theorem single_line_tail_counterexample :
    cstr request_single_line = "GET / HTTP/1.1".toList ++ crlf ++ crlf ∧
    last_line_start (cstr request_single_line) 14 = some 0 ∧
    last_line request_single_line = some "GET / HTTP/1.1".toList ∧
    last_line request_single_line ≠ some [] :=
  ⟨by decide, by decide, by decide, by decide⟩

/-- C28, amended.  For a buffer that reads `line`, without CRLF, and then
CRLFCRLF: the walk from the terminator ends at the buffer start without a read
outside the buffer, and the string printed after `Request tail` is `line`, the
whole single line; it is empty only when `line` is. -/
theorem single_line_tail (request line rest : List Char)
    (hs : cstr request = line ++ crlf ++ crlf ++ rest) (hline : ¬ crlf <:+: line) :
    last_line_start (cstr request) line.length = some 0 ∧
    last_line request = some line ∧
    (last_line request = some [] ↔ line = []) := by
  have h := last_line_of request [] line rest (by rw [hs]; simp) (Or.inl rfl) hline
    (by simpa using single_line_first line hline)
  have h1 : last_line_start (cstr request) line.length = some 0 := by simpa using h.1
  refine ⟨h1, h.2, ?_⟩
  rw [h.2]
  constructor
  · intro he
    exact Option.some.inj he
  · intro he
    rw [he]

/-- Witness of C28: the single line `GET / HTTP/1.1`. -/
theorem single_line_tail_witness :
    last_line request_single_line = some "GET / HTTP/1.1".toList :=
  (single_line_tail request_single_line "GET / HTTP/1.1".toList [] (by decide)
    (by decide)).2.1

/-! ## The two parsers on `max-age` -/

/-- An entry with `max_age = 0` is never stale. -/
theorem never_stale_of_zero (c : cache_t) (i : Fin MAX_CACHE_ENTRIES) (now : Nat)
    (h : (c.entries i).max_age = 0) : is_cache_entry_stale c i now = false := by
  unfold is_cache_entry_stale
  simp [h]

/-- C26, failing input.  For the values `max-age=00`, `max-age= 0` and
`max-age=+0` the function `extract_max_age` returns 0 and
`is_cacheable_response` returns 1, cacheable.  The run of `request_a` answered
with `max-age=00` is committed: slot 0 is valid with `max_age = 0`, and it is
not stale at any later time. -/
theorem zero_max_age_spellings_cached :
    extract_max_age block_max_age_00 = 0 ∧ is_cacheable_response block_max_age_00 = 1 ∧
    extract_max_age block_max_age_blank_0 = 0 ∧
    is_cacheable_response block_max_age_blank_0 = 1 ∧
    extract_max_age block_max_age_plus_0 = 0 ∧
    is_cacheable_response block_max_age_plus_0 = 1 ∧
    extract_max_age block_max_age_0 = 0 ∧ is_cacheable_response block_max_age_0 = 0 ∧
    handle_client_request_cache true (cache_init 0) run_a_max_age_00
      = some after_run_a_max_age_00 ∧
    (after_run_a_max_age_00.entries 0).valid = true ∧
    (after_run_a_max_age_00.entries 0).max_age = 0 ∧
    ∀ now, is_cache_entry_stale after_run_a_max_age_00 0 now = false :=
  ⟨by decide, by decide, by decide, by decide, by decide, by decide, by decide, by decide,
   rfl, by decide, by decide,
   fun now => never_stale_of_zero after_run_a_max_age_00 0 now (by decide)⟩

/-- A difference at one position, in any case, and the text does not start
with the needle. -/
theorem starts_with_ci_mismatch :
    ∀ (i : Nat) (n s : List Char) (a b : Char), n[i]? = some a → s[i]? = some b →
      a.toLower ≠ b.toLower → starts_with_ci n s = false := by
  intro i
  induction i with
  | zero =>
    intro n s a b hn hs hab
    cases n with
    | nil => simp at hn
    | cons x n =>
      cases s with
      | nil => simp at hs
      | cons y s =>
        simp only [List.getElem?_cons_zero, Option.some.injEq] at hn hs
        simp only [starts_with_ci, hn, hs, Bool.and_eq_false_imp, beq_iff_eq]
        intro h
        exact absurd h hab
  | succ i ih =>
    intro n s a b hn hs hab
    cases n with
    | nil => simp at hn
    | cons x n =>
      cases s with
      | nil => simp at hs
      | cons y s =>
        simp only [List.getElem?_cons_succ] at hn hs
        simp only [starts_with_ci, ih n s a b hn hs hab, Bool.and_false]

/-- No `max-age` starts inside a text without `max-age` that is followed by
`max-ag`. -/
theorem strcasestr_max_age_straddle :
    ∀ p : List Char, strcasestr p "max-age".toList = none →
      strcasestr (p ++ "max-ag".toList) "max-age".toList = none := by
  intro p
  induction p with
  | nil => intro _; decide
  | cons c cs ih =>
    intro h
    unfold strcasestr at h
    by_cases hsw : starts_with_ci "max-age".toList (c :: cs) = true
    · rw [if_pos hsw] at h
      exact absurd h (by simp)
    · rw [if_neg hsw] at h
      rw [List.cons_append]
      unfold strcasestr
      have hfalse : starts_with_ci "max-age".toList (c :: (cs ++ "max-ag".toList)) = false := by
        by_cases hlen : 7 ≤ (c :: cs).length
        · have := starts_with_ci_append "max-age".toList (c :: cs) "max-ag".toList
            (by simpa using hlen)
          rw [List.cons_append] at this
          rw [this]
          simpa using hsw
        · have hi : (c :: cs).length < 7 := by omega
          have h1 : 1 ≤ (c :: cs).length := by simp
          have hs : (c :: (cs ++ "max-ag".toList))[(c :: cs).length]? = some 'm' := by
            rw [← List.cons_append, List.getElem?_append_right (Nat.le_refl _), Nat.sub_self]
            rfl
          have hn : ∃ a, "max-age".toList[(c :: cs).length]? = some a ∧
              a.toLower ≠ 'm'.toLower := by
            generalize (c :: cs).length = k at hi h1
            interval_cases k
            · exact ⟨'a', by decide, by decide⟩
            · exact ⟨'x', by decide, by decide⟩
            · exact ⟨'-', by decide, by decide⟩
            · exact ⟨'a', by decide, by decide⟩
            · exact ⟨'g', by decide, by decide⟩
            · exact ⟨'e', by decide, by decide⟩
          obtain ⟨a, ha, hne⟩ := hn
          exact starts_with_ci_mismatch _ _ _ a 'm' ha hs hne
      simp only [hfalse, Bool.false_eq_true, if_false]
      exact ih h

/-- The function `extract_max_age` on a block whose Cache-Control value holds,
at its first `max-age` text, an `=` followed by a run of decimal digits. -/
theorem extract_max_age_tail (h value max_age_pos ds : List Char)
    (hv : cache_control_value h = some value)
    (h1 : strcasestr value "max-age".toList = some max_age_pos)
    (h2 : strchr max_age_pos '=' = some ('=' :: ds))
    (hne : ds ≠ []) (hd : ∀ ch ∈ ds, isdigit ch = true) :
    extract_max_age h
      = if digits_value ds ≤ UINT32_MAX then digits_value ds else UINT32_MAX := by
  unfold extract_max_age
  rw [hv]
  simp only [h1, h2, List.drop_one, List.tail_cons]
  have h3 : skip_blanks ds = ds := by
    unfold skip_blanks
    apply dropWhile_stop
    intro x hx
    cases ds with
    | nil => simp at hx
    | cons d ds =>
      simp only [List.head?_cons, Option.some.injEq] at hx
      have hf := digit_facts d (hd d (List.mem_cons_self _ _))
      rw [← hx]
      simp [hf.2.2.2.2.1, hf.2.2.2.2.2.1]
  rw [h3, strtol_digits ds hne hd]
  simp only [Bool.not_true, Bool.false_or, decide_eq_true_eq]
  have hnn : ¬ (min LONG_MAX (digits_value ds : Int) < 0) := by
    have : (0 : Int) ≤ (digits_value ds : Int) := Int.ofNat_nonneg _
    have h63 : (0 : Int) ≤ LONG_MAX := by decide
    omega
  rw [if_neg hnn]
  by_cases hle : digits_value ds ≤ UINT32_MAX
  · have h4 : min LONG_MAX (digits_value ds : Int) = (digits_value ds : Int) := by
      have : (digits_value ds : Int) ≤ LONG_MAX := by
        have : ((UINT32_MAX : Nat) : Int) ≤ LONG_MAX := by decide
        have : (digits_value ds : Int) ≤ ((UINT32_MAX : Nat) : Int) := by exact_mod_cast hle
        omega
      omega
    have h5 : ¬ ((digits_value ds : Int) > ((UINT32_MAX : Nat) : Int)) := by
      have : (digits_value ds : Int) ≤ ((UINT32_MAX : Nat) : Int) := by exact_mod_cast hle
      omega
    rw [h4, if_neg h5, if_pos hle, Int.toNat_ofNat]
    exact Nat.mod_eq_of_lt (by
      have : UINT32_MAX < 2 ^ 32 := by decide
      omega)
  · have h5 : min LONG_MAX (digits_value ds : Int) > ((UINT32_MAX : Nat) : Int) := by
      have h6 : ((UINT32_MAX : Nat) : Int) < LONG_MAX := by decide
      have h7 : ((UINT32_MAX : Nat) : Int) < (digits_value ds : Int) := by
        exact_mod_cast (not_le.mp hle)
      omega
    rw [if_pos h5, if_neg hle]

/-- C27. For every `N` in `[0, 2^32 - 1]` and every text `p` without the text
`max-age` in any case (with or without `=` in it): on a block whose first
`Cache-Control:` text has the value `p`, `max-age=`, the decimal rendering of
`N`, then CRLF, the function `extract_max_age` returns `N`.  Nothing is asked
of the character in front of `max-age`. -/
theorem max_age_substring (h pre name blanks post p : List Char) (N : Nat)
    (hN : N ≤ 2 ^ 32 - 1)
    (hf : first_cache_control h pre name blanks
      (p ++ "max-age=".toList ++ (Nat.repr N).toList) post)
    (hfree : ∀ a m b, p = a ++ m ++ b → m.map Char.toLower ≠ "max-age".toList) :
    extract_max_age h = N := by
  obtain ⟨hne, hd, hval, _⟩ := repr_spec N
  have hv := cache_control_value_of_first h pre name blanks _ post hf
  have hp : strcasestr p "max-age".toList = none :=
    strcasestr_none_of_no_match _ (by decide) p (fun a m b hs hm =>
      hfree a m b hs (by rw [hm]; decide))
  have h1 : strcasestr (p ++ "max-age=".toList ++ (Nat.repr N).toList) "max-age".toList
      = some ("max-age".toList ++ ('=' :: (Nat.repr N).toList)) := by
    have := strcasestr_first "max-age".toList (by decide) "max-age".toList
      ('=' :: (Nat.repr N).toList) rfl p (strcasestr_max_age_straddle p hp)
    have e : p ++ "max-age=".toList ++ (Nat.repr N).toList
        = p ++ "max-age".toList ++ ('=' :: (Nat.repr N).toList) := by
      simp [List.append_assoc]
    rw [e]
    exact this
  have h2 : strchr ("max-age".toList ++ ('=' :: (Nat.repr N).toList)) '='
      = some ('=' :: (Nat.repr N).toList) :=
    strchr_split '=' _ "max-age".toList (by decide)
  have := extract_max_age_tail h _ _ _ hv h1 h2 hne hd
  rw [this, hval, if_pos hN]

theorem block_no_max_age_5_shape :
    first_cache_control block_no_max_age_5 status_line "Cache-Control:".toList [' ']
      ("no-".toList ++ "max-age=".toList ++ (Nat.repr 5).toList) crlf :=
  first_cache_control_of _ _ _ _ _ _ (by decide) (by decide) (by decide) (by decide)
    (by decide) (by decide)

/-- Witness of C27: the header `Cache-Control: no-max-age=5` yields 5. -/
theorem max_age_substring_witness :
    extract_max_age block_no_max_age_5 = 5 :=
  max_age_substring block_no_max_age_5 status_line "Cache-Control:".toList [' '] crlf
    "no-".toList 5 (by decide) block_no_max_age_5_shape
    (fun a m b hs hm => by
      have h1 := congrArg List.length hs
      have h2 := congrArg List.length hm
      simp only [List.length_append, List.length_map] at h1 h2
      have h3 : "no-".toList.length = 3 := rfl
      have h4 : "max-age".toList.length = 7 := rfl
      omega)

/-! ## The copies of the response loop -/

theorem accumulate_response_ok (s : stream_t) (total n : Nat)
    (hinv : stream_inv s total) (h1 : 1 ≤ n) (h2 : n ≤ BUFFER_SIZE)
    (h3 : total + n < 2 ^ 30) :
    ∃ size capacity, accumulate_response s (n : Int) = some (size, capacity) ∧
      size ≤ capacity ∧
      (capacity = s.complete_response_capacity ∨
        capacity = s.complete_response_capacity * 2) ∧
      (s.complete_response = true →
        size = ((total + n : Nat) : Int) ∧ (BUFFER_SIZE : Int) ≤ capacity) ∧
      (s.complete_response = false → size = 0 ∧ capacity = 0) := by
  obtain ⟨hresp, hnull, _, _, _⟩ := hinv
  unfold accumulate_response
  cases hc : s.complete_response with
  | false =>
    obtain ⟨hs, hcap⟩ := hnull hc
    refine ⟨s.complete_response_size, s.complete_response_capacity, by simp, ?_, Or.inl rfl,
      ?_, ?_⟩
    · rw [hs, hcap]
    · intro h; exact absurd h (by simp)
    · intro _; exact ⟨hs, hcap⟩
  | true =>
    obtain ⟨hs, hle, hbuf⟩ := hresp hc
    have hB : (BUFFER_SIZE : Int) = 65536 := rfl
    have hI : INT_MAX = 2147483647 := by decide
    have hn2 : (n : Int) ≤ 65536 := by
      have : n ≤ 65536 := h2
      omega
    have ht : ((total + n : Nat) : Int) < 1073741824 := by
      have : total + n < 1073741824 := h3
      omega
    simp only [if_true]
    by_cases hgrow : s.complete_response_size + (n : Int) > s.complete_response_capacity
    · rw [if_pos hgrow]
      have hno : ¬ s.complete_response_capacity * 2 > INT_MAX := by
        rw [hI]
        push_cast at ht
        omega
      rw [if_neg hno]
      have hroom : 0 ≤ s.complete_response_size ∧
          s.complete_response_size + (n : Int) ≤ s.complete_response_capacity * 2 := by
        constructor
        · rw [hs]; exact Int.ofNat_nonneg _
        · omega
      rw [if_pos hroom]
      refine ⟨_, _, rfl, hroom.2, Or.inr rfl, ?_, ?_⟩
      · intro _
        constructor
        · rw [hs]; push_cast; rfl
        · omega
      · intro h; exact absurd h (by simp)
    · rw [if_neg hgrow]
      have h0 : 0 ≤ s.complete_response_size := by rw [hs]; exact Int.ofNat_nonneg _
      rw [if_pos h0]
      refine ⟨_, _, rfl, by omega, Or.inl rfl, ?_, ?_⟩
      · intro _
        constructor
        · rw [hs]; push_cast; rfl
        · exact hbuf
      · intro h; exact absurd h (by simp)

theorem accumulate_header_ok (s : stream_t) (total : Nat) (chunk : List Char)
    (hinv : stream_inv s total) (h1 : 1 ≤ chunk.length) (h2 : chunk.length ≤ BUFFER_SIZE) :
    ∃ header accumulated, accumulate_header s chunk = some (header, accumulated) ∧
      0 ≤ accumulated ∧ accumulated ≤ (MAX_REQUEST_SIZE : Int) - 1 ∧
      (header.length : Int) = accumulated := by
  obtain ⟨_, _, h0, hmax, hlen⟩ := hinv
  have hM : (MAX_REQUEST_SIZE : Int) = 65536 := rfl
  have hn1 : (1 : Int) ≤ (chunk.length : Int) := by omega
  have hn2 : (chunk.length : Int) ≤ 65536 := by
    have : chunk.length ≤ 65536 := h2
    omega
  unfold accumulate_header
  dsimp only
  by_cases hfull : s.header_bytes_accumulated + (chunk.length : Int) ≥ (MAX_REQUEST_SIZE : Int)
  · rw [if_pos hfull]
    by_cases hpos : (MAX_REQUEST_SIZE : Int) - s.header_bytes_accumulated - 1 > 0
    · rw [if_pos hpos]
      rw [if_pos (by rw [hM] at hmax ⊢; omega)]
      refine ⟨_, _, rfl, by omega, by rw [hM]; omega, ?_⟩
      rw [List.length_append, List.length_take]
      have hmin : min ((MAX_REQUEST_SIZE : Int) - s.header_bytes_accumulated - 1).toNat
          chunk.length = ((MAX_REQUEST_SIZE : Int) - s.header_bytes_accumulated - 1).toNat := by
        apply Nat.min_eq_left
        rw [hM] at hfull ⊢
        omega
      rw [hmin]
      push_cast
      rw [Int.toNat_of_nonneg (by omega), hlen]
    · rw [if_neg hpos]
      exact ⟨_, _, rfl, h0, hmax, hlen⟩
  · rw [if_neg hfull]
    rw [if_pos (by omega)]
    rw [if_pos (by rw [hM] at hfull ⊢; omega)]
    refine ⟨_, _, rfl, by omega, by rw [hM] at hfull ⊢; omega, ?_⟩
    rw [List.length_append, List.length_take, Int.toNat_ofNat, Nat.min_self]
    push_cast
    rw [hlen]

theorem stream_inv_init (caching : Bool) : stream_inv (stream_init caching) 0 := by
  cases caching with
  | false => exact ⟨fun h => absurd h (by simp [stream_init]), fun _ => ⟨rfl, rfl⟩,
      Int.le_refl 0, by decide, rfl⟩
  | true => exact ⟨fun _ => ⟨rfl, by decide, by decide⟩,
      fun h => absurd h (by simp [stream_init]), Int.le_refl 0, by decide, rfl⟩

/-- One iteration keeps the invariant and makes no write outside a buffer. -/
theorem stream_step_ok (s : stream_t) (total : Nat) (chunk : List Char)
    (hinv : stream_inv s total) (h1 : 1 ≤ chunk.length) (h2 : chunk.length ≤ BUFFER_SIZE)
    (h3 : total + chunk.length < 2 ^ 30) :
    ∃ s1, stream_step s chunk = some s1 ∧ stream_inv s1 (total + chunk.length) := by
  obtain ⟨size, capacity, hacc, hle, _, htrue, hfalse⟩ :=
    accumulate_response_ok s total chunk.length hinv h1 h2 h3
  obtain ⟨header, accumulated, hhead, ha0, hamax, halen⟩ :=
    accumulate_header_ok s total chunk hinv h1 h2
  unfold stream_step
  rw [hacc]
  dsimp only
  cases hc : s.response_header_complete with
  | true =>
    simp only [if_true]
    refine ⟨_, rfl, ?_, ?_, hinv.2.2.1, hinv.2.2.2.1, hinv.2.2.2.2⟩
    · intro h
      exact ⟨(htrue h).1, hle, (htrue h).2⟩
    · intro h
      exact hfalse h
  | false =>
    simp only [Bool.false_eq_true, if_false]
    rw [hhead]
    refine ⟨_, rfl, ?_, ?_, ha0, hamax, halen⟩
    · intro h
      exact ⟨(htrue h).1, hle, (htrue h).2⟩
    · intro h
      exact hfalse h

theorem total_bytes_append (a b : List (List Char)) :
    total_bytes (a ++ b) = total_bytes a + total_bytes b := by
  simp [total_bytes]

theorem stream_loop_ok :
    ∀ (chunks : List (List Char)) (s : stream_t) (total : Nat), stream_inv s total →
      (∀ chunk ∈ chunks, 1 ≤ chunk.length ∧ chunk.length ≤ BUFFER_SIZE) →
      total + total_bytes chunks < 2 ^ 30 →
      ∃ s1, stream_loop s chunks = some s1 ∧ stream_inv s1 (total + total_bytes chunks) := by
  intro chunks
  induction chunks with
  | nil =>
    intro s total hinv _ _
    exact ⟨s, rfl, by simpa [total_bytes] using hinv⟩
  | cons chunk rest ih =>
    intro s total hinv hsize htotal
    have hc := hsize chunk (List.mem_cons_self _ _)
    have ht : total_bytes (chunk :: rest) = chunk.length + total_bytes rest := by
      simp [total_bytes]
    rw [ht] at htotal
    obtain ⟨s1, hstep, hinv1⟩ := stream_step_ok s total chunk hinv hc.1 hc.2 (by omega)
    obtain ⟨s2, hloop, hinv2⟩ := ih s1 (total + chunk.length) hinv1
      (fun x hx => hsize x (List.mem_cons_of_mem _ hx)) (by omega)
    refine ⟨s2, ?_, ?_⟩
    · simp only [stream_loop, hstep]
      exact hloop
    · rw [ht, ← Nat.add_assoc]
      exact hinv2

/-- C29. For every sequence of chunks of 1 to 65536 bytes each with fewer than
`2^30` bytes in all, with or without a response buffer: in front of every
iteration `complete_response_size <= complete_response_capacity` and
`0 <= header_bytes_accumulated <= MAX_REQUEST_SIZE - 1` hold, and the
iteration for the next chunk ends without a write outside a buffer and without
overflow of the doubled capacity: after at most one doubling the chunk fits
(`size + bytes_read <= capacity` at the copy). -/
theorem response_loop_in_bounds (caching : Bool) (chunks : List (List Char))
    (hsize : ∀ chunk ∈ chunks, 1 ≤ chunk.length ∧ chunk.length ≤ BUFFER_SIZE)
    (htotal : total_bytes chunks < 2 ^ 30) :
    ∀ processed rest, chunks = processed ++ rest →
      ∃ s, stream_loop (stream_init caching) processed = some s ∧
        s.complete_response_size ≤ s.complete_response_capacity ∧
        0 ≤ s.header_bytes_accumulated ∧
        s.header_bytes_accumulated ≤ (MAX_REQUEST_SIZE : Int) - 1 ∧
        (s.header_accumulator.length : Int) = s.header_bytes_accumulated ∧
        ∀ chunk rest1, rest = chunk :: rest1 →
          ∃ size capacity s1,
            accumulate_response s chunk.length = some (size, capacity) ∧
            (s.complete_response = true →
              size = s.complete_response_size + chunk.length) ∧
            size ≤ capacity ∧
            (capacity = s.complete_response_capacity ∨
              capacity = s.complete_response_capacity * 2) ∧
            stream_step s chunk = some s1 := by
  intro processed rest hsplit
  have hsum : total_bytes chunks = total_bytes processed + total_bytes rest := by
    rw [hsplit, total_bytes_append]
  obtain ⟨s, hloop, hinv⟩ := stream_loop_ok processed (stream_init caching) 0
    (stream_inv_init caching)
    (fun x hx => hsize x (by rw [hsplit]; exact List.mem_append_left _ hx)) (by omega)
  rw [Nat.zero_add] at hinv
  have hle : s.complete_response_size ≤ s.complete_response_capacity := by
    cases hc : s.complete_response with
    | true => exact (hinv.1 hc).2.1
    | false =>
      obtain ⟨h1, h2⟩ := hinv.2.1 hc
      rw [h1, h2]
  refine ⟨s, hloop, hle, hinv.2.2.1, hinv.2.2.2.1, hinv.2.2.2.2, ?_⟩
  intro chunk rest1 hrest
  have hmem : chunk ∈ chunks := by
    rw [hsplit, hrest]
    exact List.mem_append_right _ (List.mem_cons_self _ _)
  have hc := hsize chunk hmem
  have hbound : total_bytes processed + chunk.length < 2 ^ 30 := by
    have : total_bytes rest = chunk.length + total_bytes rest1 := by
      rw [hrest]; simp [total_bytes]
    omega
  obtain ⟨size, capacity, hacc, hfit, hcap, htrue, _⟩ :=
    accumulate_response_ok s (total_bytes processed) chunk.length hinv hc.1 hc.2 hbound
  obtain ⟨s1, hstep, _⟩ := stream_step_ok s (total_bytes processed) chunk hinv hc.1 hc.2 hbound
  refine ⟨size, capacity, s1, hacc, ?_, hfit, hcap, hstep⟩
  intro hresp
  rw [(htrue hresp).1, (hinv.1 hresp).1]
  push_cast
  rfl

/-- Witness of C29: two chunks of 17 and 3 bytes into a response buffer. -/
theorem response_loop_in_bounds_witness :
    ∃ s, stream_loop (stream_init true) chunks_abc = some s ∧
      s.complete_response_size ≤ s.complete_response_capacity ∧
      0 ≤ s.header_bytes_accumulated ∧
      s.header_bytes_accumulated ≤ (MAX_REQUEST_SIZE : Int) - 1 := by
  obtain ⟨s, h1, h2, h3, h4, _⟩ := response_loop_in_bounds true chunks_abc (by decide)
    (by decide) chunks_abc [] (by simp)
  exact ⟨s, h1, h2, h3, h4⟩

end WebProxy
